import Mathlib

/-!
The calendar program tomcalendar: date specs and the calendar parser.

A shallow embedding of `pkg/datespec/datespec.go`, `pkg/parser/parser.go` and the agenda loop
of `cmd/tomcalendar/main.go`, and the properties of the specification proved or refuted on it.

Go's `int` is modelled by `Int`, and a remainder by zero, on which Go panics, by the result
`none`.  The standard library is not part of the repository: the few operations of `time`,
`strings`, `strconv`, `regexp`, `bufio` and `encoding/json` the program uses are modelled from
their documented behaviour.

For `time` the calendar is the proleptic Gregorian calendar, for years in the range a
`time.Time` represents.  An instant is a number of seconds since 1970-01-01 00:00:00 UTC
together with its location; a location is the offset of its clocks from UTC and the instants
at which that offset changes.  The global `time.Local`, which the program reads through
`time.Date`, is a parameter `Local` of every function that depends on it: the zone of the
machine the program runs on.
-/

set_option autoImplicit false
set_option maxRecDepth 20000

/-! ## The part of Go's `time` package the program uses -/

namespace time

/-- Leap years of the proleptic Gregorian calendar (`isLeap` of package `time`). -/
def isLeap (year : Int) : Bool :=
  year % 4 == 0 && (year % 100 != 0 || year % 400 == 0)

/-- Number of days of month `month` (1..12) in `year`; 0 outside that range. -/
def daysIn (year month : Int) : Int :=
  if month = 2 then (if isLeap year then 29 else 28)
  else if month = 4 ∨ month = 6 ∨ month = 9 ∨ month = 11 then 30
  else if 1 ≤ month ∧ month ≤ 12 then 31
  else 0

/-- Number of days of a non-leap year before the first of `month` (the table `daysBefore` of
package `time`). -/
def daysBefore (month : Int) : Int :=
  if month ≤ 1 then 0
  else if month = 2 then 31
  else if month = 3 then 59
  else if month = 4 then 90
  else if month = 5 then 120
  else if month = 6 then 151
  else if month = 7 then 181
  else if month = 8 then 212
  else if month = 9 then 243
  else if month = 10 then 273
  else if month = 11 then 304
  else 334

/-- Number of days in `year`. -/
def daysInYear (year : Int) : Int := if isLeap year then 366 else 365

/-- Number of days from 0001-01-01 to the first of January of `year` (proleptic Gregorian
calendar, floor division). -/
def daysBeforeYear (year : Int) : Int :=
  365 * (year - 1) + (year - 1) / 4 - (year - 1) / 100 + (year - 1) / 400

/-- A civil date: what a clock's calendar shows.  The dates `time.Date` works with after
normalisation have `1 ≤ Month ≤ 12` and `1 ≤ Day ≤ daysIn Year Month`. -/
structure Civil where
  Year : Int
  Month : Int
  Day : Int
deriving DecidableEq

/-- The month before `(year, month)`. -/
def prevMonth (year month : Int) : Int × Int :=
  if month ≤ 1 then (year - 1, 12) else (year, month - 1)

/-- The month after `(year, month)`. -/
def nextMonth (year month : Int) : Int × Int :=
  if month ≥ 12 then (year + 1, 1) else (year, month + 1)

/-- Day normalisation of `time.Date`: a day below 1 borrows whole months from the left, a day
past the end of the month carries into the following months ("October 32 converts to
November 1").  Every step moves `day` by at least 28 towards the range, so
`day.natAbs + 1` steps are enough. -/
def normDay (year month day : Int) : Nat → Civil
  | 0 => ⟨year, month, day⟩
  | steps + 1 =>
    if day < 1 then
      let p := prevMonth year month
      normDay p.1 p.2 (day + daysIn p.1 p.2) steps
    else if day > daysIn year month then
      let n := nextMonth year month
      normDay n.1 n.2 (day - daysIn year month) steps
    else ⟨year, month, day⟩

/-- The first step of `time.Date(year, month, day, 0, 0, 0, 0, loc)`: the civil date the
arguments stand for.  The month is normalised first, overflowing into the year, then the
day. -/
def norm (year month day : Int) : Civil :=
  let m := month - 1
  let year := year + m / 12
  let month := m % 12 + 1
  normDay year month day (day.natAbs + 1)

/-- Day of the year of a civil date: 1..365, or 1..366 in a leap year. -/
def Civil.YearDay (t : Civil) : Int :=
  daysBefore t.Month + (if isLeap t.Year ∧ t.Month ≥ 3 then 1 else 0) + t.Day

/-- Signed number of days from 1970-01-01 to the civil date `t`. -/
def Civil.dayNumber (t : Civil) : Int :=
  daysBeforeYear t.Year + t.YearDay - 1 - 719162

/-- Month and day of the month of day `yday` (from 1) of a year; `leap` is 1 in a leap year
and 0 otherwise. -/
def monthDay (leap yday : Int) : Int × Int :=
  if yday ≤ 31 then (1, yday)
  else if yday ≤ 59 + leap then (2, yday - 31)
  else if yday ≤ 90 + leap then (3, yday - 59 - leap)
  else if yday ≤ 120 + leap then (4, yday - 90 - leap)
  else if yday ≤ 151 + leap then (5, yday - 120 - leap)
  else if yday ≤ 181 + leap then (6, yday - 151 - leap)
  else if yday ≤ 212 + leap then (7, yday - 181 - leap)
  else if yday ≤ 243 + leap then (8, yday - 212 - leap)
  else if yday ≤ 273 + leap then (9, yday - 243 - leap)
  else if yday ≤ 304 + leap then (10, yday - 273 - leap)
  else if yday ≤ 334 + leap then (11, yday - 304 - leap)
  else (12, yday - 334 - leap)

/-- The civil date with day number `n` (days since 1970-01-01), computed as package `time`
does: whole cycles of 400 years, then of 100 years (at most three), of 4 years, and single
years (at most three), then the month and day within the year. -/
def civilOfDays (n : Int) : Civil :=
  let d := n + 719162
  let n400 := d / 146097
  let d := d - 146097 * n400
  let n100 := if d / 36524 ≥ 4 then 3 else d / 36524
  let d := d - 36524 * n100
  let n4 := d / 1461
  let d := d - 1461 * n4
  let n1 := if d / 365 ≥ 4 then 3 else d / 365
  let d := d - 365 * n1
  let year := 400 * n400 + 100 * n100 + 4 * n4 + n1 + 1
  let md := monthDay (if isLeap year then 1 else 0) (d + 1)
  ⟨year, md.1, md.2⟩

/-- The type `time.Location`, a time zone: the offset of its clocks from UTC, in seconds east,
before its first transition, and its transitions in increasing order of time, each the Unix
second at which the offset changes and the offset from then on. -/
structure Location where
  first : Int
  trans : List (Int × Int)
deriving DecidableEq

/-- The location `time.UTC`. -/
def UTC : Location := ⟨0, []⟩

/-- The beginning of time for `lookup`, the least `int64` (`alpha` of package `time`). -/
def alphaSec : Int := -9223372036854775808

/-- The end of time for `lookup`, the greatest `int64` (`omega` of package `time`). -/
def omegaSec : Int := 9223372036854775807

/-- The search of `lookup` through the transitions still ahead, `offset` being in effect since
`start`. -/
def lookupFrom (offset start : Int) : List (Int × Int) → Int → Int × Int × Int
  | [], _ => (offset, start, omegaSec)
  | (w, off) :: rest, sec =>
    if sec < w then (offset, start, w) else lookupFrom off w rest sec

/-- Method `lookup` of `Location`: the offset in effect at the Unix second `sec`, and the
seconds at which that offset starts and ends being in effect. -/
def Location.lookup (l : Location) (sec : Int) : Int × Int × Int :=
  lookupFrom l.first alphaSec l.trans sec

/-- The type `time.Time` at the precision of seconds: an instant, as seconds since 1970-01-01
00:00:00 UTC, and the location in which it is read. -/
structure Time where
  unix : Int
  loc : Location
deriving DecidableEq

/-- What the clocks of `t.loc` show at `t`, in seconds since 00:00:00 of their 1970-01-01. -/
def Time.localSec (t : Time) : Int := t.unix + (t.loc.lookup t.unix).1

/-- Day number of the civil date the clocks of `t.loc` show at `t`. -/
def Time.days (t : Time) : Int := t.localSec / 86400

/-- The civil date the clocks of `t.loc` show at `t`. -/
def Time.civil (t : Time) : Civil := civilOfDays t.days

/-- Method `t.Year()`. -/
def Time.Year (t : Time) : Int := t.civil.Year

/-- Method `t.Month()`. -/
def Time.Month (t : Time) : Int := t.civil.Month

/-- Method `t.Day()`. -/
def Time.Day (t : Time) : Int := t.civil.Day

/-- Method `t.YearDay()`: 1..365, or 1..366 in a leap year. -/
def Time.YearDay (t : Time) : Int := t.civil.YearDay

/-- Method `t.Weekday()`, with Sunday = 0; 1970-01-01 was a Thursday (4). -/
def Time.Weekday (t : Time) : Int := (t.days + 4) % 7

/-- Method `t.After(u)`: the instant `t` is later than the instant `u`. -/
def Time.After (t u : Time) : Bool := decide (t.unix > u.unix)

/-- The second step of `time.Date(year, month, day, 0, 0, 0, 0, loc)`, for the civil day of
day number `day`: the instant is first taken as if the date were read in UTC, `lookup` gives
the offset in effect in `loc` at that second, and the offset is subtracted; when the second so
obtained lies outside the period in which that offset is in effect, the offset in effect at
that second is subtracted instead. -/
def midnight (day : Int) (loc : Location) : Time :=
  let unix := day * 86400
  let z := loc.lookup unix
  if z.1 ≠ 0 then
    let utc := unix - z.1
    let offset := if utc < z.2.1 ∨ utc ≥ z.2.2 then (loc.lookup utc).1 else z.1
    ⟨unix - offset, loc⟩
  else ⟨unix, loc⟩

/-- The function `time.Date(year, month, day, 0, 0, 0, 0, loc)`. -/
def Date (year month day : Int) (loc : Location) : Time :=
  midnight (norm year month day).dayNumber loc

end time

/-! ## `pkg/datespec/datespec.go` -/

namespace datespec

/-- The struct `Date`. -/
structure Date where
  Year : Int
  Month : Int
  Day : Int
deriving DecidableEq

/-- The implementations of the interface `DateSpec`. -/
inductive DateSpec where
  | Daily : DateSpec
  | Union (Specs : List DateSpec) : DateSpec
  | EveryNthDay (Count : Int) : DateSpec
  | Weekday (Weekday : Int) : DateSpec
  | EveryNthWeekday (Weekday : Int) (Count : Int) : DateSpec
  | DayOfMonth (Day : Int) : DateSpec
  | Yearly (Month : Int) (Day : Int) : DateSpec
  | SingleDay (Year : Int) (Month : Int) (Day : Int) : DateSpec

/-- Method `LocalStartOfDay`; `Local` is the global `time.Local`. -/
def Date.LocalStartOfDay (d : Date) (Local : time.Location) : time.Time :=
  time.Date d.Year d.Month d.Day Local

/-- The loop `for year := a.Year(); year < b.Year(); year++` of `daysBetween`, run for its
`n` iterations starting at `year`: each adds the year-day of December 31 of the year, taken
in `time.UTC`. -/
def daysBetweenLoop (year days : Int) : Nat → Int
  | 0 => days
  | n + 1 => daysBetweenLoop (year + 1) (days + (time.Date year 12 31 time.UTC).YearDay) n

/-- Function `daysBetween`. -/
def daysBetween (a b : time.Time) : Int :=
  let ab := if a.After b then (b, a) else (a, b)
  let a := ab.1
  let b := ab.2
  let days := -a.YearDay
  let days := daysBetweenLoop a.Year days (b.Year - a.Year).toNat
  days + b.YearDay

/-- Function `daysSinceEpoch`; `Local` is the global `time.Local`. -/
def daysSinceEpoch (date : Date) (Local : time.Location) : Int :=
  daysBetween (date.LocalStartOfDay Local) (time.Date 1970 1 1 Local)

mutual
/-- Method `OccursOn` of every implementation of `DateSpec`; `Local` is the global
`time.Local`.  `none` is the run-time panic of an integer remainder by zero. -/
def DateSpec.OccursOn : DateSpec → time.Location → Date → Option Bool
  | .Daily, _, _ => some true
  | .Union Specs, Local, date => OccursOnAny Specs Local date
  | .EveryNthDay Count, Local, date =>
    if Count = 0 then none else some (Int.tmod (daysSinceEpoch date Local) Count == 0)
  | .Weekday Weekday, Local, date => some ((date.LocalStartOfDay Local).Weekday == Weekday)
  | .EveryNthWeekday Weekday Count, Local, date =>
    if (date.LocalStartOfDay Local).Weekday == Weekday then
      (if Count = 0 then none
       else some (Int.tmod (Int.tdiv (daysSinceEpoch date Local) 7) Count == 0))
    else some false
  | .DayOfMonth Day, Local, date =>
    if Day < 0 then
      some ((time.Date date.Year (date.Month + 1) (Day + 1) Local).Day == date.Day)
    else some (Day == date.Day)
  | .Yearly Month Day, _, date => some (Month == date.Month && Day == date.Day)
  | .SingleDay Year Month Day, _, date =>
    some (Year == date.Year && Month == date.Month && Day == date.Day)
/-- The loop of `UnionDateSpec.OccursOn` over the remaining `Specs`. -/
def OccursOnAny : List DateSpec → time.Location → Date → Option Bool
  | [], _, _ => some false
  | spec :: rest, Local, date =>
    match spec.OccursOn Local date with
    | none => none
    | some true => some true
    | some false => OccursOnAny rest Local date
end

/-- A valid calendar date. -/
def Date.Valid (d : Date) : Prop :=
  1 ≤ d.Month ∧ d.Month ≤ 12 ∧ 1 ≤ d.Day ∧ d.Day ≤ time.daysIn d.Year d.Month

instance (d : Date) : Decidable d.Valid := by unfold Date.Valid; infer_instance

end datespec

/-! ## Notions of the specification about dates, zones and date specs -/

namespace time

/-- A normalised civil date. -/
def Civil.Valid (t : Civil) : Prop :=
  1 ≤ t.Month ∧ t.Month ≤ 12 ∧ 1 ≤ t.Day ∧ t.Day ≤ daysIn t.Year t.Month

/-- The extra day of a leap year. -/
def leapAdj (y : Int) : Int := if isLeap y then 1 else 0

/-- Calendar order of civil dates: `t` is a later date than `u`. -/
def Civil.After (t u : Civil) : Bool :=
  decide (t.Year > u.Year ∨ (t.Year = u.Year ∧ (t.Month > u.Month ∨
    (t.Month = u.Month ∧ t.Day > u.Day))))

/-- The offsets a location ever has. -/
def Location.offsets (l : Location) : List Int := l.first :: l.trans.map Prod.snd

/-- Any two offsets of the location differ by less than a day: its clocks never jump by 24
hours or more. -/
def Location.Spread (l : Location) : Prop := ∀ o ∈ l.offsets, ∀ p ∈ l.offsets, o - p < 86400

instance (l : Location) : Decidable l.Spread := by unfold Location.Spread; infer_instance

/-- The civil day of day number `day` starts in the location at a midnight that `time.Date`
finds: the instant it returns for the day shows 00:00:00 of that day on the location's
clocks.  It fails when the clocks are moved forward at 00:00, so that the day starts at
01:00. -/
def Location.Midnight (l : Location) (day : Int) : Prop :=
  (midnight day l).localSec = day * 86400

instance (l : Location) (day : Int) : Decidable (l.Midnight day) := by
  unfold Location.Midnight; infer_instance

/-- A zone that agrees with `America/Sao_Paulo` at the instants looked up below: UTC-3 at the
epoch and in November 2018 until 2018-11-04 03:00:00 UTC, the local midnight at which its
clocks went forward to 01:00, UTC-2.  The clock changes of that zone between 1970 and 2018
play no part in those lookups and are left out. -/
def saoPaulo : Location := ⟨-10800, [(1541300400, -7200)]⟩

/-- A zone that agrees with `Atlantic/Azores` at the end of March 2019: UTC-1 until 2019-03-31
01:00:00 UTC, the local midnight at which its clocks went forward to 01:00, UTC+0. -/
def azores : Location := ⟨-3600, [(1553994000, 0)]⟩

/-- A zone that agrees with `America/Mazatlan` in the first days of 1970: UTC-8 until
1970-01-01 08:00:00 UTC, the local midnight at which its clocks went forward to 01:00,
UTC-7. -/
def mazatlan : Location := ⟨-28800, [(28800, -25200)]⟩

end time

namespace datespec
open time

/-- Signed number of days from 1970-01-01 to the civil date `d`: negative before the epoch. -/
def signedDays (d : Date) : Int := (Civil.mk d.Year d.Month d.Day).dayNumber

/-- Calendar order: `d` is an earlier date than `e`. -/
def Date.Before (d e : Date) : Prop :=
  d.Year < e.Year ∨ (d.Year = e.Year ∧ (d.Month < e.Month ∨ (d.Month = e.Month ∧ d.Day < e.Day)))

instance (d e : Date) : Decidable (d.Before e) := by unfold Date.Before; infer_instance

/-- The calendar day after `d`. -/
def Date.next (d : Date) : Date :=
  if d.Day < daysIn d.Year d.Month then ⟨d.Year, d.Month, d.Day + 1⟩
  else if d.Month < 12 then ⟨d.Year, d.Month + 1, 1⟩
  else ⟨d.Year + 1, 1, 1⟩

/-- Day of the week of the civil date `d`, Sunday = 0 (1970-01-01 was a Thursday). -/
def Date.weekday (d : Date) : Int := (signedDays d + 4) % 7

/-- The epoch, 1970-01-01. -/
def epoch : Date := ⟨1970, 1, 1⟩

mutual
/-- The invariants of the data model on a date spec: the counts of `EveryNthDay` and
`EveryNthWeekday` are at least 1, the day of `DayOfMonth` is in [-31, -1] or [1, 31], the day
of `SingleDay` is in [1, 31], and so for every spec of a `Union`. -/
def DateSpec.WellFormed : DateSpec → Bool
  | .Daily => true
  | .Union Specs => AllWellFormed Specs
  | .EveryNthDay Count => decide (1 ≤ Count)
  | .Weekday _ => true
  | .EveryNthWeekday _ Count => decide (1 ≤ Count)
  | .DayOfMonth Day => decide ((-31 ≤ Day ∧ Day ≤ -1) ∨ (1 ≤ Day ∧ Day ≤ 31))
  | .Yearly _ _ => true
  | .SingleDay _ _ Day => decide (1 ≤ Day ∧ Day ≤ 31)
/-- Every spec of the list is well-formed. -/
def AllWellFormed : List DateSpec → Bool
  | [] => true
  | spec :: rest => spec.WellFormed && AllWellFormed rest
end

end datespec

/-! ## The part of Go's `strings`, `unicode`, `strconv` and `regexp` packages the parser uses

Go strings are modelled by `String`, read as the list of their characters (`String.data`). -/

namespace strings

/-- The predicate `unicode.IsSpace`: the Unicode White_Space characters. -/
def IsSpace (c : Char) : Bool :=
  c = '\t' || c = '\n' || c = '\x0b' || c = '\x0c' || c = '\r' || c = ' ' ||
  c = '\u0085' || c = '\u00a0' || c = '\u1680' || (0x2000 ≤ c.val && c.val ≤ 0x200a) ||
  c = '\u2028' || c = '\u2029' || c = '\u202f' || c = '\u205f' || c = '\u3000'

/-- The function `strings.TrimSpace`: leading and trailing white space removed. -/
def TrimSpace (s : String) : String :=
  ⟨((s.data.dropWhile IsSpace).reverse.dropWhile IsSpace).reverse⟩

/-- The function `unicode.ToLower` on the characters that matter when the result is compared
with an ASCII word: the letters `A`..`Z`, and the two non-ASCII characters whose lower case is
an ASCII letter (U+0130 and the Kelvin sign U+212A).  Every other character is lower-cased by
Go to a character outside ASCII, or left alone; it is left alone here. -/
def toLowerChar (c : Char) : Char :=
  if 'A'.val ≤ c.val ∧ c.val ≤ 'Z'.val then Char.ofNat (c.toNat + 32)
  else if c = '\u0130' then 'i'
  else if c = '\u212a' then 'k'
  else c

/-- The function `strings.ToLower`. -/
def ToLower (s : String) : String := ⟨s.data.map toLowerChar⟩

/-- The function `strings.Contains(s, sep)` for a separator `sep` of one character. -/
def Contains (s : String) (sep : Char) : Bool := s.data.contains sep

/-- Cut a character list at the first occurrence of `sep`: the text before it and the text
after it; `none` when `sep` does not occur. -/
def cut (sep : Char) : List Char → Option (List Char × List Char)
  | [] => none
  | c :: cs =>
    if c = sep then some ([], cs)
    else match cut sep cs with
      | none => none
      | some (a, b) => some (c :: a, b)

/-- The function `strings.SplitN(s, sep, 2)` for `sep` of one character: the text before and
after the first `sep`, or `s` alone when there is none. -/
def SplitN2 (s : String) (sep : Char) : List String :=
  match cut sep s.data with
  | none => [s]
  | some (a, b) => [⟨a⟩, ⟨b⟩]

/-- Pieces of a character list between the occurrences of `sep`. -/
def splitList (sep : Char) : List Char → List (List Char)
  | [] => [[]]
  | c :: cs =>
    if c = sep then [] :: splitList sep cs
    else match splitList sep cs with
      | [] => [[c]]
      | p :: ps => (c :: p) :: ps

/-- The function `strings.Split(s, sep)` for `sep` of one character. -/
def Split (s : String) (sep : Char) : List String := (splitList sep s.data).map String.mk

end strings

namespace strconv

/-- An ASCII decimal digit. -/
def isDigit (c : Char) : Bool := '0'.val ≤ c.val && c.val ≤ '9'.val

/-- Value of a list of decimal digits, most significant first, after the digits read so far
gave `acc`. -/
def digitsValue (acc : Nat) : List Char → Nat
  | [] => acc
  | c :: cs => digitsValue (acc * 10 + (c.toNat - '0'.toNat)) cs

/-- The function `strconv.Atoi`: an optional sign and one or more decimal digits, in the range
of a 64-bit `int`; `none` is its error result (syntax or range). -/
def Atoi (s : String) : Option Int :=
  let (neg, ds) := match s.data with
    | '-' :: ds => (true, ds)
    | '+' :: ds => (false, ds)
    | ds => (false, ds)
  if ds.isEmpty || !ds.all isDigit then none
  else
    let n : Int := digitsValue 0 ds
    let v := if neg then -n else n
    if -(2 ^ 63) ≤ v ∧ v ≤ 2 ^ 63 - 1 then some v else none

end strconv

/-! ## `pkg/parser/parser.go` -/

namespace parser
open datespec

/-- The struct `Entry`. -/
structure Entry where
  Title : String
  DateSpec : DateSpec

/-- The message formats of the parser's errors, each with the arguments of its verbs other than
the leading path and line number. -/
inductive Message where
  /-- The Go format `date spec required for first entry`. -/
  | firstEntry
  /-- The Go format `no tab found in %q`. -/
  | noTab (line : String)
  /-- The Go format `date spec %q has no entries`. -/
  | noEntries (text : String)
  /-- The Go format `could not parse interval %q: %v`; `num` is the text `strconv.Atoi`
  rejected. -/
  | interval (text : String) (num : String)
  /-- The Go format `day count is %q, but must be at least 1`. -/
  | dayCount (text : String)
  /-- The Go format `could not parse weekday %q`. -/
  | weekday (text : String)
  /-- The Go format `week count is %q, but must be at least 1`. -/
  | weekCount (text : String)
  /-- The Go format `could not parse day of month %q: %v`. -/
  | dayOfMonth (text : String)
  /-- The Go format `day of month %d is out of range [-31, -1] ∪ [1, 31]`. -/
  | dayOfMonthRange (day : Int)
  /-- The Go format `unrecognized month %q`. -/
  | month (text : String)
  /-- The Go format `day of month %d is out of range [1, 31]`. -/
  | dayRange (day : Int)
  /-- The Go format `could not parse year %q: %v`. -/
  | year (text : String)
  /-- The Go format `unrecognized date specifier: %q`. -/
  | unrecognized (text : String)
deriving DecidableEq

/-- The errors `Parse` and `ParseDateSpec` return. -/
inductive Error where
  /-- The Go format `scanner: %v`, for the error of the line scanner. -/
  | scanner (err : String)
  /-- The Go format `%s:%d: ` followed by one of the messages. -/
  | located (path : String) (line : Nat) (msg : Message)
deriving DecidableEq

/-- The text of a message; `q` renders the verb `%q` (Go's `strconv.Quote`) and `v` the Atoi
error of the verb `%v`. -/
def Message.text (q v : String → String) : Message → String
  | .firstEntry => "date spec required for first entry"
  | .noTab line => "no tab found in " ++ q line
  | .noEntries text => "date spec " ++ q text ++ " has no entries"
  | .interval text num => "could not parse interval " ++ q text ++ ": " ++ v num
  | .dayCount text => "day count is " ++ q text ++ ", but must be at least 1"
  | .weekday text => "could not parse weekday " ++ q text
  | .weekCount text => "week count is " ++ q text ++ ", but must be at least 1"
  | .dayOfMonth text => "could not parse day of month " ++ q text ++ ": " ++ v text
  | .dayOfMonthRange day =>
    "day of month " ++ toString day ++ " is out of range [-31, -1] ∪ [1, 31]"
  | .month text => "unrecognized month " ++ q text
  | .dayRange day => "day of month " ++ toString day ++ " is out of range [1, 31]"
  | .year text => "could not parse year " ++ q text ++ ": " ++ v text
  | .unrecognized text => "unrecognized date specifier: " ++ q text

/-- The text of an error, method `Error()`. -/
def Error.text (q v : String → String) : Error → String
  | .scanner err => "scanner: " ++ err
  | .located path line msg => path ++ ":" ++ toString line ++ ": " ++ msg.text q v

/-- White space of the regular expression class `\s`. -/
def isRegexpSpace (c : Char) : Bool :=
  c = '\t' || c = '\n' || c = '\x0c' || c = '\r' || c = ' '

/-- Whether `commentPattern`, `^\s*(#|//).*$`, matches: after leading white space comes `#` or
`//`, and no line feed follows (`.` does not match one). -/
def commentPattern (line : String) : Bool :=
  let rest := line.data.dropWhile isRegexpSpace
  (match rest with
    | '#' :: _ => true
    | '/' :: '/' :: _ => true
    | _ => false) && rest.all (· ≠ '\n')

/-- The call `commentPattern.ReplaceAllString(line, "")`: the pattern is anchored at both ends,
so its only match is the whole line. -/
def stripComment (line : String) : String :=
  if commentPattern line then "" else line

/-- One or more decimal digits, the pattern `[0-9]+`. -/
def isDigits (s : List Char) : Bool := !s.isEmpty && s.all strconv.isDigit

/-- Submatch of `everyNthDayPattern`, `^\*/([0-9]+)$`. -/
def everyNthDayPattern (s : String) : Option String :=
  match s.data with
  | '*' :: '/' :: ds => if isDigits ds then some ⟨ds⟩ else none
  | _ => none

/-- Names of the days of the week, `time.Weekday.String()`, from `time.Sunday` = 0. -/
def weekdayNames : List String :=
  ["Sunday", "Monday", "Tuesday", "Wednesday", "Thursday", "Friday", "Saturday"]

/-- Names of the months, `time.Month.String()`, from `time.January` = 1. -/
def monthNames : List String :=
  ["January", "February", "March", "April", "May", "June", "July", "August", "September",
   "October", "November", "December"]

/-- Submatches of `everyNthWeekdayPattern`,
`^(Sunday|Monday|Tuesday|Wednesday|Thursday|Friday|Saturday)/([0-9]+)$`. -/
def everyNthWeekdayPattern (s : String) : Option (String × String) :=
  match strings.cut '/' s.data with
  | none => none
  | some (name, ds) =>
    if weekdayNames.contains ⟨name⟩ && isDigits ds then some (⟨name⟩, ⟨ds⟩) else none

/-- Submatch of `dayOfMonthPattern`, `^(-?[0-9]+) \*$`. -/
def dayOfMonthPattern (s : String) : Option String :=
  match strings.cut ' ' s.data with
  | none => none
  | some (num, rest) =>
    let ds := match num with
      | '-' :: ds => ds
      | ds => ds
    if isDigits ds && rest = ['*'] then some ⟨num⟩ else none

/-- Submatches of `yearlyPattern`, `^([^ ]+) ([0-9]+)$`. -/
def yearlyPattern (s : String) : Option (String × String) :=
  match strings.cut ' ' s.data with
  | none => none
  | some (name, ds) =>
    if !name.isEmpty && isDigits ds then some (⟨name⟩, ⟨ds⟩) else none

/-- Submatches of `singleDayPattern`, `^([^ ]+) ([0-9]+), ([0-9]+)$`. -/
def singleDayPattern (s : String) : Option (String × String × String) :=
  match strings.cut ' ' s.data with
  | none => none
  | some (name, rest) =>
    match strings.cut ',' rest with
    | some (ds, ' ' :: ys) =>
      if !name.isEmpty && isDigits ds && isDigits ys then some (⟨name⟩, ⟨ds⟩, ⟨ys⟩) else none
    | _ => none

/-- Function `getWeekday`: the first weekday whose lower-cased name is the lower-cased `s`. -/
def getWeekday (s : String) : Option Int :=
  let s := strings.ToLower s
  (weekdayNames.findIdx? (fun name => strings.ToLower name == s)).map (fun wd => (wd : Int))

/-- Function `getMonth`: the first month, from `time.January` = 1, whose lower-cased name is
the lower-cased `s`. -/
def getMonth (s : String) : Option Int :=
  let s := strings.ToLower s
  (monthNames.findIdx? (fun name => strings.ToLower name == s)).map (fun m => (m : Int) + 1)

/-- The branches of `ParseDateSpec` after the test for `|`, on the trimmed text `s`. -/
def parseSingle (s path : String) (lineNumber : Nat) : Except Error DateSpec :=
  if s = "*" then .ok .Daily
  else match everyNthDayPattern s with
  | some m1 =>
    match strconv.Atoi m1 with
    | none => .error (.located path lineNumber (.interval m1 m1))
    | some count =>
      if count ≤ 0 then .error (.located path lineNumber (.dayCount m1))
      else .ok (.EveryNthDay count)
  | none =>
  match getWeekday s with
  | some weekday => .ok (.Weekday weekday)
  | none =>
  match everyNthWeekdayPattern s with
  | some (m1, m2) =>
    match getWeekday m1 with
    | none => .error (.located path lineNumber (.weekday m1))
    | some weekday =>
      match strconv.Atoi m2 with
      | none => .error (.located path lineNumber (.interval m1 m2))
      | some count =>
        if count ≤ 0 then .error (.located path lineNumber (.weekCount m2))
        else .ok (.EveryNthWeekday weekday count)
  | none =>
  match dayOfMonthPattern s with
  | some m1 =>
    match strconv.Atoi m1 with
    | none => .error (.located path lineNumber (.dayOfMonth m1))
    | some day =>
      if day < -31 ∨ day > 31 ∨ day = 0 then
        .error (.located path lineNumber (.dayOfMonthRange day))
      else .ok (.DayOfMonth day)
  | none =>
  match yearlyPattern s with
  | some (m1, m2) =>
    match getMonth m1 with
    | none => .error (.located path lineNumber (.month m1))
    | some month =>
      match strconv.Atoi m2 with
      | none => .error (.located path lineNumber (.dayOfMonth m2))
      | some day => .ok (.Yearly month day)
  | none =>
  match singleDayPattern s with
  | some (m1, m2, m3) =>
    match getMonth m1 with
    | none => .error (.located path lineNumber (.month m1))
    | some month =>
      match strconv.Atoi m2 with
      | none => .error (.located path lineNumber (.dayOfMonth m2))
      | some day =>
        if day < 1 ∨ day > 31 then .error (.located path lineNumber (.dayRange day))
        else match strconv.Atoi m3 with
          | none => .error (.located path lineNumber (.year m3))
          | some year => .ok (.SingleDay year month day)
  | none => .error (.located path lineNumber (.unrecognized s))

/-- The loop of `ParseDateSpec` over the `|`-separated patterns: each is parsed by `parse`, the
first error is returned, the specs are collected in order. -/
def parsePatterns (parse : String → Except Error DateSpec) :
    List String → Except Error (List DateSpec)
  | [] => .ok []
  | pattern :: rest =>
    match parse pattern with
    | .error err => .error err
    | .ok spec =>
      match parsePatterns parse rest with
      | .error err => .error err
      | .ok specs => .ok (spec :: specs)

/-- Function `ParseDateSpec` with its recursion bounded by `depth` nested calls.  A text cut at
every `|` has no `|` left, so the recursive calls never recurse themselves: at depth 0 only
the branches for a text without `|` are present. -/
def ParseDateSpecDepth (path : String) (lineNumber : Nat) : Nat → String → Except Error DateSpec
  | 0, s => parseSingle (strings.TrimSpace s) path lineNumber
  | depth + 1, s =>
    let s := strings.TrimSpace s
    if strings.Contains s '|' then
      match parsePatterns (ParseDateSpecDepth path lineNumber depth) (strings.Split s '|') with
      | .error err => .error err
      | .ok specs => .ok (.Union specs)
    else parseSingle s path lineNumber

/-- Function `ParseDateSpec`. -/
def ParseDateSpec (s path : String) (lineNumber : Nat) : Except Error DateSpec :=
  ParseDateSpecDepth path lineNumber 1 s

/-- The local variables of `Parse` that live across the iterations of its loop. -/
structure State where
  entries : List Entry
  lastDateSpec : Option DateSpec
  lastDateSpecText : String
  lastDateSpecLine : Nat
  foundEntries : Bool

/-- The body of the loop of `Parse` for line number `i` holding `line`. -/
def parseLine (path : String) (i : Nat) (st : State) (line : String) : Except Error State :=
  let line := stripComment line
  if line = "" then .ok st
  else
    match strings.SplitN2 line '\t' with
    | [field0] =>
      match ParseDateSpec field0 path i with
      | .error err => .error err
      | .ok dateSpec =>
        .ok { st with lastDateSpec := some dateSpec, lastDateSpecText := field0,
                      lastDateSpecLine := i, foundEntries := false }
    | [field0, field1] =>
      if field0 = "" then
        match st.lastDateSpec with
        | none => .error (.located path i .firstEntry)
        | some lastDateSpec =>
          .ok { st with entries := st.entries ++ [⟨field1, lastDateSpec⟩], foundEntries := true }
      else
        match ParseDateSpec field0 path i with
        | .error err => .error err
        | .ok dateSpec =>
          .ok { entries := st.entries ++ [⟨field1, dateSpec⟩], lastDateSpec := some dateSpec,
                lastDateSpecText := field0, lastDateSpecLine := i, foundEntries := true }
    | _ => .error (.located path i (.noTab line))

/-- The loop of `Parse` over the lines the scanner yields, the first of them numbered `i`. -/
def parseLoop (path : String) : Nat → State → List String → Except Error State
  | _, st, [] => .ok st
  | i, st, line :: rest =>
    match parseLine path i st line with
    | .error err => .error err
    | .ok st => parseLoop path (i + 1) st rest

/-- Function `Parse`.  The reader is represented by what the line scanner makes of it: the
lines `scanner.Text()` yields in turn, and the error `scanner.Err()` reports once they are
exhausted (`none` for a reader read to its end). -/
def Parse (lines : List String) (scanErr : Option String) (path : String) :
    Except Error (List Entry) :=
  match parseLoop path 1 ⟨[], none, "", 0, false⟩ lines with
  | .error err => .error err
  | .ok st =>
    match scanErr with
    | some err => .error (.scanner err)
    | none =>
      if st.lastDateSpec.isSome && !st.foundEntries then
        .error (.located path st.lastDateSpecLine (.noEntries st.lastDateSpecText))
      else .ok st.entries

end parser

/-! ## Notions of the specification about the lines of a calendar -/

namespace parser
open datespec

/-- A line that is empty after comment stripping: the loop of `Parse` skips it. -/
def isBlank (line : String) : Bool := decide (stripComment line = "")

/-- The line contains a tab. -/
def hasTab (line : String) : Bool := line.data.contains '\t'

/-- The line starts with a tab. -/
def startsWithTab (line : String) : Bool := decide (line.data.head? = some '\t')

/-- The text before the first tab of the line; the whole line when it has no tab. -/
def firstField (line : String) : String := ⟨line.data.takeWhile (· ≠ '\t')⟩

/-- The text after the first tab of the line. -/
def afterFirstTab (line : String) : String := ⟨(line.data.dropWhile (· ≠ '\t')).drop 1⟩

/-- A line that yields an entry: not blank, with a tab. -/
def isEntryLine (line : String) : Bool := !isBlank line && hasTab line

/-- A title line: not blank, starting with a tab. -/
def isTitleLine (line : String) : Bool := !isBlank line && startsWithTab line

/-- A date-spec declaration: a line that is not blank and does not start with a tab, either a
lone spec or a spec followed by a tab and a title. -/
def isDecl (line : String) : Bool := !isBlank line && !startsWithTab line

/-- Every declaration among the lines has a first field that `ParseDateSpec` accepts. -/
def WellFormedLines (path : String) (lines : List String) : Prop :=
  ∀ l ∈ lines, isDecl l = true → ∀ n, ∃ spec, ParseDateSpec (firstField l) path n = .ok spec

/-- The first line that is not blank, if there is one, does not start with a tab. -/
def firstLineDeclares (lines : List String) : Bool :=
  (lines.find? (fun l => !isBlank l)).all (fun l => !startsWithTab l)

end parser

/-! ## Notions of the specification about comments and the divisors of `OccursOn` -/

namespace datespec

mutual
/-- The divisors of the remainders (`%`) that `OccursOn` evaluates on `date`, in the order of
evaluation: the `Count` of `EveryNthDay`, the `Count` of `EveryNthWeekday` when the weekday
matches, and in a `Union` those of the specs the loop reaches. -/
def DateSpec.divisors : DateSpec → time.Location → Date → List Int
  | .Daily, _, _ => []
  | .Union Specs, Local, date => divisorsAny Specs Local date
  | .EveryNthDay Count, _, _ => [Count]
  | .Weekday _, _, _ => []
  | .EveryNthWeekday Weekday Count, Local, date =>
    if (date.LocalStartOfDay Local).Weekday == Weekday then [Count] else []
  | .DayOfMonth _, _, _ => []
  | .Yearly _ _, _, _ => []
  | .SingleDay _ _ _, _, _ => []
/-- The divisors evaluated by the loop of `UnionDateSpec.OccursOn` over the remaining specs: the
loop goes on to the next spec only when the one before returned false. -/
def divisorsAny : List DateSpec → time.Location → Date → List Int
  | [], _, _ => []
  | spec :: rest, Local, date =>
    spec.divisors Local date ++
      (match spec.OccursOn Local date with
       | some false => divisorsAny rest Local date
       | _ => [])
end

end datespec

namespace parser

/-- A whole-line comment: optional white space (of the class `\s`), then `#` or `//`, then any
text without a line feed (a line of the scanner holds none). -/
def wholeLineComment (line : String) : Prop :=
  ∃ ws marker rest, line.data = ws ++ marker ++ rest ∧ (∀ c ∈ ws, isRegexpSpace c = true) ∧
    (marker = ['#'] ∨ marker = ['/', '/']) ∧ '\n' ∉ rest

end parser

/-! ## JSON export: `MarshalJSON`

The result of `json.Marshal` is represented by the JSON value its bytes encode. -/

namespace json

/-- A JSON value.  The members of an object are kept in the order `json.Marshal` writes them. -/
inductive Value where
  | null : Value
  | number (n : Int) : Value
  | string (s : String) : Value
  | array (elems : List Value) : Value
  | object (members : List (String × Value)) : Value

/-- Go's order of strings, by bytes: for UTF-8 text it is the lexicographic order of the code
points. -/
def keyLess : List Char → List Char → Bool
  | _, [] => false
  | [], _ :: _ => true
  | a :: as, b :: bs =>
    if a.toNat < b.toNat then true
    else if b.toNat < a.toNat then false
    else keyLess as bs

/-- Insert a member into members sorted by key. -/
def insertMember (m : String × Value) : List (String × Value) → List (String × Value)
  | [] => [m]
  | x :: rest =>
    if keyLess m.1.data x.1.data then m :: x :: rest else x :: insertMember m rest

/-- Members sorted by key. -/
def sortMembers : List (String × Value) → List (String × Value)
  | [] => []
  | m :: rest => insertMember m (sortMembers rest)

/-- The call `json.Marshal(map[string]interface{}{...})` on a map given by its literal: an
object whose members are written in the order of their keys. -/
def Marshal (members : List (String × Value)) : Value := .object (sortMembers members)

end json

namespace datespec

mutual
/-- Method `MarshalJSON` of every implementation of `DateSpec`. -/
def DateSpec.MarshalJSON : DateSpec → json.Value
  | .Union Specs =>
    json.Marshal [("type", .string "union"), ("specs", .array (MarshalJSONAll Specs))]
  | .Daily => json.Marshal [("type", .string "daily")]
  | .EveryNthDay Count =>
    json.Marshal [
      ("type", .string "everyNth"),
      ("spec", json.Marshal [("type", .string "daily")]),
      ("baseDate", json.Marshal [("year", .number 1970), ("month", .number 1),
        ("day", .number 1)]),
      ("n", .number Count)]
  | .Weekday Weekday =>
    json.Marshal [("type", .string "dayOfWeek"), ("weekday", .number (Weekday + 1))]
  | .EveryNthWeekday Weekday Count =>
    json.Marshal [
      ("type", .string "everyNth"),
      ("spec", json.Marshal [("type", .string "dayOfWeek"),
        ("weekday", .number (Weekday + 1))]),
      ("baseDate", json.Marshal [("year", .number 1970), ("month", .number 1),
        ("day", .number 1)]),
      ("n", .number Count)]
  | .DayOfMonth Day => json.Marshal [("type", .string "dayOfMonth"), ("day", .number Day)]
  | .Yearly Month Day =>
    json.Marshal [("type", .string "dayOfYear"), ("month", .number Month),
      ("day", .number Day)]
  | .SingleDay Year Month Day =>
    json.Marshal [
      ("type", .string "singleDay"),
      ("date", json.Marshal [("year", .number Year), ("month", .number Month),
        ("day", .number Day)])]
/-- The elements of the JSON array written for the slice `Specs` (taken not to be nil): the
`MarshalJSON` of each spec, in order. -/
def MarshalJSONAll : List DateSpec → List json.Value
  | [] => []
  | spec :: rest => spec.MarshalJSON :: MarshalJSONAll rest
end

/-- The calendar day before `d`. -/
def Date.prev (d : Date) : Date :=
  if 1 < d.Day then ⟨d.Year, d.Month, d.Day - 1⟩
  else ⟨(time.prevMonth d.Year d.Month).1, (time.prevMonth d.Year d.Month).2,
    time.daysIn (time.prevMonth d.Year d.Month).1 (time.prevMonth d.Year d.Month).2⟩

/-- The date `n` days before `d`. -/
def stepBack : Nat → Date → Date
  | 0, d => d
  | n + 1, d => (stepBack n d).prev

/-- The first day of the month after the month of `date`: the first day of `date`'s month,
advanced by one month. -/
def firstOfNextMonth (date : Date) : Date :=
  ⟨(time.nextMonth date.Year date.Month).1, (time.nextMonth date.Year date.Month).2, 1⟩

/-- The comparison the specification describes under the name `resolveNegativeDayOfMonth(date,
day)` for `day < 0`, in its words: take the first day of `date`'s month, advance one month,
step back `|day| - 1` days, and compare the day of the month of the result with `date.Day`. -/
def resolveNegativeDayOfMonth (date : Date) (day : Int) : Bool :=
  (stepBack (day.natAbs - 1) (firstOfNextMonth date)).Day == date.Day

end datespec

namespace parser

/-- Method `MarshalJSON` of `Entry`. -/
def Entry.MarshalJSON (s : Entry) : json.Value :=
  json.Marshal [("text", .string s.Title), ("spec", s.DateSpec.MarshalJSON)]

end parser


namespace datespec

/-- The date `n` days after `d`. -/
def stepForward : Nat → Date → Date
  | 0, d => d
  | n + 1, d => (stepForward n d).next

/-- The dates on or after 1970-01-01 that fall on weekday `w`, in chronological order and
counted from 0: the first one lies `(w + 3) mod 7` days after the epoch (a Thursday), inside
the block 1970-01-01..1970-01-07, and each following one seven days after the one before. -/
def nthWeekdayFromEpoch (w : Int) (i : Nat) : Date :=
  stepForward (((w + 3) % 7).toNat + 7 * i) epoch

end datespec

/-! ## The command: the agenda query at the end of `main` -/

namespace tomcalendar
open datespec parser

/-- The inner loop of `main`, `for _, date := range dates`, for one entry: whether the
`if entry.DateSpec.OccursOn(date)` succeeds for some date, the dates tried in order and the
loop left at the first success (`break`).  `none` is a panic inside `OccursOn`; `Local` is the
global `time.Local`. -/
def matchesAny (Local : time.Location) (spec : DateSpec) : List Date → Option Bool
  | [] => some false
  | date :: rest =>
    match spec.OccursOn Local date with
    | none => none
    | some true => some true
    | some false => matchesAny Local spec rest

/-- The outer loop of `main`, `for _, entry := range entries`: the titles it prints, one per
`fmt.Printf("%s\n", entry.Title)`, in the order printed.  `.ok` is a run to the end of the
loop, `.error` a run a panic cut short, with what was printed before it. -/
def agenda (Local : time.Location) : List Entry → List Date → Except (List String) (List String)
  | [], _ => .ok []
  | entry :: rest, dates =>
    match matchesAny Local entry.DateSpec dates with
    | none => .error []
    | some hit =>
      match agenda Local rest dates with
      | .ok out => .ok (if hit then entry.Title :: out else out)
      | .error out => .error (if hit then entry.Title :: out else out)

end tomcalendar

/-! ## The calendar: day numbers and normalisation -/

namespace time

theorem isLeap_iff (y : Int) :
    isLeap y = true ↔ (y % 4 = 0 ∧ (y % 100 ≠ 0 ∨ y % 400 = 0)) := by
  simp [isLeap]

theorem daysInYear_eq (y : Int) :
    daysInYear y = if (y % 4 = 0 ∧ (y % 100 ≠ 0 ∨ y % 400 = 0)) then 366 else 365 := by
  unfold daysInYear
  simp only [isLeap_iff]

theorem daysBeforeYear_succ (y : Int) :
    daysBeforeYear (y + 1) = daysBeforeYear y + daysInYear y := by
  rw [daysInYear_eq]
  unfold daysBeforeYear
  split <;> omega

theorem daysBeforeYear_add (y : Int) (n : Nat) :
    daysBeforeYear y + 365 * n ≤ daysBeforeYear (y + n) := by
  induction n with
  | zero => simp
  | succ k ih =>
    have h := daysBeforeYear_succ (y + k)
    have h2 := daysInYear_eq (y + k)
    push_cast
    rw [← add_assoc, h]
    split at h2 <;> omega

theorem normDay_of_valid (y m d : Int) (n : Nat) (h1 : 1 ≤ d) (h2 : d ≤ daysIn y m) :
    normDay y m d n = ⟨y, m, d⟩ := by
  cases n with
  | zero => rfl
  | succ k =>
    unfold normDay
    rw [if_neg (by omega), if_neg (by omega)]

theorem norm_of_valid (y m d : Int) (hm1 : 1 ≤ m) (hm2 : m ≤ 12) (h1 : 1 ≤ d)
    (h2 : d ≤ daysIn y m) : norm y m d = ⟨y, m, d⟩ := by
  unfold norm
  have e1 : y + (m - 1) / 12 = y := by omega
  have e2 : (m - 1) % 12 + 1 = m := by omega
  simp only [e1, e2]
  exact normDay_of_valid y m d _ h1 h2

theorem leapAdj_bounds (y : Int) : 0 ≤ leapAdj y ∧ leapAdj y ≤ 1 := by
  unfold leapAdj; split <;> omega

theorem daysInYear_leapAdj (y : Int) : daysInYear y = 365 + leapAdj y := by
  unfold daysInYear leapAdj; split <;> rfl

theorem YearDay_cases (y m d : Int) (h : Civil.Valid ⟨y, m, d⟩) :
    (m = 1 ∧ (Civil.mk y m d).YearDay = d ∧ d ≤ 31) ∨
    (m = 2 ∧ (Civil.mk y m d).YearDay = 31 + d ∧ d ≤ 28 + leapAdj y) ∨
    (m = 3 ∧ (Civil.mk y m d).YearDay = 59 + leapAdj y + d ∧ d ≤ 31) ∨
    (m = 4 ∧ (Civil.mk y m d).YearDay = 90 + leapAdj y + d ∧ d ≤ 30) ∨
    (m = 5 ∧ (Civil.mk y m d).YearDay = 120 + leapAdj y + d ∧ d ≤ 31) ∨
    (m = 6 ∧ (Civil.mk y m d).YearDay = 151 + leapAdj y + d ∧ d ≤ 30) ∨
    (m = 7 ∧ (Civil.mk y m d).YearDay = 181 + leapAdj y + d ∧ d ≤ 31) ∨
    (m = 8 ∧ (Civil.mk y m d).YearDay = 212 + leapAdj y + d ∧ d ≤ 31) ∨
    (m = 9 ∧ (Civil.mk y m d).YearDay = 243 + leapAdj y + d ∧ d ≤ 30) ∨
    (m = 10 ∧ (Civil.mk y m d).YearDay = 273 + leapAdj y + d ∧ d ≤ 31) ∨
    (m = 11 ∧ (Civil.mk y m d).YearDay = 304 + leapAdj y + d ∧ d ≤ 30) ∨
    (m = 12 ∧ (Civil.mk y m d).YearDay = 334 + leapAdj y + d ∧ d ≤ 31) := by
  obtain ⟨hm1, hm2, hd1, hd2⟩ := h
  simp only [Civil.YearDay, leapAdj] at *
  have hm : m = 1 ∨ m = 2 ∨ m = 3 ∨ m = 4 ∨ m = 5 ∨ m = 6 ∨ m = 7 ∨ m = 8 ∨ m = 9 ∨ m = 10
      ∨ m = 11 ∨ m = 12 := by omega
  rcases hm with h | h | h | h | h | h | h | h | h | h | h | h <;> subst h <;>
    cases hl : isLeap y <;> simp [daysIn, daysBefore, hl] at hd2 ⊢ <;> omega

theorem YearDay_bounds (t : Civil) (h : t.Valid) :
    1 ≤ t.YearDay ∧ t.YearDay ≤ daysInYear t.Year := by
  obtain ⟨y, m, d⟩ := t
  have hc := YearDay_cases y m d h
  have hl := leapAdj_bounds y
  have hy := daysInYear_leapAdj y
  obtain ⟨_, _, hd1, _⟩ := h
  simp only at hd1 ⊢
  omega

theorem YearDay_lt_of_month_lt (y m1 d1 m2 d2 : Int) (h1 : Civil.Valid ⟨y, m1, d1⟩)
    (h2 : Civil.Valid ⟨y, m2, d2⟩) (hlt : m1 < m2) :
    (Civil.mk y m1 d1).YearDay < (Civil.mk y m2 d2).YearDay := by
  have c1 := YearDay_cases y m1 d1 h1
  have c2 := YearDay_cases y m2 d2 h2
  have hl := leapAdj_bounds y
  obtain ⟨_, _, hd1, _⟩ := h1
  obtain ⟨_, _, he1, _⟩ := h2
  simp only at hd1 he1
  omega

theorem YearDay_lt_of_day_lt (y m d1 d2 : Int) (hlt : d1 < d2) :
    (Civil.mk y m d1).YearDay < (Civil.mk y m d2).YearDay := by
  simp only [Civil.YearDay]; omega

theorem dayNumber_lt_of_year_lt (t u : Civil) (ht : t.Valid) (hu : u.Valid)
    (h : t.Year < u.Year) : t.dayNumber < u.dayNumber := by
  have b1 := YearDay_bounds t ht
  have b2 := YearDay_bounds u hu
  have hs := daysBeforeYear_succ t.Year
  have hadd := daysBeforeYear_add (t.Year + 1) (u.Year - (t.Year + 1)).toNat
  have e : t.Year + 1 + ((u.Year - (t.Year + 1)).toNat : Int) = u.Year := by omega
  rw [e] at hadd
  simp only [Civil.dayNumber]
  omega

theorem After_iff (t u : Civil) (ht : t.Valid) (hu : u.Valid) :
    t.After u = true ↔ u.dayNumber < t.dayNumber := by
  obtain ⟨y1, m1, d1⟩ := t
  obtain ⟨y2, m2, d2⟩ := u
  simp only [Civil.After, decide_eq_true_eq]
  rcases lt_trichotomy y1 y2 with hy | hy | hy
  · have := dayNumber_lt_of_year_lt _ _ ht hu hy
    constructor
    · intro h; omega
    · intro h; omega
  · subst hy
    simp only [Civil.dayNumber]
    rcases lt_trichotomy m1 m2 with hm | hm | hm
    · have := YearDay_lt_of_month_lt y1 m1 d1 m2 d2 ht hu hm
      constructor
      · intro h; omega
      · intro h; omega
    · subst hm
      rcases lt_trichotomy d1 d2 with hd | hd | hd
      · have := YearDay_lt_of_day_lt y1 m1 d1 d2 hd
        constructor
        · intro h; omega
        · intro h; omega
      · subst hd
        constructor
        · intro h; omega
        · intro h; omega
      · have := YearDay_lt_of_day_lt y1 m1 d2 d1 hd
        constructor
        · intro _; omega
        · intro _; exact Or.inr ⟨trivial, Or.inr ⟨rfl, hd⟩⟩
    · have := YearDay_lt_of_month_lt y1 m2 d2 m1 d1 hu ht hm
      constructor
      · intro _; omega
      · intro _; exact Or.inr ⟨trivial, Or.inl hm⟩
  · have := dayNumber_lt_of_year_lt _ _ hu ht hy
    constructor
    · intro _; omega
    · intro _; exact Or.inl hy

theorem eq_of_dayNumber_eq (t u : Civil) (ht : t.Valid) (hu : u.Valid)
    (h : t.dayNumber = u.dayNumber) : t = u := by
  have h1 : t.After u = false := by
    cases hc : t.After u
    · rfl
    · have := (After_iff t u ht hu).mp hc
      omega
  have h2 : u.After t = false := by
    cases hc : u.After t
    · rfl
    · have := (After_iff u t hu ht).mp hc
      omega
  obtain ⟨y1, m1, d1⟩ := t
  obtain ⟨y2, m2, d2⟩ := u
  simp only [Civil.After, decide_eq_false_iff_not] at h1 h2
  have : y1 = y2 ∧ m1 = m2 ∧ d1 = d2 := by omega
  simp [this]

/-! ## From a day number back to the civil date -/

theorem monthDay_cases (L yday : Int) :
    (yday ≤ 31 ∧ monthDay L yday = (1, yday)) ∨
    (31 < yday ∧ yday ≤ 59 + L ∧ monthDay L yday = (2, yday - 31)) ∨
    (59 + L < yday ∧ yday ≤ 90 + L ∧ monthDay L yday = (3, yday - 59 - L)) ∨
    (90 + L < yday ∧ yday ≤ 120 + L ∧ monthDay L yday = (4, yday - 90 - L)) ∨
    (120 + L < yday ∧ yday ≤ 151 + L ∧ monthDay L yday = (5, yday - 120 - L)) ∨
    (151 + L < yday ∧ yday ≤ 181 + L ∧ monthDay L yday = (6, yday - 151 - L)) ∨
    (181 + L < yday ∧ yday ≤ 212 + L ∧ monthDay L yday = (7, yday - 181 - L)) ∨
    (212 + L < yday ∧ yday ≤ 243 + L ∧ monthDay L yday = (8, yday - 212 - L)) ∨
    (243 + L < yday ∧ yday ≤ 273 + L ∧ monthDay L yday = (9, yday - 243 - L)) ∨
    (273 + L < yday ∧ yday ≤ 304 + L ∧ monthDay L yday = (10, yday - 273 - L)) ∨
    (304 + L < yday ∧ yday ≤ 334 + L ∧ monthDay L yday = (11, yday - 304 - L)) ∨
    (334 + L < yday ∧ monthDay L yday = (12, yday - 334 - L)) := by
  unfold monthDay
  by_cases h1 : yday ≤ 31
  · exact Or.inl ⟨h1, by rw [if_pos h1]⟩
  rw [if_neg h1]
  refine Or.inr ?_
  by_cases h2 : yday ≤ 59 + L
  · exact Or.inl ⟨by omega, h2, by rw [if_pos h2]⟩
  rw [if_neg h2]
  refine Or.inr ?_
  by_cases h3 : yday ≤ 90 + L
  · exact Or.inl ⟨by omega, h3, by rw [if_pos h3]⟩
  rw [if_neg h3]
  refine Or.inr ?_
  by_cases h4 : yday ≤ 120 + L
  · exact Or.inl ⟨by omega, h4, by rw [if_pos h4]⟩
  rw [if_neg h4]
  refine Or.inr ?_
  by_cases h5 : yday ≤ 151 + L
  · exact Or.inl ⟨by omega, h5, by rw [if_pos h5]⟩
  rw [if_neg h5]
  refine Or.inr ?_
  by_cases h6 : yday ≤ 181 + L
  · exact Or.inl ⟨by omega, h6, by rw [if_pos h6]⟩
  rw [if_neg h6]
  refine Or.inr ?_
  by_cases h7 : yday ≤ 212 + L
  · exact Or.inl ⟨by omega, h7, by rw [if_pos h7]⟩
  rw [if_neg h7]
  refine Or.inr ?_
  by_cases h8 : yday ≤ 243 + L
  · exact Or.inl ⟨by omega, h8, by rw [if_pos h8]⟩
  rw [if_neg h8]
  refine Or.inr ?_
  by_cases h9 : yday ≤ 273 + L
  · exact Or.inl ⟨by omega, h9, by rw [if_pos h9]⟩
  rw [if_neg h9]
  refine Or.inr ?_
  by_cases h10 : yday ≤ 304 + L
  · exact Or.inl ⟨by omega, h10, by rw [if_pos h10]⟩
  rw [if_neg h10]
  refine Or.inr ?_
  by_cases h11 : yday ≤ 334 + L
  · exact Or.inl ⟨by omega, h11, by rw [if_pos h11]⟩
  rw [if_neg h11]
  refine Or.inr ?_
  exact ⟨by omega, rfl⟩

theorem monthDay_spec (y yday : Int) (h1 : 1 ≤ yday) (h2 : yday ≤ daysInYear y) :
    Civil.Valid ⟨y, (monthDay (if isLeap y then 1 else 0) yday).1,
      (monthDay (if isLeap y then 1 else 0) yday).2⟩ ∧
    (Civil.mk y (monthDay (if isLeap y then 1 else 0) yday).1
      (monthDay (if isLeap y then 1 else 0) yday).2).YearDay = yday := by
  unfold daysInYear at h2
  unfold Civil.Valid Civil.YearDay
  cases hl : isLeap y <;> simp only [hl, Bool.false_eq_true, if_false, if_true] at h2 ⊢
  · rcases monthDay_cases 0 yday with h | h | h | h | h | h | h | h | h | h | h | h <;>
      simp [h, daysIn, daysBefore, hl] <;> omega
  · rcases monthDay_cases 1 yday with h | h | h | h | h | h | h | h | h | h | h | h <;>
      simp [h, daysIn, daysBefore, hl] <;> omega

/-- The civil date computed from a day number is a valid date with that day number. -/
theorem civilOfDays_spec (n : Int) :
    (civilOfDays n).Valid ∧ (civilOfDays n).dayNumber = n := by
  unfold civilOfDays
  simp only
  generalize hD : n + 719162 = D
  generalize ha : D / 146097 = a
  generalize hr : D - 146097 * a = r
  generalize hb : (if r / 36524 ≥ 4 then 3 else r / 36524) = b
  generalize hr2 : r - 36524 * b = r2
  generalize hc : r2 / 1461 = c
  generalize hr3 : r2 - 1461 * c = r3
  generalize he : (if r3 / 365 ≥ 4 then 3 else r3 / 365) = e
  generalize hr4 : r3 - 365 * e = r4
  generalize hy : 400 * a + 100 * b + 4 * c + e + 1 = y
  have hrb : 0 ≤ r ∧ r ≤ 146096 := by omega
  have hbb : 0 ≤ b ∧ b ≤ 3 ∧ 0 ≤ r2 ∧ (r2 ≤ 36523 ∨ (b = 3 ∧ r2 ≤ 36524)) := by
    split_ifs at hb <;> omega
  have hcb : 0 ≤ c ∧ c ≤ 24 ∧ 0 ≤ r3 ∧ r3 ≤ 1460 := by omega
  have heb : 0 ≤ e ∧ e ≤ 3 ∧ 0 ≤ r4 ∧ (r4 ≤ 364 ∨ (e = 3 ∧ r4 ≤ 365)) := by
    split_ifs at he <;> omega
  have hleap : isLeap y = true ↔ (e = 3 ∧ (c ≠ 24 ∨ b = 3)) := by
    rw [isLeap_iff]; omega
  have hyd : 1 ≤ r4 + 1 ∧ r4 + 1 ≤ daysInYear y := by
    unfold daysInYear
    cases hl : isLeap y
    · simp only [Bool.false_eq_true, if_false]
      have : ¬ (e = 3 ∧ (c ≠ 24 ∨ b = 3)) := by rw [← hleap, hl]; simp
      omega
    · simp only [if_true]; omega
  obtain ⟨hv, hyday⟩ := monthDay_spec y (r4 + 1) hyd.1 hyd.2
  refine ⟨hv, ?_⟩
  unfold Civil.dayNumber
  rw [hyday]
  unfold daysBeforeYear
  dsimp only
  clear hb he hleap hyd hv hyday
  have h400 : (y - 1) / 400 = a := by omega
  have h100 : (y - 1) / 100 = 4 * a + b := by omega
  have h4 : (y - 1) / 4 = 100 * a + 25 * b + c := by omega
  rw [h400, h100, h4]
  omega

theorem civilOfDays_dayNumber (c : Civil) (h : c.Valid) : civilOfDays c.dayNumber = c :=
  eq_of_dayNumber_eq _ _ (civilOfDays_spec _).1 h (civilOfDays_spec _).2

/-! ## Instants and zones -/

theorem lookupFrom_mem (offset start : Int) (tr : List (Int × Int)) (sec : Int) :
    (lookupFrom offset start tr sec).1 = offset ∨
      (lookupFrom offset start tr sec).1 ∈ tr.map Prod.snd := by
  induction tr generalizing offset start with
  | nil => exact Or.inl rfl
  | cons x rest ih =>
    obtain ⟨w, off⟩ := x
    simp only [lookupFrom]
    split_ifs
    · exact Or.inl rfl
    · right
      rcases ih off w with h | h
      · simp [h]
      · simp only [List.map_cons, List.mem_cons]
        exact Or.inr h

theorem lookup_mem_offsets (l : Location) (sec : Int) : (l.lookup sec).1 ∈ l.offsets := by
  unfold Location.lookup Location.offsets
  rcases lookupFrom_mem l.first alphaSec l.trans sec with h | h
  · simp [h]
  · exact List.mem_cons_of_mem _ h

theorem midnight_loc (day : Int) (l : Location) : (midnight day l).loc = l := by
  unfold midnight
  simp only
  split_ifs <;> rfl

/-- Where the midnight of a day exists, `time.Date` returns that midnight: the day's start on
a UTC clock, less an offset of the location. -/
theorem midnight_unix (l : Location) (day : Int) (h : l.Midnight day) :
    ∃ o ∈ l.offsets, (midnight day l).unix = day * 86400 - o := by
  unfold Location.Midnight Time.localSec at h
  rw [midnight_loc] at h
  exact ⟨(l.lookup (midnight day l).unix).1, lookup_mem_offsets l _, by omega⟩

theorem midnight_days (l : Location) (day : Int) (h : l.Midnight day) :
    (midnight day l).days = day := by
  unfold Location.Midnight at h
  unfold Time.days
  rw [h]
  omega

theorem midnight_civil (l : Location) (day : Int) (h : l.Midnight day) :
    (midnight day l).civil = civilOfDays day := by
  unfold Time.civil
  rw [midnight_days l day h]

/-- Midnights that exist in a location whose offsets differ by less than a day follow each
other like their days. -/
theorem midnight_After (l : Location) (a b : Int) (hs : l.Spread) (ha : l.Midnight a)
    (hb : l.Midnight b) : (midnight a l).After (midnight b l) = true ↔ b < a := by
  obtain ⟨o, ho, hao⟩ := midnight_unix l a ha
  obtain ⟨p, hp, hbp⟩ := midnight_unix l b hb
  have h1 := hs o ho p hp
  have h2 := hs p hp o ho
  unfold Time.After
  rw [decide_eq_true_eq, hao, hbp]
  constructor
  · intro h
    by_contra hc
    rcases lt_or_eq_of_le (not_lt.mp hc) with hlt | heq
    · omega
    · subst heq
      rw [hao] at hbp
      omega
  · intro h
    omega

theorem lookup_UTC (sec : Int) : UTC.lookup sec = (0, alphaSec, omegaSec) := rfl

theorem midnight_UTC (day : Int) : midnight day UTC = ⟨day * 86400, UTC⟩ := by
  unfold midnight
  simp [lookup_UTC]

/-- In UTC every day starts at a midnight. -/
theorem Midnight_UTC (day : Int) : UTC.Midnight day := by
  unfold Location.Midnight
  rw [midnight_UTC]
  simp [Time.localSec, lookup_UTC]

theorem Spread_UTC : UTC.Spread := by decide

/-- In a location whose offset never changes every day starts at a midnight. -/
theorem Midnight_fixed (offset day : Int) : (Location.mk offset []).Midnight day := by
  unfold Location.Midnight midnight Time.localSec
  simp only [Location.lookup, lookupFrom]
  split_ifs <;> simp only [Location.lookup, lookupFrom] <;> omega

/-- Where the midnight it is asked for exists, `time.Date` returns an instant that shows the
normalised civil date. -/
theorem Date_civil (y m d : Int) (l : Location) (hv : (norm y m d).Valid)
    (h : l.Midnight (norm y m d).dayNumber) : (Date y m d l).civil = norm y m d := by
  unfold Date
  rw [midnight_civil l _ h, civilOfDays_dayNumber _ hv]

theorem Date_days (y m d : Int) (l : Location) (h : l.Midnight (norm y m d).dayNumber) :
    (Date y m d l).days = (norm y m d).dayNumber :=
  midnight_days l _ h

theorem Time_civil_spec (t : Time) : t.civil.Valid ∧ t.civil.dayNumber = t.days :=
  civilOfDays_spec t.days

end time

namespace datespec
open time

theorem YearDay_dec31 (y : Int) : (time.Date y 12 31 UTC).YearDay = daysInYear y := by
  have hn := norm_of_valid y 12 31 (by omega) (by omega) (by omega) (by simp [daysIn])
  unfold Time.YearDay
  rw [Date_civil y 12 31 UTC (by rw [hn]; exact ⟨by simp, by simp, by simp,
    by simp [daysIn]⟩) (Midnight_UTC _), hn]
  simp [Civil.YearDay, daysInYear, daysBefore]
  split <;> rfl

theorem daysBetweenLoop_eq (n : Nat) (y acc : Int) :
    daysBetweenLoop y acc n = acc + daysBeforeYear (y + n) - daysBeforeYear y := by
  induction n generalizing y acc with
  | zero => simp [daysBetweenLoop]
  | succ k ih =>
    rw [daysBetweenLoop, ih, YearDay_dec31]
    have h := daysBeforeYear_succ y
    have e : y + 1 + (k : Int) = y + ((k + 1 : Nat) : Int) := by push_cast; ring
    rw [e]
    omega

theorem year_le_of_dayNumber_le (a b : Civil) (ha : a.Valid) (hb : b.Valid)
    (h : a.dayNumber ≤ b.dayNumber) : a.Year ≤ b.Year := by
  by_contra hc
  have := dayNumber_lt_of_year_lt b a hb ha (by omega)
  omega

theorem daysBetween_ordered (a b : Civil) (hy : a.Year ≤ b.Year) :
    -a.YearDay + 0 + daysBeforeYear (a.Year + ((b.Year - a.Year).toNat : Int))
      - daysBeforeYear a.Year + b.YearDay = b.dayNumber - a.dayNumber := by
  have e : a.Year + ((b.Year - a.Year).toNat : Int) = b.Year := by omega
  rw [e]
  simp only [Civil.dayNumber]
  omega

/-- For two instants that follow each other like the days they show, `daysBetween` is the
number of days between those days. -/
theorem daysBetween_eq (a b : Time) (hord : a.After b = true ↔ b.days < a.days) :
    daysBetween a b = |a.days - b.days| := by
  obtain ⟨hva, hna⟩ := Time_civil_spec a
  obtain ⟨hvb, hnb⟩ := Time_civil_spec b
  unfold daysBetween
  cases h : a.After b
  · have hle : a.days ≤ b.days := by
      by_contra hc
      have := hord.mpr (by omega)
      simp [h] at this
    have hy := year_le_of_dayNumber_le a.civil b.civil hva hvb (by omega)
    simp only [Bool.false_eq_true, if_false, Time.YearDay, Time.Year]
    rw [daysBetweenLoop_eq]
    have := daysBetween_ordered a.civil b.civil hy
    rw [abs_of_nonpos (by omega)]
    omega
  · have hlt := hord.mp h
    have hy := year_le_of_dayNumber_le b.civil a.civil hvb hva (by omega)
    simp only [if_true, Time.YearDay, Time.Year]
    rw [daysBetweenLoop_eq]
    have := daysBetween_ordered b.civil a.civil hy
    rw [abs_of_nonneg (by omega)]
    omega

/-- Between an instant and itself `daysBetween` counts no day. -/
theorem daysBetween_self (a : Time) : daysBetween a a = 0 := by
  unfold daysBetween
  have h : a.After a = false := by simp [Time.After]
  simp [h, daysBetweenLoop]

theorem LocalStartOfDay_of_valid (d : Date) (Local : Location) (h : d.Valid) :
    d.LocalStartOfDay Local = midnight (signedDays d) Local := by
  obtain ⟨h1, h2, h3, h4⟩ := h
  unfold Date.LocalStartOfDay time.Date
  rw [norm_of_valid _ _ _ h1 h2 h3 h4]
  rfl

theorem Date_epoch (Local : Location) : time.Date 1970 1 1 Local = midnight 0 Local := by
  unfold time.Date
  rw [norm_of_valid 1970 1 1 (by omega) (by omega) (by omega) (by decide)]
  rfl

/-- In a location whose offsets differ by less than a day, and in which the day `d` and
1970-01-01 start at midnight, `daysSinceEpoch` is the distance in days from the epoch. -/
theorem daysSinceEpoch_eq_abs (d : Date) (Local : Location) (h : d.Valid) (hs : Local.Spread)
    (he : Local.Midnight 0) (hm : Local.Midnight (signedDays d)) :
    daysSinceEpoch d Local = |signedDays d| := by
  unfold daysSinceEpoch
  rw [LocalStartOfDay_of_valid d Local h, Date_epoch]
  rw [daysBetween_eq _ _ (by
    rw [midnight_days _ _ hm, midnight_days _ _ he]
    exact midnight_After Local _ _ hs hm he)]
  rw [midnight_days _ _ hm, midnight_days _ _ he, sub_zero]

/-- On 1970-01-01 `daysSinceEpoch` is 0, whatever the zone: both instants are the same. -/
theorem daysSinceEpoch_epoch (Local : Location) : daysSinceEpoch ⟨1970, 1, 1⟩ Local = 0 := by
  unfold daysSinceEpoch Date.LocalStartOfDay
  exact daysBetween_self _

theorem signedDays_epoch : signedDays epoch = 0 := by decide

theorem signedDays_next (d : Date) (h : d.Valid) :
    d.next.Valid ∧ signedDays d.next = signedDays d + 1 := by
  obtain ⟨y, m, dd⟩ := d
  have hc := YearDay_cases y m dd h
  obtain ⟨hm1, hm2, hd1, hd2⟩ := h
  simp only at hm1 hm2 hd1 hd2
  unfold Date.next
  simp only
  by_cases h1 : dd < daysIn y m
  · rw [if_pos h1]
    refine ⟨⟨hm1, hm2, by simp only; omega, by simp only; omega⟩, ?_⟩
    simp only [signedDays, Civil.dayNumber, Civil.YearDay]; omega
  · rw [if_neg h1]
    have hdd : dd = daysIn y m := by omega
    by_cases h2 : m < 12
    · rw [if_pos h2]
      have hv : Civil.Valid ⟨y, m + 1, 1⟩ := by
        refine ⟨by simp only; omega, by simp only; omega, by simp only; omega, ?_⟩
        simp only [daysIn]; split_ifs <;> omega
      refine ⟨hv, ?_⟩
      have hc2 := YearDay_cases y (m + 1) 1 hv
      have hl := leapAdj_bounds y
      have hm : m = 1 ∨ m = 2 ∨ m = 3 ∨ m = 4 ∨ m = 5 ∨ m = 6 ∨ m = 7 ∨ m = 8 ∨ m = 9 ∨ m = 10
        ∨ m = 11 := by omega
      simp only [signedDays, Civil.dayNumber]
      rcases hm with h | h | h | h | h | h | h | h | h | h | h <;> subst h <;>
        simp [daysIn, leapAdj] at hdd hc hc2 ⊢ <;> split_ifs at hdd hc hc2 <;> omega
    · rw [if_neg h2]
      have hm : m = 12 := by omega
      subst hm
      have hv : Civil.Valid ⟨y + 1, 1, 1⟩ := by
        refine ⟨by simp only; omega, by simp only; omega, by simp only; omega, ?_⟩
        simp [daysIn]
      refine ⟨hv, ?_⟩
      have hc2 := YearDay_cases (y + 1) 1 1 hv
      have hs := daysBeforeYear_succ y
      have hy := daysInYear_leapAdj y
      have hdd2 : dd = 31 := by simpa [daysIn] using hdd
      simp only [signedDays, Civil.dayNumber]
      omega

theorem signedDays_lt_of_Before (d e : Date) (hd : d.Valid) (he : e.Valid) (h : d.Before e) :
    signedDays d < signedDays e := by
  have := (After_iff ⟨e.Year, e.Month, e.Day⟩ ⟨d.Year, d.Month, d.Day⟩ he hd).mp (by
    simp only [Civil.After, decide_eq_true_eq]
    unfold Date.Before at h
    omega)
  exact this

theorem eq_epoch_of_signedDays_zero (d : Date) (hd : d.Valid) (h : signedDays d = 0) :
    d = epoch := by
  by_contra hne
  have he : epoch.Valid := by decide
  have h0 := signedDays_epoch
  by_cases h1 : d.Before epoch
  · have := signedDays_lt_of_Before d epoch hd he h1; omega
  · by_cases h2 : epoch.Before d
    · have := signedDays_lt_of_Before epoch d he hd h2; omega
    · apply hne
      obtain ⟨y, m, dd⟩ := d
      simp only [Date.Before, epoch] at h1 h2 ⊢
      have : y = 1970 ∧ m = 1 ∧ dd = 1 := by omega
      simp [this]

end datespec

open datespec

theorem tmod_abs_eq_zero_iff (s c : Int) : (Int.tmod |s| c == 0) = decide (c ∣ s) := by
  rw [Bool.eq_iff_iff]
  simp only [beq_iff_eq, decide_eq_true_eq]
  rw [← Int.dvd_iff_tmod_eq_zero, dvd_abs]

/-- C1: in a location whose offsets differ by less than a day and in which 1970-01-01 and the
date `d` start at midnight, for `count ≥ 1` and a valid date `d`,
`EveryNthDayDateSpec{count}.OccursOn(d)` is true exactly when `count` divides the signed number
of days from 1970-01-01 to `d`; it is true on 1970-01-01 for every such count in every
location, and false on 1969-12-31 for count 3 in UTC.  Where a day does not start at midnight
the code departs from the claim: in `saoPaulo` the clocks went forward at 00:00 of
2018-11-04, day 17839 after the epoch; `daysSinceEpoch` is 17838 on that date, as on the day
before, and `EveryNthDayDateSpec{3}` occurs on both days, although 3 does not divide 17839. -/
theorem C1_everyNthDay_occursOn (Local : time.Location) (count : Int) (d : Date)
    (hc : 1 ≤ count) (hd : d.Valid) (hs : Local.Spread) (he : Local.Midnight 0)
    (hm : Local.Midnight (signedDays d)) :
    (DateSpec.EveryNthDay count).OccursOn Local d = some (decide (count ∣ signedDays d)) ∧
    (∀ L : time.Location, (DateSpec.EveryNthDay count).OccursOn L epoch = some true) ∧
    (DateSpec.EveryNthDay 3).OccursOn time.UTC ⟨1969, 12, 31⟩ = some false ∧
    (Date.Valid ⟨2018, 11, 4⟩ ∧ signedDays ⟨2018, 11, 4⟩ = 17839 ∧
      ¬ time.saoPaulo.Midnight 17839 ∧
      daysSinceEpoch ⟨2018, 11, 4⟩ time.saoPaulo = 17838 ∧
      daysSinceEpoch ⟨2018, 11, 3⟩ time.saoPaulo = 17838 ∧
      (DateSpec.EveryNthDay 3).OccursOn time.saoPaulo ⟨2018, 11, 4⟩ = some true ∧
      (DateSpec.EveryNthDay 3).OccursOn time.saoPaulo ⟨2018, 11, 3⟩ = some true ∧
      ¬ (3 : Int) ∣ signedDays ⟨2018, 11, 4⟩) := by
  have hne : count ≠ 0 := by omega
  refine ⟨?_, ?_, by decide, by decide⟩
  · simp only [DateSpec.OccursOn, if_neg hne]
    rw [daysSinceEpoch_eq_abs d Local hd hs he hm, tmod_abs_eq_zero_iff]
  · intro L
    simp only [DateSpec.OccursOn, if_neg hne, epoch]
    rw [daysSinceEpoch_epoch]
    simp

/-- Witness of C1: every third day, on 2018-11-03 in `saoPaulo`, the day before the clocks
went forward. -/
theorem C1_everyNthDay_occursOn_witness :
    (DateSpec.EveryNthDay 3).OccursOn time.saoPaulo ⟨2018, 11, 3⟩
        = some (decide ((3 : Int) ∣ signedDays ⟨2018, 11, 3⟩)) ∧
    (∀ L : time.Location, (DateSpec.EveryNthDay 3).OccursOn L epoch = some true) ∧
    (DateSpec.EveryNthDay 3).OccursOn time.UTC ⟨1969, 12, 31⟩ = some false ∧
    (Date.Valid ⟨2018, 11, 4⟩ ∧ signedDays ⟨2018, 11, 4⟩ = 17839 ∧
      ¬ time.saoPaulo.Midnight 17839 ∧
      daysSinceEpoch ⟨2018, 11, 4⟩ time.saoPaulo = 17838 ∧
      daysSinceEpoch ⟨2018, 11, 3⟩ time.saoPaulo = 17838 ∧
      (DateSpec.EveryNthDay 3).OccursOn time.saoPaulo ⟨2018, 11, 4⟩ = some true ∧
      (DateSpec.EveryNthDay 3).OccursOn time.saoPaulo ⟨2018, 11, 3⟩ = some true ∧
      ¬ (3 : Int) ∣ signedDays ⟨2018, 11, 4⟩) :=
  C1_everyNthDay_occursOn time.saoPaulo 3 ⟨2018, 11, 3⟩ (by decide) (by decide) (by decide)
    (by decide) (by decide)

/-- C2, refuted as stated: 1969-12-31 is a valid date one day before the epoch, its signed day
count is -1, and in UTC `daysSinceEpoch` returns 1: not the signed count, and larger than the
value 0 of the later date 1970-01-01. -/
theorem C2_daysSinceEpoch_not_signed :
    Date.Valid ⟨1969, 12, 31⟩ ∧ Date.Before ⟨1969, 12, 31⟩ epoch ∧
    signedDays ⟨1969, 12, 31⟩ = -1 ∧ daysSinceEpoch ⟨1969, 12, 31⟩ time.UTC = 1 ∧
    daysSinceEpoch ⟨1969, 12, 31⟩ time.UTC ≠ signedDays ⟨1969, 12, 31⟩ ∧
    ¬ (daysSinceEpoch ⟨1969, 12, 31⟩ time.UTC < daysSinceEpoch epoch time.UTC) := by
  decide

/-- C2, amended: in a location whose offsets differ by less than a day and in which
1970-01-01 and the dates `d` and `e` start at midnight, for valid dates `daysSinceEpoch(d)`
is the absolute value of the signed number of days from 1970-01-01 to `d`: zero on the epoch
(in every location), positive on every other date, equal to the signed count from the epoch
on, and strictly increasing over the dates from the epoch on. -/
theorem C2_daysSinceEpoch_abs (Local : time.Location) (d e : Date) (hd : d.Valid)
    (he : e.Valid) (hs : Local.Spread) (h0 : Local.Midnight 0)
    (hmd : Local.Midnight (signedDays d)) (hme : Local.Midnight (signedDays e)) :
    daysSinceEpoch d Local = |signedDays d| ∧
    (∀ L : time.Location, daysSinceEpoch epoch L = 0) ∧
    (d ≠ epoch → 0 < daysSinceEpoch d Local) ∧
    (¬ d.Before epoch → daysSinceEpoch d Local = signedDays d) ∧
    (¬ d.Before epoch → d.Before e → daysSinceEpoch d Local < daysSinceEpoch e Local) := by
  have hE : epoch.Valid := by decide
  have hz := signedDays_epoch
  have nonneg_of : ∀ x : Date, x.Valid → ¬ x.Before epoch → 0 ≤ signedDays x := by
    intro x hx hnb
    by_cases hxe : x = epoch
    · rw [hxe, hz]
    · have : epoch.Before x := by
        obtain ⟨y, m, dd⟩ := x
        simp only [Date.Before, epoch] at hnb ⊢
        by_contra hc
        apply hxe
        have : y = 1970 ∧ m = 1 ∧ dd = 1 := by omega
        simp [this, epoch]
      have := signedDays_lt_of_Before epoch x hE hx this
      omega
  have habs := daysSinceEpoch_eq_abs d Local hd hs h0 hmd
  refine ⟨habs, fun L => daysSinceEpoch_epoch L, ?_, ?_, ?_⟩
  · intro hne
    rw [habs]
    apply abs_pos.mpr
    intro hzero
    exact hne (eq_epoch_of_signedDays_zero d hd hzero)
  · intro hnb
    rw [habs, abs_of_nonneg (nonneg_of d hd hnb)]
  · intro hnb hlt
    have h1 := nonneg_of d hd hnb
    have h2 := signedDays_lt_of_Before d e hd he hlt
    rw [habs, daysSinceEpoch_eq_abs e Local he hs h0 hme, abs_of_nonneg h1,
      abs_of_nonneg (by omega)]
    exact h2

/-- Witness of the amended C2: 2018-11-02 and the day after it in `saoPaulo`, the two days
before the clocks went forward. -/
theorem C2_daysSinceEpoch_abs_witness :
    daysSinceEpoch ⟨2018, 11, 2⟩ time.saoPaulo = |signedDays ⟨2018, 11, 2⟩| ∧
    (∀ L : time.Location, daysSinceEpoch epoch L = 0) ∧
    ((⟨2018, 11, 2⟩ : Date) ≠ epoch → 0 < daysSinceEpoch ⟨2018, 11, 2⟩ time.saoPaulo) ∧
    (¬ Date.Before ⟨2018, 11, 2⟩ epoch →
      daysSinceEpoch ⟨2018, 11, 2⟩ time.saoPaulo = signedDays ⟨2018, 11, 2⟩) ∧
    (¬ Date.Before ⟨2018, 11, 2⟩ epoch → Date.Before ⟨2018, 11, 2⟩ ⟨2018, 11, 3⟩ →
      daysSinceEpoch ⟨2018, 11, 2⟩ time.saoPaulo
        < daysSinceEpoch ⟨2018, 11, 3⟩ time.saoPaulo) :=
  C2_daysSinceEpoch_abs time.saoPaulo ⟨2018, 11, 2⟩ ⟨2018, 11, 3⟩ (by decide) (by decide)
    (by decide) (by decide) (by decide) (by decide)

theorem weekday_LocalStartOfDay (d : Date) (Local : time.Location) (hd : d.Valid)
    (hm : Local.Midnight (signedDays d)) :
    (d.LocalStartOfDay Local).Weekday = d.weekday := by
  rw [LocalStartOfDay_of_valid d Local hd]
  unfold time.Time.Weekday
  rw [time.midnight_days Local _ hm]
  rfl

/-- The week count of `EveryNthWeekdayDateSpec` is taken from the unsigned day count. -/
theorem EveryNthWeekday_occursOn_abs (Local : time.Location) (w count : Int) (d : Date)
    (hc : 1 ≤ count) (hd : d.Valid) (hs : Local.Spread) (he : Local.Midnight 0)
    (hm : Local.Midnight (signedDays d)) :
    (DateSpec.EveryNthWeekday w count).OccursOn Local d
      = some (decide (d.weekday = w ∧ count ∣ |signedDays d| / 7)) := by
  have hne : count ≠ 0 := by omega
  simp only [DateSpec.OccursOn, weekday_LocalStartOfDay d Local hd hm, if_neg hne]
  rw [daysSinceEpoch_eq_abs d Local hd hs he hm,
    Int.tdiv_eq_ediv (abs_nonneg _) (by omega)]
  by_cases hw : d.weekday = w
  · have h7 : (0 : Int) ≤ |signedDays d| / 7 := Int.ediv_nonneg (abs_nonneg _) (by omega)
    have := tmod_abs_eq_zero_iff (|signedDays d| / 7) count
    rw [abs_of_nonneg h7] at this
    simp [hw, this]
  · simp [hw]

/-- C3: the code departs from the claim before the epoch.  1969-12-26 is a Friday six days
before the epoch: its signed day count is -6 and floor(-6 / 7) = -1 is not divisible by 2, so
by the claim `EveryNthWeekdayDateSpec{Friday, 2}` does not occur on it; the code, in UTC,
finds that it does, and that it occurs on the next Friday, 1970-01-02, as well: two Fridays
in a row for a spec documented as taking place every 2 weeks. -/
theorem C3_everyNthWeekday_before_epoch :
    Date.Valid ⟨1969, 12, 26⟩ ∧ Date.weekday ⟨1969, 12, 26⟩ = 5 ∧
    signedDays ⟨1969, 12, 26⟩ = -6 ∧ ¬ ((2 : Int) ∣ signedDays ⟨1969, 12, 26⟩ / 7) ∧
    (DateSpec.EveryNthWeekday 5 2).OccursOn time.UTC ⟨1969, 12, 26⟩ = some true ∧
    Date.Valid ⟨1970, 1, 2⟩ ∧ Date.weekday ⟨1970, 1, 2⟩ = 5 ∧
    signedDays ⟨1970, 1, 2⟩ = signedDays ⟨1969, 12, 26⟩ + 7 ∧
    (2 : Int) ∣ signedDays ⟨1970, 1, 2⟩ / 7 ∧
    (DateSpec.EveryNthWeekday 5 2).OccursOn time.UTC ⟨1970, 1, 2⟩ = some true := by
  decide

namespace time

theorem normDay_borrow (y m d : Int) (n : Nat) (h : d < 1) :
    normDay y m d (n + 1)
      = normDay (prevMonth y m).1 (prevMonth y m).2
          (d + daysIn (prevMonth y m).1 (prevMonth y m).2) n := by
  rw [normDay, if_pos h]

theorem daysIn_bounds (y m : Int) (h1 : 1 ≤ m) (h2 : m ≤ 12) :
    28 ≤ daysIn y m ∧ daysIn y m ≤ 31 := by
  unfold daysIn; split_ifs <;> omega

theorem prevMonth_month_bounds (y m : Int) (h1 : 1 ≤ m) (h2 : m ≤ 12) :
    1 ≤ (prevMonth y m).2 ∧ (prevMonth y m).2 ≤ 12 := by
  unfold prevMonth; split_ifs <;> simp
  omega

/-- The month `time.Date` works in after normalising month `m + 1` of year `y`, seen from its
predecessor: the month before it is `(y, m)`. -/
theorem norm_next_month_nonpos_day (y m d : Int) (h1 : 1 ≤ m) (h2 : m ≤ 12) (hd : d < 1) :
    norm y (m + 1) d = normDay y m (d + daysIn y m) d.natAbs := by
  unfold norm
  simp only
  rw [normDay_borrow _ _ _ _ hd]
  by_cases h12 : m = 12
  · subst h12
    have e1 : y + (12 + 1 - 1) / 12 = y + 1 := by omega
    have e2 : ((12 : Int) + 1 - 1) % 12 + 1 = 1 := by omega
    rw [e1, e2]
    simp [prevMonth]
  · have e1 : y + (m + 1 - 1) / 12 = y := by omega
    have e2 : (m + 1 - 1) % 12 + 1 = m + 1 := by omega
    rw [e1, e2]
    have : prevMonth y (m + 1) = (y, m) := by
      unfold prevMonth; rw [if_neg (by omega)]; simp
    rw [this]

/-- Rolling back `k - 1` days from the first of the month after `(y, m)`, for `1 ≤ k ≤ 31`:
the day lands in `(y, m)` when that month has at least `k` days, else in the month before. -/
theorem norm_rollback (y m k : Int) (h1 : 1 ≤ m) (h2 : m ≤ 12) (hk1 : 1 ≤ k) (hk2 : k ≤ 31) :
    norm y (m + 1) (-k + 1) =
      if k ≤ daysIn y m then ⟨y, m, daysIn y m - k + 1⟩
      else ⟨(prevMonth y m).1, (prevMonth y m).2,
        daysIn y m + daysIn (prevMonth y m).1 (prevMonth y m).2 - k + 1⟩ := by
  rw [norm_next_month_nonpos_day y m _ h1 h2 (by omega)]
  have hL := daysIn_bounds y m h1 h2
  split_ifs with hle
  · rw [normDay_of_valid _ _ _ _ (by omega) (by omega)]
    congr 1; omega
  · obtain ⟨n, hn⟩ : ∃ n : Nat, (-k + 1).natAbs = n + 1 := ⟨(-k + 1).natAbs - 1, by omega⟩
    rw [hn, normDay_borrow _ _ _ _ (by omega)]
    have hp := prevMonth_month_bounds y m h1 h2
    have hP := daysIn_bounds (prevMonth y m).1 (prevMonth y m).2 hp.1 hp.2
    rw [normDay_of_valid _ _ _ _ (by omega) (by omega)]
    congr 1; omega

/-- A month of fewer than 31 days follows a month of 31 days. -/
theorem daysIn_prevMonth_of_short (y m : Int) (h1 : 1 ≤ m) (h2 : m ≤ 12)
    (h : daysIn y m < 31) : daysIn (prevMonth y m).1 (prevMonth y m).2 = 31 := by
  have hm : m = 1 ∨ m = 2 ∨ m = 3 ∨ m = 4 ∨ m = 5 ∨ m = 6 ∨ m = 7 ∨ m = 8 ∨ m = 9 ∨ m = 10
      ∨ m = 11 ∨ m = 12 := by omega
  rcases hm with h | h | h | h | h | h | h | h | h | h | h | h <;> subst h <;>
    simp [daysIn, prevMonth] at h ⊢

end time

namespace time

/-- The date `time.Date` rolls back to from the first of the next month is a valid date. -/
theorem norm_rollback_valid (y m k : Int) (h1 : 1 ≤ m) (h2 : m ≤ 12) (hk1 : 1 ≤ k)
    (hk2 : k ≤ 31) : (norm y (m + 1) (-k + 1)).Valid := by
  rw [norm_rollback y m k h1 h2 hk1 hk2]
  have hL := daysIn_bounds y m h1 h2
  split_ifs with hle
  · exact ⟨h1, h2, by simp only; omega, by simp only; omega⟩
  · have hp := prevMonth_month_bounds y m h1 h2
    have hP := daysIn_prevMonth_of_short y m h1 h2 (by omega)
    exact ⟨hp.1, hp.2, by simp only; omega, by simp only; omega⟩

end time

/-- Where the midnight that `time.Date` is asked for exists, `DayOfMonthDateSpec{-k}` occurs
on the day `L - k + 1` of a month of `L` days. -/
theorem DayOfMonth_neg_occursOn (Local : time.Location) (k : Int) (d : Date) (hk1 : 1 ≤ k)
    (hk2 : k ≤ 31) (hd : d.Valid)
    (hm : Local.Midnight (time.norm d.Year (d.Month + 1) (-k + 1)).dayNumber) :
    (DateSpec.DayOfMonth (-k)).OccursOn Local d
      = some (decide (d.Day = time.daysIn d.Year d.Month - k + 1)) := by
  obtain ⟨h1, h2, h3, h4⟩ := hd
  simp only [DateSpec.OccursOn, if_pos (show -k < 0 by omega), time.Time.Day]
  rw [time.Date_civil _ _ _ Local (time.norm_rollback_valid _ _ _ h1 h2 hk1 hk2) hm,
    time.norm_rollback _ _ _ h1 h2 hk1 hk2]
  congr 1
  rw [Bool.eq_iff_iff]
  simp only [beq_iff_eq, decide_eq_true_eq]
  split_ifs with hle
  · simp only
    omega
  · simp only
    have hL := time.daysIn_bounds d.Year d.Month h1 h2
    have hP := time.daysIn_prevMonth_of_short d.Year d.Month h1 h2 (by omega)
    omega

/-! ## Day of month and union specs -/

namespace datespec

mutual
/-- On a well-formed spec `OccursOn` returns: no remainder by zero is taken. -/
theorem OccursOn_isSome_of_wellFormed (s : DateSpec) (Local : time.Location) (date : Date)
    (h : s.WellFormed = true) : (s.OccursOn Local date).isSome = true := by
  match s with
  | .Daily => simp [DateSpec.OccursOn]
  | .Union Specs =>
    simp only [DateSpec.WellFormed] at h
    simp only [DateSpec.OccursOn]
    exact OccursOnAny_isSome_of_wellFormed Specs Local date h
  | .EveryNthDay Count =>
    simp only [DateSpec.WellFormed, decide_eq_true_eq] at h
    simp only [DateSpec.OccursOn]
    rw [if_neg (by omega)]; rfl
  | .Weekday _ => simp [DateSpec.OccursOn]
  | .EveryNthWeekday _ Count =>
    simp only [DateSpec.WellFormed, decide_eq_true_eq] at h
    simp only [DateSpec.OccursOn]
    rw [if_neg (show ¬ Count = 0 by omega)]
    split <;> rfl
  | .DayOfMonth _ =>
    simp only [DateSpec.OccursOn]
    split <;> rfl
  | .Yearly _ _ => simp [DateSpec.OccursOn]
  | .SingleDay _ _ _ => simp [DateSpec.OccursOn]
theorem OccursOnAny_isSome_of_wellFormed (l : List DateSpec) (Local : time.Location) (date : Date)
    (h : AllWellFormed l = true) : (OccursOnAny l Local date).isSome = true := by
  match l with
  | [] => simp [OccursOnAny]
  | s :: r =>
    simp only [AllWellFormed, Bool.and_eq_true] at h
    have h1 := OccursOn_isSome_of_wellFormed s Local date h.1
    have h2 := OccursOnAny_isSome_of_wellFormed r Local date h.2
    simp only [OccursOnAny]
    cases hs : s.OccursOn Local date with
    | none => simp [hs] at h1
    | some b => cases b <;> simp [h2]
end

theorem AllWellFormed_iff (l : List DateSpec) :
    AllWellFormed l = true ↔ ∀ s ∈ l, s.WellFormed = true := by
  induction l with
  | nil => simp [AllWellFormed]
  | cons s r ih => simp [AllWellFormed, ih]

/-- The loop of `UnionDateSpec.OccursOn` over specs none of which panics: true when one of them
is true. -/
theorem OccursOnAny_eq_any (l : List DateSpec) (Local : time.Location) (date : Date)
    (h : ∀ s ∈ l, (s.OccursOn Local date).isSome = true) :
    OccursOnAny l Local date = some (l.any (fun s => s.OccursOn Local date == some true)) := by
  induction l with
  | nil => simp [OccursOnAny]
  | cons s r ih =>
    have hs := h s (List.mem_cons_self _ _)
    have hr := ih (fun x hx => h x (List.mem_cons_of_mem _ hx))
    simp only [OccursOnAny, List.any_cons]
    cases ho : s.OccursOn Local date with
    | none => simp [ho] at hs
    | some b => cases b <;> simp [hr]

end datespec

open datespec

/-- C4: in a location in which the last day of the date's month starts at midnight, for a
valid date `DayOfMonthDateSpec{-1}.OccursOn` holds exactly on the last day of the month: 29 or
28 in February by the leap year, 30 in April, June, September and November, 31 otherwise,
December included.  Where that day does not start at midnight the code departs from the
claim: in `azores` the clocks went forward at 00:00 of 2019-03-31, and
`DayOfMonthDateSpec{-1}` does not occur on 2019-03-31, the last day of March, but on
2019-03-30. -/
theorem C4_dayOfMonth_last_day (Local : time.Location) (d : Date) (hd : d.Valid)
    (hm : Local.Midnight (time.norm d.Year (d.Month + 1) (-1 + 1)).dayNumber) :
    (DateSpec.DayOfMonth (-1)).OccursOn Local d
      = some (decide (d.Day =
          if d.Month = 2 then
            (if d.Year % 4 = 0 ∧ (d.Year % 100 ≠ 0 ∨ d.Year % 400 = 0) then 29 else 28)
          else if d.Month = 4 ∨ d.Month = 6 ∨ d.Month = 9 ∨ d.Month = 11 then 30
          else 31)) ∧
    (DateSpec.DayOfMonth (-1)).OccursOn time.UTC ⟨2020, 12, 31⟩ = some true ∧
    (DateSpec.DayOfMonth (-1)).OccursOn time.UTC ⟨2020, 2, 29⟩ = some true ∧
    (DateSpec.DayOfMonth (-1)).OccursOn time.UTC ⟨2020, 2, 28⟩ = some false ∧
    (DateSpec.DayOfMonth (-1)).OccursOn time.UTC ⟨2021, 2, 28⟩ = some true ∧
    (DateSpec.DayOfMonth (-1)).OccursOn time.UTC ⟨1900, 2, 28⟩ = some true ∧
    (Date.Valid ⟨2019, 3, 31⟩ ∧ time.daysIn 2019 3 = 31 ∧
      time.norm 2019 (3 + 1) (-1 + 1) = ⟨2019, 3, 31⟩ ∧
      ¬ time.azores.Midnight (time.norm 2019 (3 + 1) (-1 + 1)).dayNumber ∧
      (DateSpec.DayOfMonth (-1)).OccursOn time.azores ⟨2019, 3, 31⟩ = some false ∧
      (DateSpec.DayOfMonth (-1)).OccursOn time.azores ⟨2019, 3, 30⟩ = some true) := by
  refine ⟨?_, by decide, by decide, by decide, by decide, by decide, by decide⟩
  rw [DayOfMonth_neg_occursOn Local 1 d (by omega) (by omega) hd hm]
  obtain ⟨h1, h2, _, _⟩ := hd
  congr 2
  have e : time.daysIn d.Year d.Month - 1 + 1 = time.daysIn d.Year d.Month := by omega
  rw [e]
  unfold time.daysIn
  simp only [time.isLeap_iff, h1, h2, and_self, if_true]

/-- Witness of C4: 2019-02-28, the last day of February, in `azores`. -/
theorem C4_dayOfMonth_last_day_witness :
    (DateSpec.DayOfMonth (-1)).OccursOn time.azores ⟨2019, 2, 28⟩
      = some (decide ((28 : Int) =
          if (2 : Int) = 2 then
            (if (2019 : Int) % 4 = 0 ∧ ((2019 : Int) % 100 ≠ 0 ∨ (2019 : Int) % 400 = 0)
              then 29 else 28)
          else if (2 : Int) = 4 ∨ (2 : Int) = 6 ∨ (2 : Int) = 9 ∨ (2 : Int) = 11 then 30
          else 31)) ∧
    (DateSpec.DayOfMonth (-1)).OccursOn time.UTC ⟨2020, 12, 31⟩ = some true ∧
    (DateSpec.DayOfMonth (-1)).OccursOn time.UTC ⟨2020, 2, 29⟩ = some true ∧
    (DateSpec.DayOfMonth (-1)).OccursOn time.UTC ⟨2020, 2, 28⟩ = some false ∧
    (DateSpec.DayOfMonth (-1)).OccursOn time.UTC ⟨2021, 2, 28⟩ = some true ∧
    (DateSpec.DayOfMonth (-1)).OccursOn time.UTC ⟨1900, 2, 28⟩ = some true ∧
    (Date.Valid ⟨2019, 3, 31⟩ ∧ time.daysIn 2019 3 = 31 ∧
      time.norm 2019 (3 + 1) (-1 + 1) = ⟨2019, 3, 31⟩ ∧
      ¬ time.azores.Midnight (time.norm 2019 (3 + 1) (-1 + 1)).dayNumber ∧
      (DateSpec.DayOfMonth (-1)).OccursOn time.azores ⟨2019, 3, 31⟩ = some false ∧
      (DateSpec.DayOfMonth (-1)).OccursOn time.azores ⟨2019, 3, 30⟩ = some true) :=
  C4_dayOfMonth_last_day time.azores ⟨2019, 2, 28⟩ (by decide) (by decide)

/-- C5: in a location in which the day `k` days before the first of the next month starts at
midnight, for `k` in 1..31 and a valid date, `DayOfMonthDateSpec{-k}.OccursOn` holds exactly
when the day is `L - k + 1`, `L` the number of days of the date's month; so it matches at most
one day of a month, and no day of a month with fewer than `k` days.  Where that day does not
start at midnight the code departs from the claim: in `saoPaulo` the clocks went forward at
00:00 of 2018-11-04, and `DayOfMonthDateSpec{-27}` does not occur on 2018-11-04, although
November has 30 days and 30 - 27 + 1 = 4. -/
theorem C5_dayOfMonth_negative (Local : time.Location) (k : Int) (d d2 : Date) (hk1 : 1 ≤ k)
    (hk2 : k ≤ 31) (hd : d.Valid) (hd2 : d2.Valid) (hy : d2.Year = d.Year)
    (hmo : d2.Month = d.Month)
    (hm : Local.Midnight (time.norm d.Year (d.Month + 1) (-k + 1)).dayNumber) :
    (DateSpec.DayOfMonth (-k)).OccursOn Local d
      = some (decide (d.Day = time.daysIn d.Year d.Month - k + 1)) ∧
    ((DateSpec.DayOfMonth (-k)).OccursOn Local d = some true →
      (DateSpec.DayOfMonth (-k)).OccursOn Local d2 = some true → d2 = d) ∧
    (time.daysIn d.Year d.Month < k →
      (DateSpec.DayOfMonth (-k)).OccursOn Local d = some false) ∧
    (Date.Valid ⟨2018, 11, 4⟩ ∧ time.daysIn 2018 11 - 27 + 1 = 4 ∧
      time.norm 2018 (11 + 1) (-27 + 1) = ⟨2018, 11, 4⟩ ∧
      ¬ time.saoPaulo.Midnight (time.norm 2018 (11 + 1) (-27 + 1)).dayNumber ∧
      (DateSpec.DayOfMonth (-27)).OccursOn time.saoPaulo ⟨2018, 11, 4⟩ = some false) := by
  have h1 := DayOfMonth_neg_occursOn Local k d hk1 hk2 hd hm
  have h2 := DayOfMonth_neg_occursOn Local k d2 hk1 hk2 hd2 (by rw [hy, hmo]; exact hm)
  refine ⟨h1, ?_, ?_, by decide⟩
  · intro ht ht2
    rw [h1] at ht
    rw [h2, hy, hmo] at ht2
    simp only [Option.some.injEq, decide_eq_true_eq] at ht ht2
    obtain ⟨y, m, dd⟩ := d
    obtain ⟨y2, m2, dd2⟩ := d2
    simp only at hy hmo ht ht2
    subst hy hmo
    rw [ht, ht2]
  · intro hlt
    rw [h1]
    have := hd.2.2.1
    simp only [Option.some.injEq, decide_eq_false_iff_not]
    omega

/-- Witness of C5: the second-to-last day of November 2018, in `saoPaulo`. -/
theorem C5_dayOfMonth_negative_witness :
    (DateSpec.DayOfMonth (-2)).OccursOn time.saoPaulo ⟨2018, 11, 29⟩
      = some (decide ((29 : Int) = time.daysIn 2018 11 - 2 + 1)) ∧
    ((DateSpec.DayOfMonth (-2)).OccursOn time.saoPaulo ⟨2018, 11, 29⟩ = some true →
      (DateSpec.DayOfMonth (-2)).OccursOn time.saoPaulo ⟨2018, 11, 29⟩ = some true →
      (⟨2018, 11, 29⟩ : Date) = ⟨2018, 11, 29⟩) ∧
    (time.daysIn 2018 11 < 2 →
      (DateSpec.DayOfMonth (-2)).OccursOn time.saoPaulo ⟨2018, 11, 29⟩ = some false) ∧
    (Date.Valid ⟨2018, 11, 4⟩ ∧ time.daysIn 2018 11 - 27 + 1 = 4 ∧
      time.norm 2018 (11 + 1) (-27 + 1) = ⟨2018, 11, 4⟩ ∧
      ¬ time.saoPaulo.Midnight (time.norm 2018 (11 + 1) (-27 + 1)).dayNumber ∧
      (DateSpec.DayOfMonth (-27)).OccursOn time.saoPaulo ⟨2018, 11, 4⟩ = some false) :=
  C5_dayOfMonth_negative time.saoPaulo 2 ⟨2018, 11, 29⟩ ⟨2018, 11, 29⟩ (by decide)
    (by decide) (by decide) (by decide) rfl rfl (by decide)

/-- C6: for well-formed specs, in every zone, `UnionDateSpec{specs}.OccursOn(d)` is true
exactly when some element of `specs` occurs on `d`; `Union[A, B]` is
`A.OccursOn(d) || B.OccursOn(d)`, the result is the same for every permutation of `specs`, and
the empty union matches no date. -/
theorem C6_union_occursOn (Local : time.Location) (specs specs2 : List DateSpec)
    (A B : DateSpec) (date : Date)
    (hwf : ∀ s ∈ specs, s.WellFormed = true) (hA : A.WellFormed = true)
    (hB : B.WellFormed = true) (hperm : specs.Perm specs2) :
    (∃ b, (DateSpec.Union specs).OccursOn Local date = some b ∧
      (b = true ↔ ∃ s ∈ specs, s.OccursOn Local date = some true)) ∧
    (∃ a b, A.OccursOn Local date = some a ∧ B.OccursOn Local date = some b ∧
      (DateSpec.Union [A, B]).OccursOn Local date = some (a || b)) ∧
    (DateSpec.Union specs2).OccursOn Local date = (DateSpec.Union specs).OccursOn Local date ∧
    (DateSpec.Union []).OccursOn Local date = some false := by
  have hs : ∀ s ∈ specs, (s.OccursOn Local date).isSome = true :=
    fun s h => OccursOn_isSome_of_wellFormed s Local date (hwf s h)
  have hs2 : ∀ s ∈ specs2, (s.OccursOn Local date).isSome = true :=
    fun s h => hs s (hperm.mem_iff.mpr h)
  refine ⟨⟨_, by simp only [DateSpec.OccursOn]; exact OccursOnAny_eq_any specs Local date hs, ?_⟩,
    ?_, ?_, by simp [DateSpec.OccursOn, OccursOnAny]⟩
  · simp
  · have ha := OccursOn_isSome_of_wellFormed A Local date hA
    have hb := OccursOn_isSome_of_wellFormed B Local date hB
    cases hoa : A.OccursOn Local date with
    | none => simp [hoa] at ha
    | some a =>
      cases hob : B.OccursOn Local date with
      | none => simp [hob] at hb
      | some b =>
        refine ⟨a, b, rfl, rfl, ?_⟩
        simp only [DateSpec.OccursOn, OccursOnAny, hoa, hob]
        cases a <;> cases b <;> rfl
  · simp only [DateSpec.OccursOn]
    rw [OccursOnAny_eq_any specs Local date hs, OccursOnAny_eq_any specs2 Local date hs2]
    congr 1
    rw [Bool.eq_iff_iff]
    simp only [List.any_eq_true]
    constructor
    · rintro ⟨x, hx, hp⟩; exact ⟨x, hperm.mem_iff.mpr hx, hp⟩
    · rintro ⟨x, hx, hp⟩; exact ⟨x, hperm.mem_iff.mp hx, hp⟩

/-- Witness of C6: Sunday or every third day, on Sunday 1970-01-04, in UTC. -/
theorem C6_union_occursOn_witness :
    (∃ b, (DateSpec.Union [.Weekday 0, .EveryNthDay 3]).OccursOn time.UTC ⟨1970, 1, 4⟩ = some b ∧
      (b = true ↔ ∃ s ∈ [DateSpec.Weekday 0, .EveryNthDay 3],
        s.OccursOn time.UTC ⟨1970, 1, 4⟩ = some true)) ∧
    (∃ a b, (DateSpec.Weekday 5).OccursOn time.UTC ⟨1970, 1, 4⟩ = some a ∧
      (DateSpec.Weekday 0).OccursOn time.UTC ⟨1970, 1, 4⟩ = some b ∧
      (DateSpec.Union [.Weekday 5, .Weekday 0]).OccursOn time.UTC ⟨1970, 1, 4⟩ = some (a || b)) ∧
    (DateSpec.Union [.EveryNthDay 3, .Weekday 0]).OccursOn time.UTC ⟨1970, 1, 4⟩
      = (DateSpec.Union [.Weekday 0, .EveryNthDay 3]).OccursOn time.UTC ⟨1970, 1, 4⟩ ∧
    (DateSpec.Union []).OccursOn time.UTC ⟨1970, 1, 4⟩ = some false :=
  C6_union_occursOn time.UTC [.Weekday 0, .EveryNthDay 3] [.EveryNthDay 3, .Weekday 0]
    (.Weekday 5) (.Weekday 0) ⟨1970, 1, 4⟩ (by simp [DateSpec.WellFormed]) rfl rfl
    (List.Perm.swap _ _ _)

/-! ## The parser: lines, fields and the loop of `Parse` -/

namespace parser
open datespec

theorem cut_eq_none (sep : Char) (l : List Char) : strings.cut sep l = none ↔ sep ∉ l := by
  induction l with
  | nil => simp [strings.cut]
  | cons c cs ih =>
    by_cases h : c = sep
    · simp [strings.cut, h]
    · simp only [strings.cut, if_neg h, List.mem_cons, not_or]
      cases hc : strings.cut sep cs with
      | none => simp [ih.mp hc, Ne.symm h]
      | some p => simp; intro _; rw [hc] at ih; simpa using ih

theorem cut_eq_some (sep : Char) (l a b : List Char) (h : strings.cut sep l = some (a, b)) :
    a = l.takeWhile (· ≠ sep) ∧ b = (l.dropWhile (· ≠ sep)).drop 1 := by
  induction l generalizing a b with
  | nil => simp [strings.cut] at h
  | cons c cs ih =>
    by_cases hc : c = sep
    · simp [strings.cut, hc] at h
      simp [hc, h.1.symm, h.2.symm]
    · simp only [strings.cut, if_neg hc] at h
      cases hcs : strings.cut sep cs with
      | none => simp [hcs] at h
      | some p =>
        obtain ⟨a', b'⟩ := p
        simp [hcs] at h
        have := ih a' b' hcs
        simp [hc, ← h.1, ← h.2, this.1, this.2]

theorem SplitN2_tab (line : String) :
    strings.SplitN2 line '\t' =
      if hasTab line then [firstField line, afterFirstTab line] else [line] := by
  unfold strings.SplitN2 hasTab
  cases hc : strings.cut '\t' line.data with
  | none =>
    have := (cut_eq_none _ _).mp hc
    simp [this]
  | some p =>
    obtain ⟨a, b⟩ := p
    have hm : '\t' ∈ line.data := by
      by_contra hn
      rw [(cut_eq_none _ _).mpr hn] at hc
      cases hc
    have := cut_eq_some _ _ _ _ hc
    simp [hm, firstField, afterFirstTab, this.1, this.2]

theorem firstField_of_no_tab (line : String) (h : hasTab line = false) :
    firstField line = line := by
  unfold hasTab at h
  unfold firstField
  have : line.data.takeWhile (· ≠ '\t') = line.data := by
    rw [List.takeWhile_eq_self_iff]
    intro c hc
    simp only [ne_eq, decide_eq_true_eq]
    intro hct
    subst hct
    simp [hc] at h
  rw [this]

theorem firstField_eq_empty_iff (line : String) (h : hasTab line = true) :
    firstField line = "" ↔ startsWithTab line = true := by
  unfold firstField startsWithTab
  obtain ⟨l⟩ := line
  cases l with
  | nil => simp [hasTab] at h
  | cons c cs =>
    by_cases hc : c = '\t'
    · subst hc; simp
    · simp only [ne_eq, hc, not_false_eq_true, decide_True, List.takeWhile_cons_of_pos,
        List.head?_cons, Option.some.injEq, decide_False, Bool.false_eq_true, iff_false]
      intro h
      have := congrArg String.data h
      simp at this

theorem hasTab_of_startsWithTab (line : String) (h : startsWithTab line = true) :
    hasTab line = true := by
  unfold startsWithTab at h
  unfold hasTab
  obtain ⟨l⟩ := line
  cases l with
  | nil => simp at h
  | cons c cs => simp at h; simp [h]

theorem stripComment_of_not_blank (line : String) (h : isBlank line = false) :
    stripComment line = line ∧ line ≠ "" := by
  unfold isBlank at h
  simp only [decide_eq_false_iff_not] at h
  unfold stripComment at h ⊢
  split_ifs at h ⊢ with hc
  · exact absurd rfl h
  · exact ⟨rfl, h⟩

/-- The body of the loop of `Parse`, by the kind of line. -/
theorem parseLine_eq (path : String) (i : Nat) (st : State) (line : String) :
    parseLine path i st line =
      if isBlank line then .ok st
      else if startsWithTab line then
        match st.lastDateSpec with
        | none => .error (.located path i .firstEntry)
        | some spec =>
          .ok { st with entries := st.entries ++ [⟨afterFirstTab line, spec⟩],
                        foundEntries := true }
      else
        match ParseDateSpec (firstField line) path i with
        | .error err => .error err
        | .ok spec =>
          .ok { entries := if hasTab line then st.entries ++ [⟨afterFirstTab line, spec⟩]
                           else st.entries,
                lastDateSpec := some spec, lastDateSpecText := firstField line,
                lastDateSpecLine := i, foundEntries := hasTab line } := by
  cases hb : isBlank line
  · obtain ⟨hs, hne⟩ := stripComment_of_not_blank line hb
    simp only [parseLine, hs, if_neg hne, Bool.false_eq_true, if_false, SplitN2_tab]
    cases ht : hasTab line
    · have hst : startsWithTab line = false := by
        by_contra hc
        simp only [Bool.not_eq_false] at hc
        rw [hasTab_of_startsWithTab line hc] at ht
        cases ht
      simp only [Bool.false_eq_true, if_false, hst, firstField_of_no_tab line ht]
    · simp only [if_true]
      cases hst : startsWithTab line
      · have : firstField line ≠ "" := by
          intro hc
          rw [firstField_eq_empty_iff line ht, hst] at hc
          cases hc
        simp only [if_neg this, Bool.false_eq_true, if_false]
      · have : firstField line = "" := (firstField_eq_empty_iff line ht).mpr hst
        simp only [this, if_true]
  · have : stripComment line = "" := by simpa [isBlank] using hb
    simp [parseLine, this]

theorem parseLoop_append (path : String) (xs ys : List String) (i : Nat) (st : State) :
    parseLoop path i st (xs ++ ys) =
      match parseLoop path i st xs with
      | .error err => .error err
      | .ok st1 => parseLoop path (i + xs.length) st1 ys := by
  induction xs generalizing i st with
  | nil => simp [parseLoop]
  | cons x rest ih =>
    simp only [List.cons_append, parseLoop]
    cases hx : parseLine path i st x with
    | error err => rfl
    | ok st1 =>
      have e : i + 1 + rest.length = i + (rest.length + 1) := by omega
      have := ih (i + 1) st1
      simp only [List.length_cons, ← e]
      exact this

/-- What a successful iteration of the loop of `Parse` did, by the kind of line. -/
theorem parseLine_ok_cases (path : String) (i : Nat) (st st1 : State) (line : String)
    (h : parseLine path i st line = .ok st1) :
    (isBlank line = true ∧ st1 = st) ∨
    (isTitleLine line = true ∧ ∃ spec, st.lastDateSpec = some spec ∧
      st1 = { st with entries := st.entries ++ [⟨afterFirstTab line, spec⟩],
                      foundEntries := true }) ∨
    (isDecl line = true ∧ ∃ spec, ParseDateSpec (firstField line) path i = .ok spec ∧
      st1 = { entries := if hasTab line then st.entries ++ [⟨afterFirstTab line, spec⟩]
                         else st.entries,
              lastDateSpec := some spec, lastDateSpecText := firstField line,
              lastDateSpecLine := i, foundEntries := hasTab line }) := by
  rw [parseLine_eq] at h
  cases hb : isBlank line
  · simp only [hb, Bool.false_eq_true, if_false] at h
    cases hs : startsWithTab line
    · simp only [hs, Bool.false_eq_true, if_false] at h
      right; right
      refine ⟨by simp [isDecl, hb, hs], ?_⟩
      cases hp : ParseDateSpec (firstField line) path i with
      | error err => simp [hp] at h
      | ok spec =>
        simp only [hp, Except.ok.injEq] at h
        exact ⟨spec, rfl, h.symm⟩
    · simp only [hs, if_true] at h
      right; left
      refine ⟨by simp [isTitleLine, hb, hs], ?_⟩
      cases hl : st.lastDateSpec with
      | none => simp [hl] at h
      | some spec =>
        simp only [hl, Except.ok.injEq] at h
        exact ⟨spec, rfl, h.symm⟩
  · simp only [hb, if_true, Except.ok.injEq] at h
    exact Or.inl ⟨rfl, h.symm⟩

theorem kinds_exclusive (line : String) :
    (isBlank line = true → isTitleLine line = false ∧ isDecl line = false ∧
      isEntryLine line = false) ∧
    (isTitleLine line = true → isDecl line = false ∧ isEntryLine line = true ∧
      startsWithTab line = true) ∧
    (isDecl line = true → isTitleLine line = false ∧ isEntryLine line = hasTab line ∧
      startsWithTab line = false) := by
  unfold isTitleLine isDecl isEntryLine
  refine ⟨?_, ?_, ?_⟩
  · intro h; simp [h]
  · intro h
    simp only [Bool.and_eq_true, Bool.not_eq_true'] at h
    simp [h.1, h.2, hasTab_of_startsWithTab line h.2]
  · intro h
    simp only [Bool.and_eq_true, Bool.not_eq_true'] at h
    simp [h.1, h.2]

/-- The titles a successful run of the loop appends: one for each entry line, in order. -/
theorem parseLoop_titles (path : String) (xs : List String) (i : Nat) (st st1 : State)
    (h : parseLoop path i st xs = .ok st1) :
    st1.entries.map (·.Title)
      = st.entries.map (·.Title) ++ (xs.filter isEntryLine).map afterFirstTab := by
  induction xs generalizing i st with
  | nil =>
    simp only [parseLoop, Except.ok.injEq] at h
    simp [h]
  | cons x rest ih =>
    simp only [parseLoop] at h
    cases hx : parseLine path i st x with
    | error err => simp [hx] at h
    | ok st2 =>
      simp only [hx] at h
      rw [ih _ _ h]
      have hk := kinds_exclusive x
      rcases parseLine_ok_cases path i st st2 x hx with ⟨hb, he⟩ | ⟨ht, spec, _, he⟩ |
        ⟨hd, spec, _, he⟩
      · simp [he, List.filter_cons, (hk.1 hb).2.2]
      · simp [he, List.filter_cons, (hk.2.1 ht).2.1]
      · cases htab : hasTab x
        · simp [he, List.filter_cons, (hk.2.2 hd).2.1, htab]
        · simp [he, List.filter_cons, (hk.2.2 hd).2.1, htab]

/-- The entries a successful run of the loop appends: as many as there are entry lines. -/
theorem parseLoop_entries (path : String) (xs : List String) (i : Nat) (st st1 : State)
    (h : parseLoop path i st xs = .ok st1) :
    ∃ new, st1.entries = st.entries ++ new ∧ new.length = (xs.filter isEntryLine).length := by
  induction xs generalizing i st with
  | nil =>
    simp only [parseLoop, Except.ok.injEq] at h
    exact ⟨[], by simp [h]⟩
  | cons x rest ih =>
    simp only [parseLoop] at h
    cases hx : parseLine path i st x with
    | error err => simp [hx] at h
    | ok st2 =>
      simp only [hx] at h
      obtain ⟨new, hn, hl⟩ := ih _ _ h
      have hk := kinds_exclusive x
      rcases parseLine_ok_cases path i st st2 x hx with ⟨hb, he⟩ | ⟨ht, spec, _, he⟩ |
        ⟨hd, spec, _, he⟩
      · exact ⟨new, by rw [hn, he], by simp [List.filter_cons, (hk.1 hb).2.2, hl]⟩
      · refine ⟨⟨afterFirstTab x, spec⟩ :: new, by rw [hn, he]; simp, ?_⟩
        simp [List.filter_cons, (hk.2.1 ht).2.1, hl]
      · cases htab : hasTab x
        · exact ⟨new, by rw [hn, he]; simp [htab],
            by simp [List.filter_cons, (hk.2.2 hd).2.1, htab, hl]⟩
        · refine ⟨⟨afterFirstTab x, spec⟩ :: new, by rw [hn, he]; simp [htab], ?_⟩
          simp [List.filter_cons, (hk.2.2 hd).2.1, htab, hl]

/-- The current date spec after a successful run of the loop: the one it started with when no
line was a declaration, else the parsed first field of the last declaration. -/
theorem parseLoop_lastDateSpec (path : String) (xs : List String) (i : Nat) (st st1 : State)
    (h : parseLoop path i st xs = .ok st1) :
    ((∀ x ∈ xs, isDecl x = false) ∧ st1.lastDateSpec = st.lastDateSpec) ∨
    (∃ p1 dl p2 spec, xs = p1 ++ dl :: p2 ∧ isDecl dl = true ∧ (∀ x ∈ p2, isDecl x = false) ∧
      ParseDateSpec (firstField dl) path (i + p1.length) = .ok spec ∧
      st1.lastDateSpec = some spec) := by
  induction xs generalizing i st with
  | nil =>
    simp only [parseLoop, Except.ok.injEq] at h
    left; simp [h]
  | cons x rest ih =>
    simp only [parseLoop] at h
    cases hx : parseLine path i st x with
    | error err => simp [hx] at h
    | ok st2 =>
      simp only [hx] at h
      have hk := kinds_exclusive x
      rcases ih _ _ h with ⟨hnd, hl⟩ | ⟨p1, dl, p2, spec, hxs, hdl, hp2, hps, hl⟩
      · rcases parseLine_ok_cases path i st st2 x hx with ⟨hb, he⟩ | ⟨ht, spec, _, he⟩ |
          ⟨hd, spec, hps, he⟩
        · left
          refine ⟨?_, by rw [hl, he]⟩
          intro y hy
          rcases List.mem_cons.mp hy with rfl | hy
          · exact (hk.1 hb).2.1
          · exact hnd y hy
        · left
          refine ⟨?_, by rw [hl, he]⟩
          intro y hy
          rcases List.mem_cons.mp hy with rfl | hy
          · exact (hk.2.1 ht).1
          · exact hnd y hy
        · right
          exact ⟨[], x, rest, spec, rfl, hd, hnd, by simpa using hps, by rw [hl, he]⟩
      · right
        refine ⟨x :: p1, dl, p2, spec, by rw [hxs]; rfl, hdl, hp2, ?_, hl⟩
        have : i + (x :: p1).length = i + 1 + p1.length := by simp; omega
        rw [this]; exact hps

end parser

namespace parser
open datespec

theorem splitList_no_sep (sep : Char) (l : List Char) :
    ∀ p ∈ strings.splitList sep l, sep ∉ p := by
  induction l with
  | nil => simp [strings.splitList]
  | cons c cs ih =>
    intro p hp
    by_cases hc : c = sep
    · simp only [strings.splitList, if_pos hc, List.mem_cons] at hp
      rcases hp with rfl | hp
      · simp
      · exact ih p hp
    · simp only [strings.splitList, if_neg hc] at hp
      cases hs : strings.splitList sep cs with
      | nil =>
        simp only [hs, List.mem_singleton] at hp
        subst hp
        simpa using Ne.symm hc
      | cons q qs =>
        rw [hs] at ih
        simp only [hs, List.mem_cons] at hp
        rcases hp with rfl | hp
        · have := ih q (List.mem_cons_self _ _)
          simp only [List.mem_cons, not_or]
          exact ⟨Ne.symm hc, this⟩
        · exact ih p (List.mem_cons_of_mem _ hp)

theorem TrimSpace_subset (s : String) (c : Char) (h : c ∈ (strings.TrimSpace s).data) :
    c ∈ s.data := by
  unfold strings.TrimSpace at h
  simp only [List.mem_reverse] at h
  have h1 := List.dropWhile_subset strings.IsSpace h
  rw [List.mem_reverse] at h1
  exact List.dropWhile_subset strings.IsSpace h1

/-- A text without `|` is parsed by the branches after the union test at every depth. -/
theorem ParseDateSpecDepth_of_no_bar (path : String) (lineNumber n : Nat) (s : String)
    (h : '|' ∉ s.data) :
    ParseDateSpecDepth path lineNumber n s
      = parseSingle (strings.TrimSpace s) path lineNumber := by
  cases n with
  | zero => rfl
  | succ k =>
    have : strings.Contains (strings.TrimSpace s) '|' = false := by
      unfold strings.Contains
      rw [Bool.eq_false_iff]
      intro hc
      have hc2 : '|' ∈ (strings.TrimSpace s).data := by simpa using hc
      exact h (TrimSpace_subset s _ hc2)
    simp only [ParseDateSpecDepth, this, Bool.false_eq_true, if_false]

theorem parsePatterns_congr (f g : String → Except Error DateSpec) (l : List String)
    (h : ∀ p ∈ l, f p = g p) : parsePatterns f l = parsePatterns g l := by
  induction l with
  | nil => rfl
  | cons p ps ih =>
    simp only [parsePatterns, h p (List.mem_cons_self _ _),
      ih (fun q hq => h q (List.mem_cons_of_mem _ hq))]

/-- The recursion of `ParseDateSpec` is never deeper than one nested call: any larger bound
gives the result of `ParseDateSpec`. -/
theorem ParseDateSpecDepth_succ (path : String) (lineNumber n : Nat) (s : String) :
    ParseDateSpecDepth path lineNumber (n + 1) s = ParseDateSpec s path lineNumber := by
  have key : ∀ m, parsePatterns (ParseDateSpecDepth path lineNumber m)
        (strings.Split (strings.TrimSpace s) '|')
      = parsePatterns (fun p => parseSingle (strings.TrimSpace p) path lineNumber)
        (strings.Split (strings.TrimSpace s) '|') := by
    intro m
    apply parsePatterns_congr
    intro p hp
    unfold strings.Split at hp
    obtain ⟨q, hq, rfl⟩ := List.mem_map.mp hp
    exact ParseDateSpecDepth_of_no_bar _ _ _ _ (splitList_no_sep '|' _ q hq)
  unfold ParseDateSpec
  rw [ParseDateSpecDepth, ParseDateSpecDepth]
  simp only [key]

end parser

namespace parser
open datespec

theorem Parse_ok (lines : List String) (scanErr : Option String) (path : String)
    (entries : List Entry) (h : Parse lines scanErr path = .ok entries) :
    ∃ st, parseLoop path 1 ⟨[], none, "", 0, false⟩ lines = .ok st ∧ st.entries = entries := by
  unfold Parse at h
  cases hl : parseLoop path 1 ⟨[], none, "", 0, false⟩ lines with
  | error err => simp [hl] at h
  | ok st =>
    simp only [hl] at h
    cases scanErr with
    | some err => simp at h
    | none =>
      simp only at h
      split_ifs at h
      simp only [Except.ok.injEq] at h
      exact ⟨st, rfl, h⟩

theorem parseLoop_blank (path : String) (xs : List String) (i : Nat) (st : State)
    (h : ∀ x ∈ xs, isBlank x = true) : parseLoop path i st xs = .ok st := by
  induction xs generalizing i with
  | nil => rfl
  | cons x rest ih =>
    have hx : parseLine path i st x = .ok st := by
      rw [parseLine_eq, h x (List.mem_cons_self _ _)]; rfl
    simp only [parseLoop, hx]
    exact ih _ (fun y hy => h y (List.mem_cons_of_mem _ hy))

/-- After the last declaration: lines that are not declarations leave the current date spec,
its text and its line number alone, and a title line among them sets `foundEntries`. -/
theorem parseLoop_no_decl (path : String) (xs : List String) (i : Nat) (st st1 : State)
    (hnd : ∀ x ∈ xs, isDecl x = false) (h : parseLoop path i st xs = .ok st1) :
    st1.lastDateSpec = st.lastDateSpec ∧ st1.lastDateSpecText = st.lastDateSpecText ∧
    st1.lastDateSpecLine = st.lastDateSpecLine ∧
    st1.foundEntries = (st.foundEntries || xs.any isTitleLine) := by
  induction xs generalizing i st with
  | nil =>
    simp only [parseLoop, Except.ok.injEq] at h
    simp [h]
  | cons x rest ih =>
    simp only [parseLoop] at h
    cases hx : parseLine path i st x with
    | error err => simp [hx] at h
    | ok st2 =>
      simp only [hx] at h
      have hr := ih _ _ (fun y hy => hnd y (List.mem_cons_of_mem _ hy)) h
      have hk := kinds_exclusive x
      rcases parseLine_ok_cases path i st st2 x hx with ⟨hb, he⟩ | ⟨ht, spec, _, he⟩ |
        ⟨hd, _⟩
      · rw [he] at hr
        simp [hr, (hk.1 hb).1]
      · rw [he] at hr
        simp [hr, ht]
      · rw [hnd x (List.mem_cons_self _ _)] at hd
        cases hd

theorem parseLoop_ok_of_wellFormed (path : String) (xs : List String) (i : Nat) (st : State)
    (hwf : WellFormedLines path xs)
    (hfirst : st.lastDateSpec.isSome = true ∨ firstLineDeclares xs = true) :
    ∃ st1, parseLoop path i st xs = .ok st1 := by
  induction xs generalizing i st with
  | nil => exact ⟨st, rfl⟩
  | cons x rest ih =>
    have hwf2 : WellFormedLines path rest := fun l hl => hwf l (List.mem_cons_of_mem _ hl)
    simp only [parseLoop]
    rw [parseLine_eq]
    cases hb : isBlank x
    · simp only [Bool.false_eq_true, if_false]
      cases hs : startsWithTab x
      · simp only [Bool.false_eq_true, if_false]
        obtain ⟨spec, hp⟩ := hwf x (List.mem_cons_self _ _) (by simp [isDecl, hb, hs]) i
        simp only [hp]
        exact ih _ _ hwf2 (Or.inl rfl)
      · simp only [if_true]
        have hsome : st.lastDateSpec.isSome = true := by
          rcases hfirst with h | h
          · exact h
          · simp [firstLineDeclares, List.find?_cons, hb, hs] at h
        cases hl : st.lastDateSpec with
        | none => simp [hl] at hsome
        | some spec =>
          simp only
          exact ih _ _ hwf2 (Or.inl (by simp [hl]))
    · simp only [if_true]
      apply ih _ _ hwf2
      rcases hfirst with h | h
      · exact Or.inl h
      · right
        simpa [firstLineDeclares, List.find?_cons, hb] using h

theorem parseLoop_error_of_wellFormed (path : String) (xs : List String) (i : Nat)
    (st : State) (err : Error) (hwf : WellFormedLines path xs)
    (h : parseLoop path i st xs = .error err) : ∃ j, err = .located path j .firstEntry := by
  induction xs generalizing i st with
  | nil => simp [parseLoop] at h
  | cons x rest ih =>
    have hwf2 : WellFormedLines path rest := fun l hl => hwf l (List.mem_cons_of_mem _ hl)
    simp only [parseLoop] at h
    cases hx : parseLine path i st x with
    | ok st2 =>
      simp only [hx] at h
      exact ih _ _ hwf2 h
    | error e =>
      simp only [hx, Except.error.injEq] at h
      subst h
      rw [parseLine_eq] at hx
      cases hb : isBlank x
      · simp only [hb, Bool.false_eq_true, if_false] at hx
        cases hs : startsWithTab x
        · simp only [hs, Bool.false_eq_true, if_false] at hx
          obtain ⟨spec, hp⟩ := hwf x (List.mem_cons_self _ _) (by simp [isDecl, hb, hs]) i
          simp [hp] at hx
        · simp only [hs, if_true] at hx
          cases hl : st.lastDateSpec with
          | none =>
            simp only [hl, Except.error.injEq] at hx
            exact ⟨i, hx.symm⟩
          | some spec => simp [hl] at hx
      · simp [hb] at hx

end parser

open parser datespec

/-- C7: when `Parse` succeeds, the titles of the entries are, in input order, the text after
the first tab of each line that is not empty after comment stripping and has a tab; the title
keeps later tabs and inline `#` or `//` text, and a line without a tab gives no entry. -/
theorem C7_parse_titles (lines : List String) (scanErr : Option String) (path : String)
    (entries : List Entry) (h : Parse lines scanErr path = .ok entries) :
    entries.map (·.Title) = (lines.filter isEntryLine).map afterFirstTab ∧
    (∀ l ∈ lines, hasTab l = false → isEntryLine l = false) ∧
    (Parse ["15 *\t15th", "\tIdes #romans", "March 29", "Sunday\ta\tb // c"] none path).map
        (fun es => es.map (·.Title)) = .ok ["15th", "Ides #romans", "a\tb // c"] := by
  obtain ⟨st, hst, he⟩ := Parse_ok lines scanErr path entries h
  refine ⟨?_, ?_, rfl⟩
  · rw [← he, parseLoop_titles path lines 1 _ st hst]
    rfl
  · intro l _ hl
    simp [isEntryLine, hl]

/-- Witness of C7: a lone spec, a comment, a spec with a title and a title line. -/
theorem C7_parse_titles_witness :
    [Entry.mk "foo" (.Weekday 1), Entry.mk "Ides #romans" (.Weekday 1)].map (·.Title)
      = (["Sunday", "# c", "Monday\tfoo", "\tIdes #romans"].filter isEntryLine).map
          afterFirstTab ∧
    (∀ l ∈ ["Sunday", "# c", "Monday\tfoo", "\tIdes #romans"],
      hasTab l = false → isEntryLine l = false) ∧
    (Parse ["15 *\t15th", "\tIdes #romans", "March 29", "Sunday\ta\tb // c"] none "/cal").map
        (fun es => es.map (·.Title)) = .ok ["15th", "Ides #romans", "a\tb // c"] :=
  C7_parse_titles ["Sunday", "# c", "Monday\tfoo", "\tIdes #romans"] none "/cal"
    [⟨"foo", .Weekday 1⟩, ⟨"Ides #romans", .Weekday 1⟩] rfl

/-- C8: when `Parse` succeeds, the entry of a line that starts with a tab has the date spec of
the nearest preceding declaration (`ParseDateSpec` of the first field of the last declaration
before it), and the entry of a spec-and-title line has `ParseDateSpec` of the line's own first
field. -/
theorem C8_parse_dateSpecs (lines : List String) (scanErr : Option String) (path : String)
    (entries : List Entry) (pre post : List String) (l : String)
    (h : Parse lines scanErr path = .ok entries) (hsplit : lines = pre ++ l :: post)
    (hl : isEntryLine l = true) :
    ∃ e, entries[(pre.filter isEntryLine).length]? = some e ∧ e.Title = afterFirstTab l ∧
      (startsWithTab l = true →
        ∃ p1 dl p2, pre = p1 ++ dl :: p2 ∧ isDecl dl = true ∧ (∀ x ∈ p2, isDecl x = false) ∧
          ParseDateSpec (firstField dl) path (p1.length + 1) = .ok e.DateSpec) ∧
      (startsWithTab l = false →
        ParseDateSpec (firstField l) path (pre.length + 1) = .ok e.DateSpec) := by
  obtain ⟨st, hst, he⟩ := Parse_ok lines scanErr path entries h
  rw [hsplit, parseLoop_append] at hst
  cases hpre : parseLoop path 1 ⟨[], none, "", 0, false⟩ pre with
  | error err => simp [hpre] at hst
  | ok st1 =>
    simp only [hpre, parseLoop] at hst
    cases hx : parseLine path (1 + pre.length) st1 l with
    | error err => simp [hx] at hst
    | ok st2 =>
      simp only [hx] at hst
      obtain ⟨new1, hn1, hlen1⟩ := parseLoop_entries path pre 1 _ st1 hpre
      obtain ⟨new3, hn3, _⟩ := parseLoop_entries path post _ st2 st hst
      simp only [List.nil_append] at hn1
      have hk := kinds_exclusive l
      have hline : 1 + pre.length = pre.length + 1 := by omega
      have hget : ∀ (e : Entry) (more : List Entry), st2.entries = st1.entries ++ e :: more →
          entries[(pre.filter isEntryLine).length]? = some e := by
        intro e more h2
        rw [← he, hn3, h2, hn1, ← hlen1, List.append_assoc,
          List.getElem?_append_right (le_refl _)]
        simp
      rcases parseLine_ok_cases path _ st1 st2 l hx with ⟨hb, _⟩ | ⟨ht, spec, hlast, he2⟩ |
        ⟨hd, spec, hps, he2⟩
      · rw [(hk.1 hb).2.2] at hl; cases hl
      · refine ⟨⟨afterFirstTab l, spec⟩, hget _ [] (by rw [he2]), rfl, ?_, ?_⟩
        · intro _
          rcases parseLoop_lastDateSpec path pre 1 _ st1 hpre with ⟨_, hnone⟩ |
            ⟨p1, dl, p2, spec2, hp, hdl, hp2, hps, hsome⟩
          · rw [hlast] at hnone; cases hnone
          · rw [hlast, Option.some.injEq] at hsome
            subst hsome
            have : 1 + p1.length = p1.length + 1 := by omega
            exact ⟨p1, dl, p2, hp, hdl, hp2, by rw [← this]; exact hps⟩
        · intro hns
          rw [(hk.2.1 ht).2.2] at hns; cases hns
      · have htab : hasTab l = true := by rw [← (hk.2.2 hd).2.1]; exact hl
        refine ⟨⟨afterFirstTab l, spec⟩, hget _ [] (by rw [he2]; simp [htab]), rfl, ?_, ?_⟩
        · intro hs
          rw [(hk.2.2 hd).2.2] at hs; cases hs
        · intro _
          rw [← hline]; exact hps

/-- Witness of C8: the title line `\tbar` after the declarations `Sunday` and `Monday\tfoo`. -/
theorem C8_parse_dateSpecs_witness :
    ∃ e, [Entry.mk "foo" (.Weekday 1), Entry.mk "bar" (.Weekday 1)][
        ((["Sunday", "Monday\tfoo", "# c"] : List String).filter isEntryLine).length]? = some e ∧
      e.Title = afterFirstTab "\tbar" ∧
      (startsWithTab "\tbar" = true →
        ∃ p1 dl p2, ["Sunday", "Monday\tfoo", "# c"] = p1 ++ dl :: p2 ∧ isDecl dl = true ∧
          (∀ x ∈ p2, isDecl x = false) ∧
          ParseDateSpec (firstField dl) "/cal" (p1.length + 1) = .ok e.DateSpec) ∧
      (startsWithTab "\tbar" = false →
        ParseDateSpec (firstField "\tbar") "/cal"
          ((["Sunday", "Monday\tfoo", "# c"] : List String).length + 1) = .ok e.DateSpec) :=
  C8_parse_dateSpecs ["Sunday", "Monday\tfoo", "# c", "\tbar", "Tuesday\tbaz"] none "/cal"
    [⟨"foo", .Weekday 1⟩, ⟨"bar", .Weekday 1⟩, ⟨"baz", .Weekday 2⟩]
    ["Sunday", "Monday\tfoo", "# c"] ["Tuesday\tbaz"] "\tbar" rfl rfl rfl

/-- C9: when the first line that is not empty after comment stripping starts with a tab, `Parse`
fails with the error `<path>:<i>: date spec required for first entry`, `i` the 1-based number
of that line; `i` is 1 for the input of the one line `\tOrphan title`. -/
theorem C9_parse_orphan_title (pre post : List String) (l : String)
    (scanErr : Option String) (path : String) (hpre : ∀ x ∈ pre, isBlank x = true)
    (hl : isBlank l = false) (ht : startsWithTab l = true) :
    Parse (pre ++ l :: post) scanErr path = .error (.located path (pre.length + 1) .firstEntry) ∧
    (∀ q v, (Error.located path (pre.length + 1) .firstEntry).text q v
      = path ++ ":" ++ toString (pre.length + 1) ++ ": date spec required for first entry") ∧
    Parse ["\tOrphan title"] scanErr path = .error (.located path 1 .firstEntry) := by
  refine ⟨?_, fun _ _ => ?_, rfl⟩
  swap
  · simp only [Error.text, Message.text, String.append_assoc]
    rfl
  unfold Parse
  rw [parseLoop_append, parseLoop_blank path pre 1 _ hpre]
  simp only [parseLoop]
  rw [parseLine_eq, hl, ht]
  have : 1 + pre.length = pre.length + 1 := by omega
  simp [this]

/-- Witness of C9: an orphan title on line 3, after an empty line and a comment. -/
theorem C9_parse_orphan_title_witness :
    Parse (["", "// c"] ++ "\tOrphan title" :: ["Sunday\tx"]) none "/cal"
      = .error (.located "/cal" ((["", "// c"] : List String).length + 1) .firstEntry) ∧
    (∀ q v, (Error.located "/cal" ((["", "// c"] : List String).length + 1) .firstEntry).text q v
      = "/cal" ++ ":" ++ toString ((["", "// c"] : List String).length + 1)
          ++ ": date spec required for first entry") ∧
    Parse ["\tOrphan title"] none "/cal" = .error (.located "/cal" 1 .firstEntry) :=
  C9_parse_orphan_title ["", "// c"] ["Sunday\tx"] "\tOrphan title" none "/cal"
    (by decide) (by decide) (by decide)

namespace parser
open datespec

theorem parseLoop_last_decl (path : String) (pre post : List String) (dl : String)
    (st : State) (hdl : isDecl dl = true) (hpost : ∀ x ∈ post, isDecl x = false)
    (h : parseLoop path 1 ⟨[], none, "", 0, false⟩ (pre ++ dl :: post) = .ok st) :
    st.lastDateSpec.isSome = true ∧ st.lastDateSpecText = firstField dl ∧
    st.lastDateSpecLine = pre.length + 1 ∧
    st.foundEntries = (hasTab dl || post.any isTitleLine) := by
  rw [parseLoop_append] at h
  cases hpre : parseLoop path 1 ⟨[], none, "", 0, false⟩ pre with
  | error err => simp [hpre] at h
  | ok st1 =>
    simp only [hpre, parseLoop] at h
    cases hx : parseLine path (1 + pre.length) st1 dl with
    | error err => simp [hx] at h
    | ok st2 =>
      simp only [hx] at h
      have ht := parseLoop_no_decl path post _ st2 st hpost h
      have hk := kinds_exclusive dl
      rcases parseLine_ok_cases path _ st1 st2 dl hx with ⟨hb, _⟩ | ⟨ht2, _⟩ |
        ⟨_, spec, _, he2⟩
      · rw [(hk.1 hb).2.1] at hdl; cases hdl
      · rw [(hk.2.1 ht2).1] at hdl; cases hdl
      · rw [he2] at ht
        simp only at ht
        refine ⟨by rw [ht.1]; rfl, ht.2.1, by rw [ht.2.2.1]; omega, ht.2.2.2⟩

end parser

open parser datespec

/-- C10, refuted as stated: in the input of the two lines `\tOrphan` and `Sunday` every line is
well-formed on its own, the last declaration `Sunday` is a lone line and no title follows it,
yet `Parse` fails with the error for a first entry without date spec at line 1, not with a
"has no entries" error for line 2. -/
theorem C10_orphan_before_lone_spec :
    WellFormedLines "/cal" (["\tOrphan"] ++ "Sunday" :: []) ∧
    isDecl "Sunday" = true ∧ hasTab "Sunday" = false ∧
    (∀ x ∈ ([] : List String), isDecl x = false ∧ isTitleLine x = false) ∧
    Parse (["\tOrphan"] ++ "Sunday" :: []) none "/cal"
      = .error (.located "/cal" 1 .firstEntry) ∧
    Parse (["\tOrphan"] ++ "Sunday" :: []) none "/cal"
      ≠ .error (.located "/cal" 2 (.noEntries "Sunday")) := by
  have hrun : Parse (["\tOrphan"] ++ "Sunday" :: []) none "/cal"
      = .error (.located "/cal" 1 .firstEntry) := rfl
  refine ⟨?_, by decide, by decide, by simp, hrun, by rw [hrun]; simp⟩
  intro l hl hd n
  simp only [List.singleton_append, List.mem_cons, List.mem_singleton, List.not_mem_nil,
    or_false] at hl
  rcases hl with rfl | rfl
  · exact absurd hd (by decide)
  · exact ⟨.Weekday 0, rfl⟩

/-- C10, amended: in an input where every declaration is well-formed, let `dl` be the last
declaration.  If the first non-blank line of the input does not start with a tab, `dl` is a
lone line and no title line follows it, `Parse` (the input read to its end) fails with the
"has no entries" error carrying the line number and the text of `dl`.  If `dl` has a title
on its line or a title line follows it, `Parse` does not return a "has no entries" error. -/
theorem C10_parse_no_entries (pre post : List String) (dl : String)
    (scanErr : Option String) (path : String)
    (hwf : WellFormedLines path (pre ++ dl :: post)) (hdl : isDecl dl = true)
    (hpost : ∀ x ∈ post, isDecl x = false) :
    (firstLineDeclares (pre ++ dl :: post) = true → hasTab dl = false →
      post.any isTitleLine = false →
      Parse (pre ++ dl :: post) none path
        = .error (.located path (pre.length + 1) (.noEntries dl))) ∧
    (hasTab dl = true ∨ post.any isTitleLine = true →
      ∀ p n t, Parse (pre ++ dl :: post) scanErr path ≠ .error (.located p n (.noEntries t))) := by
  constructor
  · intro hfirst hlone hnt
    obtain ⟨st, hst⟩ := parseLoop_ok_of_wellFormed path (pre ++ dl :: post) 1
      ⟨[], none, "", 0, false⟩ hwf (Or.inr hfirst)
    obtain ⟨h1, h2, h3, h4⟩ := parseLoop_last_decl path pre post dl st hdl hpost hst
    unfold Parse
    simp only [hst, h1, h4, hlone, hnt, h2, h3, firstField_of_no_tab dl hlone]
    rfl
  · intro hsome p n t hc
    unfold Parse at hc
    cases hrun : parseLoop path 1 ⟨[], none, "", 0, false⟩ (pre ++ dl :: post) with
    | error err =>
      obtain ⟨j, hj⟩ := parseLoop_error_of_wellFormed path _ 1 _ err hwf hrun
      simp [hrun, hj] at hc
    | ok st =>
      obtain ⟨_, _, _, h4⟩ := parseLoop_last_decl path pre post dl st hdl hpost hrun
      have hfound : st.foundEntries = true := by
        rw [h4]; rcases hsome with h | h <;> simp [h]
      cases scanErr with
      | some err => simp [hrun] at hc
      | none => simp [hrun, hfound] at hc

/-- Witness of the amended C10: the lone spec `Monday` on line 3, followed by an empty line. -/
theorem C10_parse_no_entries_witness :
    (firstLineDeclares (["# c", "Sunday\tx"] ++ "Monday" :: [""]) = true →
      hasTab "Monday" = false → ([""] : List String).any isTitleLine = false →
      Parse (["# c", "Sunday\tx"] ++ "Monday" :: [""]) none "/cal"
        = .error (.located "/cal" ((["# c", "Sunday\tx"] : List String).length + 1)
            (.noEntries "Monday"))) ∧
    (hasTab "Monday" = true ∨ ([""] : List String).any isTitleLine = true →
      ∀ p n t, Parse (["# c", "Sunday\tx"] ++ "Monday" :: [""]) none "/cal"
        ≠ .error (.located p n (.noEntries t))) :=
  C10_parse_no_entries ["# c", "Sunday\tx"] [""] "Monday" none "/cal"
    (by
      intro l hl hd n
      simp only [List.cons_append, List.nil_append, List.mem_cons, List.mem_singleton,
        List.not_mem_nil, or_false] at hl
      rcases hl with rfl | rfl | rfl | rfl
      · exact absurd hd (by decide)
      · exact ⟨.Weekday 0, rfl⟩
      · exact ⟨.Weekday 1, rfl⟩
      · exact absurd hd (by decide))
    (by decide) (by decide)

/-! ## `ParseDateSpec`: errors, line numbers and well-formed results -/

namespace parser
open datespec

/-- The function `ParseDateSpec`, with its one level of recursion spelled out. -/
theorem ParseDateSpec_eq (s path : String) (n : Nat) :
    ParseDateSpec s path n =
      if strings.Contains (strings.TrimSpace s) '|' then
        match parsePatterns (fun p => parseSingle (strings.TrimSpace p) path n)
            (strings.Split (strings.TrimSpace s) '|') with
        | .error err => .error err
        | .ok specs => .ok (.Union specs)
      else parseSingle (strings.TrimSpace s) path n := by
  unfold ParseDateSpec
  rw [ParseDateSpecDepth]
  rfl

theorem parseSingle_error_located (s path : String) (n : Nat) (err : Error)
    (h : parseSingle s path n = .error err) : ∃ msg, err = .located path n msg := by
  unfold parseSingle at h
  repeat' split at h
  all_goals first
    | (cases h; done)
    | (cases h; exact ⟨_, rfl⟩)

theorem parseSingle_toOption (s path path2 : String) (n n2 : Nat) :
    (parseSingle s path n).toOption = (parseSingle s path2 n2).toOption := by
  unfold parseSingle
  repeat' split
  all_goals rfl

theorem parseSingle_wellFormed (s path : String) (n : Nat) (spec : DateSpec)
    (h : parseSingle s path n = .ok spec) : spec.WellFormed = true := by
  unfold parseSingle at h
  repeat' split at h
  all_goals first
    | (cases h; done)
    | (cases h; simp only [DateSpec.WellFormed, decide_eq_true_eq]; omega)
    | (cases h; rfl)

theorem parseSingle_not_union (s path : String) (n : Nat) (spec : DateSpec)
    (h : parseSingle s path n = .ok spec) : ∀ l, spec ≠ .Union l := by
  unfold parseSingle at h
  repeat' split at h
  all_goals first
    | (cases h; done)
    | (cases h; intro l hl; cases hl)

theorem parsePatterns_ok_iff (f : String → Except Error DateSpec) (l : List String)
    (specs : List DateSpec) :
    parsePatterns f l = .ok specs ↔ List.Forall₂ (fun c sp => f c = .ok sp) l specs := by
  induction l generalizing specs with
  | nil =>
    simp only [parsePatterns, Except.ok.injEq]
    constructor
    · intro h; subst h; exact List.Forall₂.nil
    · intro h; cases h; rfl
  | cons c cs ih =>
    simp only [parsePatterns]
    constructor
    · intro h
      cases hc : f c with
      | error e => simp [hc] at h
      | ok sp =>
        simp only [hc] at h
        cases hr : parsePatterns f cs with
        | error e => simp [hr] at h
        | ok sps =>
          simp only [hr, Except.ok.injEq] at h
          subst h
          exact List.Forall₂.cons hc ((ih sps).mp hr)
    · intro h
      cases h with
      | cons h1 h2 =>
        rw [h1]
        simp only
        rw [(ih _).mpr h2]

theorem parsePatterns_error (f : String → Except Error DateSpec) (good rest : List String)
    (bad : String) (err : Error) (hgood : ∀ c ∈ good, ∃ sp, f c = .ok sp)
    (hbad : f bad = .error err) : parsePatterns f (good ++ bad :: rest) = .error err := by
  induction good with
  | nil => simp [parsePatterns, hbad]
  | cons c cs ih =>
    obtain ⟨sp, hsp⟩ := hgood c (List.mem_cons_self _ _)
    have hr := ih (fun x hx => hgood x (List.mem_cons_of_mem _ hx))
    rw [List.cons_append, parsePatterns, hsp]
    simp only [hr]

theorem parsePatterns_error_mem (f : String → Except Error DateSpec) (l : List String)
    (err : Error) (h : parsePatterns f l = .error err) :
    ∃ good bad rest, l = good ++ bad :: rest ∧ (∀ c ∈ good, ∃ sp, f c = .ok sp) ∧
      f bad = .error err := by
  induction l with
  | nil => simp [parsePatterns] at h
  | cons c cs ih =>
    simp only [parsePatterns] at h
    cases hc : f c with
    | error e =>
      simp only [hc, Except.error.injEq] at h
      subst h
      exact ⟨[], c, cs, rfl, by simp, hc⟩
    | ok sp =>
      simp only [hc] at h
      cases hr : parsePatterns f cs with
      | ok sps => simp [hr] at h
      | error e =>
        simp only [hr, Except.error.injEq] at h
        subst h
        obtain ⟨good, bad, rest, hl, hg, hb⟩ := ih hr
        refine ⟨c :: good, bad, rest, by rw [hl]; rfl, ?_, hb⟩
        intro x hx
        rcases List.mem_cons.mp hx with rfl | hx
        · exact ⟨sp, hc⟩
        · exact hg x hx

theorem parsePatterns_toOption (f g : String → Except Error DateSpec) (l : List String)
    (h : ∀ c ∈ l, (f c).toOption = (g c).toOption) :
    (parsePatterns f l).toOption = (parsePatterns g l).toOption := by
  induction l with
  | nil => rfl
  | cons c cs ih =>
    have hc := h c (List.mem_cons_self _ _)
    have hr := ih (fun x hx => h x (List.mem_cons_of_mem _ hx))
    simp only [parsePatterns]
    cases hf : f c <;> cases hg : g c <;> simp only [hf, hg, Except.toOption] at hc ⊢
    · cases hc
    · cases hc
    · cases hc
      cases hpf : parsePatterns f cs <;> cases hpg : parsePatterns g cs <;>
        simp only [hpf, hpg, Except.toOption] at hr ⊢
      · cases hr
      · cases hr
      · cases hr; rfl

/-- Every error of `ParseDateSpec` carries the path and the line number it was called with. -/
theorem ParseDateSpec_error_located (s path : String) (n : Nat) (err : Error)
    (h : ParseDateSpec s path n = .error err) : ∃ msg, err = .located path n msg := by
  rw [ParseDateSpec_eq] at h
  split_ifs at h
  · cases hp : parsePatterns (fun p => parseSingle (strings.TrimSpace p) path n)
        (strings.Split (strings.TrimSpace s) '|') with
    | ok specs => simp [hp] at h
    | error e =>
      simp only [hp, Except.error.injEq] at h
      subst h
      obtain ⟨_, bad, _, _, _, hb⟩ := parsePatterns_error_mem _ _ _ hp
      exact parseSingle_error_located _ _ _ _ hb
  · exact parseSingle_error_located _ _ _ _ h

/-- Whether `ParseDateSpec` succeeds, and with which spec, does not depend on the path and the
line number it is given for its error messages. -/
theorem ParseDateSpec_toOption (s path path2 : String) (n n2 : Nat) :
    (ParseDateSpec s path n).toOption = (ParseDateSpec s path2 n2).toOption := by
  rw [ParseDateSpec_eq, ParseDateSpec_eq]
  split_ifs
  · have := parsePatterns_toOption (fun p => parseSingle (strings.TrimSpace p) path n)
      (fun p => parseSingle (strings.TrimSpace p) path2 n2)
      (strings.Split (strings.TrimSpace s) '|')
      (fun c _ => parseSingle_toOption _ _ _ _ _)
    cases h1 : parsePatterns (fun p => parseSingle (strings.TrimSpace p) path n)
        (strings.Split (strings.TrimSpace s) '|') <;>
      cases h2 : parsePatterns (fun p => parseSingle (strings.TrimSpace p) path2 n2)
        (strings.Split (strings.TrimSpace s) '|') <;>
      simp only [h1, h2, Except.toOption] at this ⊢
    · cases this
    · cases this
    · cases this; rfl
  · exact parseSingle_toOption _ _ _ _ _

theorem ParseDateSpec_ok_of_ok (s path path2 : String) (n n2 : Nat) (spec : DateSpec)
    (h : ParseDateSpec s path n = .ok spec) : ParseDateSpec s path2 n2 = .ok spec := by
  have := ParseDateSpec_toOption s path path2 n n2
  rw [h] at this
  cases h2 : ParseDateSpec s path2 n2 with
  | error e => simp [h2, Except.toOption] at this
  | ok sp =>
    simp only [h2, Except.toOption, Option.some.injEq] at this
    rw [this]

theorem Forall₂_wellFormed (f : String → Except Error DateSpec) (l : List String)
    (specs : List DateSpec) (h : List.Forall₂ (fun c sp => f c = .ok sp) l specs)
    (hf : ∀ c sp, f c = .ok sp → sp.WellFormed = true) : AllWellFormed specs = true := by
  induction h with
  | nil => rfl
  | cons h1 _ ih => simp [AllWellFormed, hf _ _ h1, ih]

/-- The spec `ParseDateSpec` returns satisfies the invariants of the data model. -/
theorem ParseDateSpec_wellFormed (s path : String) (n : Nat) (spec : DateSpec)
    (h : ParseDateSpec s path n = .ok spec) : spec.WellFormed = true := by
  rw [ParseDateSpec_eq] at h
  split_ifs at h
  · cases hp : parsePatterns (fun p => parseSingle (strings.TrimSpace p) path n)
        (strings.Split (strings.TrimSpace s) '|') with
    | error e => simp [hp] at h
    | ok specs =>
      simp only [hp, Except.ok.injEq] at h
      subst h
      simp only [DateSpec.WellFormed]
      exact Forall₂_wellFormed _ _ _ ((parsePatterns_ok_iff _ _ _).mp hp)
        (fun c sp hc => parseSingle_wellFormed _ _ _ _ hc)
  · exact parseSingle_wellFormed _ _ _ _ h

end parser

namespace parser
open datespec

theorem firstLineDeclares_of_append (pre xs : List String)
    (h : firstLineDeclares (pre ++ xs) = true) : firstLineDeclares pre = true := by
  induction pre with
  | nil => rfl
  | cons x rest ih =>
    cases hb : isBlank x
    · simpa [firstLineDeclares, List.find?_cons, hb] using h
    · have h2 : firstLineDeclares (rest ++ xs) = true := by
        simpa [firstLineDeclares, List.find?_cons, hb] using h
      simpa [firstLineDeclares, List.find?_cons, hb] using ih h2

theorem Error_text_located (path : String) (n : Nat) (msg : Message) (q v : String → String) :
    (Error.located path n msg).text q v
      = path ++ ":" ++ toString n ++ ":" ++ (" " ++ msg.text q v) := by
  simp only [Error.text, String.append_assoc]
  rfl

end parser

open parser datespec

/-- C11, refuted as stated: in the unnamed input of the two lines `\tOrphan` and `bogus`, line 2
is the first line whose date-spec text `ParseDateSpec` rejects, yet the error of `Parse` is
the one of the title on line 1: its message starts with `:1:`, not with `:2:`. -/
theorem C11_orphan_before_rejected_spec :
    isDecl "bogus" = true ∧ WellFormedLines "" ["\tOrphan"] ∧
    ParseDateSpec (firstField "bogus") "" 2 = .error (.located "" 2 (.unrecognized "bogus")) ∧
    Parse (["\tOrphan"] ++ "bogus" :: []) none "" = .error (.located "" 1 .firstEntry) ∧
    (∀ q v, (Error.located "" 1 .firstEntry).text q v
      = ":1: date spec required for first entry") ∧
    ¬ ∃ rest, ":1: date spec required for first entry" = "" ++ ":" ++ toString 2 ++ ":" ++ rest := by
  refine ⟨by decide, ?_, rfl, rfl, fun _ _ => rfl, ?_⟩
  · intro l hl hd
    simp only [List.mem_singleton] at hl
    subst hl
    exact absurd hd (by decide)
  · rintro ⟨rest, h⟩
    have h2 : (":1: date spec required for first entry" : String).data
        = ':' :: '2' :: ':' :: rest.data := congrArg String.data h
    simp at h2

/-- C11, amended: in an input whose first non-blank line does not start with a tab, when line
`i` (counting every line) is the first declaration whose date-spec text `ParseDateSpec`
rejects, `Parse` returns that error and no entries, and the message of the error starts with
`<path>:<i>:`. -/
theorem C11_parse_first_rejected (pre post : List String) (l : String)
    (scanErr : Option String) (path : String) (err : Error)
    (hfirst : firstLineDeclares (pre ++ l :: post) = true)
    (hpre : WellFormedLines path pre) (hl : isDecl l = true)
    (hrej : ParseDateSpec (firstField l) path (pre.length + 1) = .error err) :
    Parse (pre ++ l :: post) scanErr path = .error err ∧
    ∃ msg, err = .located path (pre.length + 1) msg ∧
      ∀ q v, ∃ rest, err.text q v = path ++ ":" ++ toString (pre.length + 1) ++ ":" ++ rest := by
  obtain ⟨msg, hmsg⟩ := ParseDateSpec_error_located _ _ _ _ hrej
  refine ⟨?_, msg, hmsg, fun q v => ⟨_, by rw [hmsg]; exact Error_text_located _ _ _ _ _⟩⟩
  obtain ⟨st1, hst1⟩ := parseLoop_ok_of_wellFormed path pre 1 ⟨[], none, "", 0, false⟩ hpre
    (Or.inr (firstLineDeclares_of_append pre _ hfirst))
  have hk := kinds_exclusive l
  have hline : 1 + pre.length = pre.length + 1 := by omega
  unfold Parse
  rw [parseLoop_append, hst1]
  simp only [parseLoop]
  rw [parseLine_eq]
  have hb : isBlank l = false := by
    cases hb : isBlank l
    · rfl
    · rw [(hk.1 hb).2.1] at hl; cases hl
  rw [hb, (hk.2.2 hl).2.2, hline, hrej]
  rfl

/-- Witness of the amended C11: the text `Someday` on line 3 is rejected. -/
theorem C11_parse_first_rejected_witness :
    Parse (["Sunday\tx", "# c"] ++ "Someday\ty" :: ["Monday\tz"]) none "/cal"
      = .error (.located "/cal" 3 (.unrecognized "Someday")) ∧
    ∃ msg, Error.located "/cal" 3 (.unrecognized "Someday")
        = .located "/cal" ((["Sunday\tx", "# c"] : List String).length + 1) msg ∧
      ∀ q v, ∃ rest, (Error.located "/cal" 3 (.unrecognized "Someday")).text q v
        = "/cal" ++ ":" ++ toString ((["Sunday\tx", "# c"] : List String).length + 1) ++ ":"
            ++ rest :=
  C11_parse_first_rejected ["Sunday\tx", "# c"] ["Monday\tz"] "Someday\ty" none "/cal"
    (.located "/cal" 3 (.unrecognized "Someday")) (by decide)
    (by
      intro l hl hd n
      simp only [List.mem_cons, List.mem_singleton, List.not_mem_nil, or_false] at hl
      rcases hl with rfl | rfl
      · exact ⟨.Weekday 0, rfl⟩
      · exact absurd hd (by decide))
    (by decide) rfl

namespace parser
open datespec

theorem isBlank_empty : isBlank "" = true := by decide

theorem isBlank_of_wholeLineComment (line : String) (h : wholeLineComment line) :
    isBlank line = true := by
  obtain ⟨ws, marker, rest, hd, hws, hm, hr⟩ := h
  have hdrop : line.data.dropWhile isRegexpSpace = marker ++ rest := by
    rw [hd, List.append_assoc, List.dropWhile_append_of_pos hws]
    rcases hm with rfl | rfl
    · rw [List.singleton_append, List.dropWhile_cons_of_neg (by decide)]
    · rw [List.cons_append, List.dropWhile_cons_of_neg (by decide)]
  have hc : commentPattern line = true := by
    unfold commentPattern
    simp only [hdrop]
    rcases hm with rfl | rfl
    · simp only [List.singleton_append, Bool.true_and, List.all_cons, List.all_eq_true]
      refine Bool.and_eq_true_iff.mpr ⟨by decide, ?_⟩
      rw [List.all_eq_true]
      intro c hc
      simp only [ne_eq, decide_eq_true_eq]
      rintro rfl
      exact hr hc
    · simp only [List.cons_append, List.nil_append, Bool.true_and, List.all_cons]
      refine Bool.and_eq_true_iff.mpr ⟨by decide, Bool.and_eq_true_iff.mpr ⟨by decide, ?_⟩⟩
      simp only [List.all_eq_true, ne_eq, decide_eq_true_eq]
      rintro c hc rfl
      exact hr hc
  simp [isBlank, stripComment, hc]

/-- One iteration of the loop of `Parse` at two line numbers, from states that agree on the
entries, the current date spec and `foundEntries`: both fail, or both succeed and the new
states agree in the same way. -/
theorem parseLine_shift (path : String) (i j : Nat) (st st2 : State) (line : String)
    (h1 : st.entries = st2.entries) (h2 : st.lastDateSpec = st2.lastDateSpec)
    (h3 : st.foundEntries = st2.foundEntries) :
    (∃ e e2, parseLine path i st line = .error e ∧ parseLine path j st2 line = .error e2) ∨
    (∃ a b, parseLine path i st line = .ok a ∧ parseLine path j st2 line = .ok b ∧
      a.entries = b.entries ∧ a.lastDateSpec = b.lastDateSpec ∧
      a.foundEntries = b.foundEntries) := by
  rw [parseLine_eq, parseLine_eq]
  cases hb : isBlank line
  · simp only [Bool.false_eq_true, if_false]
    cases hs : startsWithTab line
    · simp only [Bool.false_eq_true, if_false]
      have hto := ParseDateSpec_toOption (firstField line) path path i j
      cases hp : ParseDateSpec (firstField line) path i with
      | error e =>
        cases hp2 : ParseDateSpec (firstField line) path j with
        | error e2 => exact Or.inl ⟨e, e2, rfl, rfl⟩
        | ok sp => simp [hp, hp2, Except.toOption] at hto
      | ok sp =>
        have hp2 := ParseDateSpec_ok_of_ok _ path path i j sp hp
        simp only [hp2]
        exact Or.inr ⟨_, _, rfl, rfl, by simp only [h1], rfl, rfl⟩
    · simp only [if_true]
      rw [← h2]
      cases hl : st.lastDateSpec with
      | none => exact Or.inl ⟨_, _, rfl, rfl⟩
      | some sp => exact Or.inr ⟨_, _, rfl, rfl, by simp only [h1], rfl, rfl⟩
  · simp only [if_true]
    exact Or.inr ⟨st, st2, rfl, rfl, h1, h2, h3⟩

theorem parseLoop_shift (path : String) (xs : List String) (i j : Nat) (st st2 : State)
    (h1 : st.entries = st2.entries) (h2 : st.lastDateSpec = st2.lastDateSpec)
    (h3 : st.foundEntries = st2.foundEntries) :
    (∃ e e2, parseLoop path i st xs = .error e ∧ parseLoop path j st2 xs = .error e2) ∨
    (∃ a b, parseLoop path i st xs = .ok a ∧ parseLoop path j st2 xs = .ok b ∧
      a.entries = b.entries ∧ a.lastDateSpec = b.lastDateSpec ∧
      a.foundEntries = b.foundEntries) := by
  induction xs generalizing i j st st2 with
  | nil => exact Or.inr ⟨st, st2, rfl, rfl, h1, h2, h3⟩
  | cons x rest ih =>
    simp only [parseLoop]
    rcases parseLine_shift path i j st st2 x h1 h2 h3 with ⟨e, e2, he, he2⟩ |
      ⟨a, b, ha, hb, g1, g2, g3⟩
    · rw [he, he2]
      exact Or.inl ⟨e, e2, rfl, rfl⟩
    · rw [ha, hb]
      exact ih (i + 1) (j + 1) a b g1 g2 g3

end parser

open parser datespec

/-- C12: inserting anywhere a line that is empty or a whole-line comment changes neither whether
`Parse` succeeds nor the entries (titles and date specs) it returns; an input made only of
such lines parses to the empty list of entries. -/
theorem C12_blank_lines_ignored (pre post blanks : List String) (c : String)
    (scanErr : Option String) (path : String) (hc : c = "" ∨ wholeLineComment c)
    (hblanks : ∀ x ∈ blanks, x = "" ∨ wholeLineComment x) :
    (Parse (pre ++ c :: post) scanErr path).toOption
      = (Parse (pre ++ post) scanErr path).toOption ∧
    Parse blanks none path = .ok [] := by
  have blank_of : ∀ x, x = "" ∨ wholeLineComment x → isBlank x = true := by
    intro x hx
    rcases hx with rfl | hx
    · exact isBlank_empty
    · exact isBlank_of_wholeLineComment x hx
  constructor
  · unfold Parse
    rw [parseLoop_append, parseLoop_append]
    cases hpre : parseLoop path 1 ⟨[], none, "", 0, false⟩ pre with
    | error e => rfl
    | ok st1 =>
      simp only [parseLoop]
      have hline : parseLine path (1 + pre.length) st1 c = .ok st1 := by
        rw [parseLine_eq, blank_of c hc]; rfl
      rw [hline]
      simp only
      rcases parseLoop_shift path post (1 + pre.length + 1) (1 + pre.length) st1 st1 rfl rfl rfl
        with ⟨e, e2, he, he2⟩ | ⟨a, b, ha, hb, g1, g2, g3⟩
      · rw [he, he2]
        rfl
      · rw [ha, hb]
        cases scanErr with
        | some err => rfl
        | none =>
          simp only [g2, g3]
          split_ifs
          · rfl
          · simp only [Except.toOption, g1]
  · unfold Parse
    rw [parseLoop_blank path blanks 1 _ (fun x hx => blank_of x (hblanks x hx))]
    rfl

/-- Witness of C12: the comment `  // note` inserted before a title line. -/
theorem C12_blank_lines_ignored_witness :
    (Parse (["Sunday"] ++ "  // note" :: ["\tfoo"]) none "/cal").toOption
      = (Parse (["Sunday"] ++ ["\tfoo"]) none "/cal").toOption ∧
    Parse ["", "# a", "\t// b"] none "/cal" = .ok [] :=
  C12_blank_lines_ignored ["Sunday"] ["\tfoo"] ["", "# a", "\t// b"] "  // note" none "/cal"
    (Or.inr ⟨[' ', ' '], ['/', '/'], " note".data, rfl, by decide, Or.inr rfl, by decide⟩)
    (by
      intro x hx
      simp only [List.mem_cons, List.mem_singleton, List.not_mem_nil, or_false] at hx
      rcases hx with rfl | rfl | rfl
      · exact Or.inl rfl
      · exact Or.inr ⟨[], ['#'], " a".data, rfl, by decide, Or.inl rfl, by decide⟩
      · exact Or.inr ⟨['\t'], ['/', '/'], " b".data, rfl, by decide, Or.inr rfl, by decide⟩)

namespace datespec

mutual
/-- The divisors `OccursOn` reaches in a well-formed spec are at least 1. -/
theorem divisors_pos_of_wellFormed (s : DateSpec) (Local : time.Location) (date : Date) (h : s.WellFormed = true) :
    ∀ c ∈ s.divisors Local date, 1 ≤ c := by
  match s with
  | .Daily => simp [DateSpec.divisors]
  | .Union Specs =>
    simp only [DateSpec.WellFormed] at h
    simp only [DateSpec.divisors]
    exact divisorsAny_pos_of_wellFormed Specs Local date h
  | .EveryNthDay Count =>
    simp only [DateSpec.WellFormed, decide_eq_true_eq] at h
    simp [DateSpec.divisors, h]
  | .Weekday _ => simp [DateSpec.divisors]
  | .EveryNthWeekday _ Count =>
    simp only [DateSpec.WellFormed, decide_eq_true_eq] at h
    simp only [DateSpec.divisors]
    split <;> simp [h]
  | .DayOfMonth _ => simp [DateSpec.divisors]
  | .Yearly _ _ => simp [DateSpec.divisors]
  | .SingleDay _ _ _ => simp [DateSpec.divisors]
theorem divisorsAny_pos_of_wellFormed (l : List DateSpec) (Local : time.Location)
    (date : Date)
    (h : AllWellFormed l = true) : ∀ c ∈ divisorsAny l Local date, 1 ≤ c := by
  match l with
  | [] => simp [divisorsAny]
  | s :: r =>
    simp only [AllWellFormed, Bool.and_eq_true] at h
    have h1 := divisors_pos_of_wellFormed s Local date h.1
    have h2 := divisorsAny_pos_of_wellFormed r Local date h.2
    intro c hc
    simp only [divisorsAny, List.mem_append] at hc
    rcases hc with hc | hc
    · exact h1 c hc
    · split at hc
      · exact h2 c hc
      · simp at hc
end

end datespec

open parser datespec

/-- C13: the spec `ParseDateSpec` returns is well-formed, recursively through the children of a
`Union`: the count of `EveryNthDay` and `EveryNthWeekday` is at least 1, the day of
`DayOfMonth` is in [-31, -1] or [1, 31], the day of `SingleDay` is in [1, 31]. -/
theorem C13_parsed_spec_wellFormed (s path : String) (n : Nat) (spec : DateSpec)
    (h : ParseDateSpec s path n = .ok spec) :
    spec.WellFormed = true ∧
    (∀ count, spec = .EveryNthDay count → 1 ≤ count) ∧
    (∀ w count, spec = .EveryNthWeekday w count → 1 ≤ count) ∧
    (∀ day, spec = .DayOfMonth day → (-31 ≤ day ∧ day ≤ -1) ∨ (1 ≤ day ∧ day ≤ 31)) ∧
    (∀ y m day, spec = .SingleDay y m day → 1 ≤ day ∧ day ≤ 31) ∧
    (∀ specs, spec = .Union specs → ∀ x ∈ specs, x.WellFormed = true) := by
  have hwf := ParseDateSpec_wellFormed s path n spec h
  refine ⟨hwf, ?_, ?_, ?_, ?_, ?_⟩
  · rintro count rfl
    simpa [DateSpec.WellFormed] using hwf
  · rintro w count rfl
    simpa [DateSpec.WellFormed] using hwf
  · rintro day rfl
    simpa [DateSpec.WellFormed] using hwf
  · rintro y m day rfl
    simpa [DateSpec.WellFormed] using hwf
  · rintro specs rfl
    simp only [DateSpec.WellFormed] at hwf
    exact (AllWellFormed_iff specs).mp hwf

/-- Witness of C13: the union `*/3 | -1 * | Friday/2`. -/
theorem C13_parsed_spec_wellFormed_witness :
    (DateSpec.Union [.EveryNthDay 3, .DayOfMonth (-1), .EveryNthWeekday 5 2]).WellFormed = true ∧
    (∀ count, DateSpec.Union [.EveryNthDay 3, .DayOfMonth (-1), .EveryNthWeekday 5 2]
      = .EveryNthDay count → 1 ≤ count) ∧
    (∀ w count, DateSpec.Union [.EveryNthDay 3, .DayOfMonth (-1), .EveryNthWeekday 5 2]
      = .EveryNthWeekday w count → 1 ≤ count) ∧
    (∀ day, DateSpec.Union [.EveryNthDay 3, .DayOfMonth (-1), .EveryNthWeekday 5 2]
      = .DayOfMonth day → (-31 ≤ day ∧ day ≤ -1) ∨ (1 ≤ day ∧ day ≤ 31)) ∧
    (∀ y m day, DateSpec.Union [.EveryNthDay 3, .DayOfMonth (-1), .EveryNthWeekday 5 2]
      = .SingleDay y m day → 1 ≤ day ∧ day ≤ 31) ∧
    (∀ specs, DateSpec.Union [.EveryNthDay 3, .DayOfMonth (-1), .EveryNthWeekday 5 2]
      = .Union specs → ∀ x ∈ specs, x.WellFormed = true) :=
  C13_parsed_spec_wellFormed "*/3 | -1 * | Friday/2" "/cal" 1
    (.Union [.EveryNthDay 3, .DayOfMonth (-1), .EveryNthWeekday 5 2]) rfl

/-- C14: on a spec `ParseDateSpec` returned, in every zone, `OccursOn` never takes a remainder
by zero: every divisor it reaches, inside the children of a `Union` too, is a count of at
least 1, and it returns a truth value for every date. -/
theorem C14_parsed_spec_occursOn_total (Local : time.Location) (s path : String) (n : Nat)
    (spec : DateSpec) (date : Date) (h : ParseDateSpec s path n = .ok spec) :
    (∀ c ∈ spec.divisors Local date, 1 ≤ c) ∧ ∃ b, spec.OccursOn Local date = some b := by
  have hwf := ParseDateSpec_wellFormed s path n spec h
  refine ⟨divisors_pos_of_wellFormed spec Local date hwf, ?_⟩
  have := OccursOn_isSome_of_wellFormed spec Local date hwf
  cases ho : spec.OccursOn Local date with
  | none => simp [ho] at this
  | some b => exact ⟨b, rfl⟩

/-- Witness of C14: the union `Sunday/2 | */3` on Sunday 1970-01-11, in UTC, where both counts
are reached. -/
theorem C14_parsed_spec_occursOn_total_witness :
    (∀ c ∈ (DateSpec.Union [.EveryNthWeekday 0 2, .EveryNthDay 3]).divisors time.UTC
        ⟨1970, 1, 11⟩, 1 ≤ c) ∧
    ∃ b, (DateSpec.Union [.EveryNthWeekday 0 2, .EveryNthDay 3]).OccursOn time.UTC
      ⟨1970, 1, 11⟩ = some b :=
  C14_parsed_spec_occursOn_total time.UTC "Sunday/2 | */3" "/cal" 1
    (.Union [.EveryNthWeekday 0 2, .EveryNthDay 3]) ⟨1970, 1, 11⟩ rfl

/-! ## Trimming and splitting -/

namespace parser
open datespec

theorem TrimSpace_data (s : String) :
    (strings.TrimSpace s).data
      = List.rdropWhile strings.IsSpace (List.dropWhile strings.IsSpace s.data) := rfl

theorem rdropWhile_cons (p : Char → Bool) (c : Char) (cs : List Char) :
    List.rdropWhile p (c :: cs)
      = if List.rdropWhile p cs = [] ∧ p c = true then [] else c :: List.rdropWhile p cs := by
  unfold List.rdropWhile
  rw [List.reverse_cons, List.dropWhile_append]
  by_cases h : List.dropWhile p cs.reverse = []
  · simp only [h, List.isEmpty_nil, if_true, List.reverse_nil, true_and]
    by_cases hc : p c = true
    · simp [hc]
    · simp [hc]
  · have h2 : (List.dropWhile p cs.reverse).isEmpty = false := by
      cases hd : List.dropWhile p cs.reverse with
      | nil => exact absurd hd h
      | cons _ _ => rfl
    simp [h2, h]

theorem dropWhile_rdropWhile_comm (p : Char → Bool) (l : List Char) :
    List.dropWhile p (List.rdropWhile p l) = List.rdropWhile p (List.dropWhile p l) := by
  induction l with
  | nil => simp [List.rdropWhile]
  | cons c cs ih =>
    rw [rdropWhile_cons]
    by_cases hc : p c = true
    · rw [List.dropWhile_cons_of_pos hc]
      by_cases hr : List.rdropWhile p cs = []
      · have hall := List.rdropWhile_eq_nil_iff.mp hr
        have hd : List.dropWhile p cs = [] := List.dropWhile_eq_nil_iff.mpr hall
        rw [if_pos ⟨hr, hc⟩, hd]
        rfl
      · rw [if_neg (fun h => hr h.1), List.dropWhile_cons_of_pos hc, ih]
    · rw [if_neg (fun h => hc h.2), List.dropWhile_cons_of_neg hc,
        List.dropWhile_cons_of_neg hc, rdropWhile_cons, if_neg (fun h => hc h.2)]

theorem splitList_ne_nil (sep : Char) (l : List Char) : strings.splitList sep l ≠ [] := by
  cases l with
  | nil => simp [strings.splitList]
  | cons c cs =>
    simp only [strings.splitList]
    split_ifs
    · simp
    · split <;> simp

theorem splitList_cons_ne (sep c : Char) (cs : List Char) (h : c ≠ sep) :
    ∃ hd tl, strings.splitList sep cs = hd :: tl ∧
      strings.splitList sep (c :: cs) = (c :: hd) :: tl := by
  cases hs : strings.splitList sep cs with
  | nil => exact absurd hs (splitList_ne_nil sep cs)
  | cons hd tl =>
    refine ⟨hd, tl, rfl, ?_⟩
    simp only [strings.splitList, if_neg h, hs]

theorem splitList_of_not_mem (sep : Char) (l : List Char) (h : sep ∉ l) :
    strings.splitList sep l = [l] := by
  induction l with
  | nil => rfl
  | cons c cs ih =>
    simp only [List.mem_cons, not_or] at h
    have hc : c ≠ sep := fun e => h.1 e.symm
    simp only [strings.splitList, if_neg hc, ih h.2]

theorem splitList_length (sep : Char) (l : List Char) (h : sep ∈ l) :
    2 ≤ (strings.splitList sep l).length := by
  induction l with
  | nil => simp at h
  | cons c cs ih =>
    by_cases hc : c = sep
    · simp only [strings.splitList, if_pos hc, List.length_cons]
      have := List.length_pos.mpr (splitList_ne_nil sep cs)
      omega
    · obtain ⟨hd, tl, h1, h2⟩ := splitList_cons_ne sep c cs hc
      have hm : sep ∈ cs := by
        rcases List.mem_cons.mp h with e | e
        · exact absurd e.symm hc
        · exact e
      have := ih hm
      rw [h1] at this
      rw [h2]
      simpa using this

/-- Dropping leading white space of a text changes only the first of its `|`-separated pieces,
and only by leading white space. -/
theorem splitList_dropWhile (sep : Char) (p : Char → Bool) (hp : p sep = false)
    (l : List Char) :
    (strings.splitList sep (List.dropWhile p l)).map (List.dropWhile p)
      = (strings.splitList sep l).map (List.dropWhile p) ∧
    (strings.splitList sep (List.dropWhile p l)).tail = (strings.splitList sep l).tail := by
  induction l with
  | nil => simp
  | cons c cs ih =>
    by_cases hc : p c = true
    · have hne : c ≠ sep := by
        rintro rfl
        rw [hp] at hc; cases hc
      obtain ⟨hd, tl, h1, h2⟩ := splitList_cons_ne sep c cs hne
      rw [List.dropWhile_cons_of_pos hc, h2]
      rw [h1] at ih
      constructor
      · rw [ih.1]
        simp [List.dropWhile_cons_of_pos hc]
      · rw [ih.2]; rfl
    · rw [List.dropWhile_cons_of_neg hc]
      exact ⟨rfl, rfl⟩

/-- Dropping trailing white space of a text changes its `|`-separated pieces only by trailing
white space. -/
theorem splitList_rdropWhile (sep : Char) (p : Char → Bool) (hp : p sep = false)
    (l : List Char) :
    (strings.splitList sep (List.rdropWhile p l)).map (List.rdropWhile p)
      = (strings.splitList sep l).map (List.rdropWhile p) := by
  induction l with
  | nil => simp [List.rdropWhile]
  | cons c cs ih =>
    rw [rdropWhile_cons]
    by_cases hA : List.rdropWhile p cs = [] ∧ p c = true
    · rw [if_pos hA]
      have hall : ∀ x ∈ c :: cs, p x = true := by
        intro x hx
        rcases List.mem_cons.mp hx with rfl | hx
        · exact hA.2
        · exact List.rdropWhile_eq_nil_iff.mp hA.1 x hx
      have hno : sep ∉ c :: cs := by
        intro hm
        have := hall sep hm
        rw [hp] at this; cases this
      rw [splitList_of_not_mem sep _ hno]
      simp only [strings.splitList, List.map_cons, List.map_nil, List.cons.injEq, and_true]
      rw [List.rdropWhile_eq_nil_iff.mpr hall]
      rfl
    · rw [if_neg hA]
      by_cases hc : c = sep
      · simp only [strings.splitList, if_pos hc, List.map_cons, ih]
      · obtain ⟨hd, tl, h1, h2⟩ := splitList_cons_ne sep c cs hc
        obtain ⟨hd2, tl2, g1, g2⟩ := splitList_cons_ne sep c (List.rdropWhile p cs) hc
        rw [h1, g1] at ih
        simp only [List.map_cons, List.cons.injEq] at ih
        rw [h2, g2]
        simp only [List.map_cons, List.cons.injEq]
        refine ⟨?_, ih.2⟩
        rw [rdropWhile_cons, rdropWhile_cons, ih.1]

/-- The white space trimmed off a list of characters, as `strings.TrimSpace` does. -/
theorem trim_pieces (l : List Char) :
    (strings.splitList '|' (List.rdropWhile strings.IsSpace
        (List.dropWhile strings.IsSpace l))).map
      (fun x => List.rdropWhile strings.IsSpace (List.dropWhile strings.IsSpace x))
    = (strings.splitList '|' l).map
      (fun x => List.rdropWhile strings.IsSpace (List.dropWhile strings.IsSpace x)) := by
  have hp : strings.IsSpace '|' = false := by decide
  have e : (fun x => List.rdropWhile strings.IsSpace (List.dropWhile strings.IsSpace x))
      = (List.dropWhile strings.IsSpace) ∘ (List.rdropWhile strings.IsSpace) := by
    funext x
    exact (dropWhile_rdropWhile_comm _ x).symm
  have e2 : (fun x => List.rdropWhile strings.IsSpace (List.dropWhile strings.IsSpace x))
      = (List.rdropWhile strings.IsSpace) ∘ (List.dropWhile strings.IsSpace) := rfl
  have step2 := splitList_rdropWhile '|' strings.IsSpace hp
    (List.dropWhile strings.IsSpace l)
  have step1 := (splitList_dropWhile '|' strings.IsSpace hp l).1
  calc (strings.splitList '|' (List.rdropWhile strings.IsSpace
          (List.dropWhile strings.IsSpace l))).map
        (fun x => List.rdropWhile strings.IsSpace (List.dropWhile strings.IsSpace x))
      = ((strings.splitList '|' (List.rdropWhile strings.IsSpace
          (List.dropWhile strings.IsSpace l))).map (List.rdropWhile strings.IsSpace)).map
          (List.dropWhile strings.IsSpace) := by rw [e, List.map_map]
    _ = ((strings.splitList '|' (List.dropWhile strings.IsSpace l)).map
          (List.rdropWhile strings.IsSpace)).map (List.dropWhile strings.IsSpace) := by
        rw [step2]
    _ = (strings.splitList '|' (List.dropWhile strings.IsSpace l)).map
        (fun x => List.rdropWhile strings.IsSpace (List.dropWhile strings.IsSpace x)) := by
        rw [e, List.map_map]
    _ = ((strings.splitList '|' (List.dropWhile strings.IsSpace l)).map
          (List.dropWhile strings.IsSpace)).map (List.rdropWhile strings.IsSpace) := by
        rw [e2, List.map_map]
    _ = ((strings.splitList '|' l).map (List.dropWhile strings.IsSpace)).map
          (List.rdropWhile strings.IsSpace) := by rw [step1]
    _ = (strings.splitList '|' l).map
        (fun x => List.rdropWhile strings.IsSpace (List.dropWhile strings.IsSpace x)) := by
        rw [e2, List.map_map]

/-- Trimming a text before cutting it at every `|` gives, after trimming, the same clauses as
cutting the text itself. -/
theorem Split_TrimSpace (s : String) :
    (strings.Split (strings.TrimSpace s) '|').map strings.TrimSpace
      = (strings.Split s '|').map strings.TrimSpace := by
  have h := trim_pieces s.data
  unfold strings.Split
  rw [List.map_map, List.map_map, TrimSpace_data]
  have e : strings.TrimSpace ∘ String.mk
      = String.mk ∘ (fun x => List.rdropWhile strings.IsSpace
          (List.dropWhile strings.IsSpace x)) := by
    funext x; rfl
  rw [e, ← List.map_map, ← List.map_map, h]

theorem TrimSpace_idempotent (s : String) :
    strings.TrimSpace (strings.TrimSpace s) = strings.TrimSpace s := by
  have h : (strings.TrimSpace (strings.TrimSpace s)).data = (strings.TrimSpace s).data := by
    rw [TrimSpace_data, TrimSpace_data, dropWhile_rdropWhile_comm, List.dropWhile_idempotent,
      List.rdropWhile_idempotent]
  exact String.ext h

theorem mem_dropWhile_of_neg {α : Type} (p : α → Bool) (a : α) (l : List α) (hp : p a = false)
    (h : a ∈ l) : a ∈ List.dropWhile p l := by
  induction l with
  | nil => simp at h
  | cons c cs ih =>
    by_cases hc : p c = true
    · rw [List.dropWhile_cons_of_pos hc]
      rcases List.mem_cons.mp h with rfl | h
      · rw [hp] at hc; cases hc
      · exact ih h
    · rw [List.dropWhile_cons_of_neg hc]; exact h

theorem Contains_TrimSpace_bar (s : String) (h : '|' ∈ s.data) :
    strings.Contains (strings.TrimSpace s) '|' = true := by
  have hp : strings.IsSpace '|' = false := by decide
  unfold strings.Contains
  rw [TrimSpace_data]
  have h1 := mem_dropWhile_of_neg strings.IsSpace '|' _ hp h
  have h2 : '|' ∈ List.rdropWhile strings.IsSpace (List.dropWhile strings.IsSpace s.data) := by
    unfold List.rdropWhile
    rw [List.mem_reverse]
    exact mem_dropWhile_of_neg _ _ _ hp (List.mem_reverse.mpr h1)
  simpa using h2

end parser

namespace parser
open datespec

theorem parsePatterns_map (f : String → Except Error DateSpec) (g : String → String)
    (l : List String) : parsePatterns (fun p => f (g p)) l = parsePatterns f (l.map g) := by
  induction l with
  | nil => rfl
  | cons c cs ih => simp only [parsePatterns, List.map_cons, ih]

theorem ParseDateSpec_TrimSpace (s path : String) (n : Nat) :
    ParseDateSpec (strings.TrimSpace s) path n = ParseDateSpec s path n := by
  rw [ParseDateSpec_eq, ParseDateSpec_eq, TrimSpace_idempotent]

theorem ParseDateSpec_of_no_bar (s path : String) (n : Nat) (h : '|' ∉ s.data) :
    ParseDateSpec s path n = parseSingle (strings.TrimSpace s) path n :=
  ParseDateSpecDepth_of_no_bar path n 1 s h

/-- A text with a `|` is parsed clause by clause: the clauses of the text itself, each trimmed
and parsed by `ParseDateSpec`. -/
theorem ParseDateSpec_of_bar (s path : String) (n : Nat) (h : '|' ∈ s.data) :
    ParseDateSpec s path n =
      match parsePatterns (fun c => ParseDateSpec (strings.TrimSpace c) path n)
          (strings.Split s '|') with
      | .error err => .error err
      | .ok specs => .ok (.Union specs) := by
  rw [ParseDateSpec_eq, if_pos (Contains_TrimSpace_bar s h)]
  have e1 : parsePatterns (fun p => parseSingle (strings.TrimSpace p) path n)
        (strings.Split (strings.TrimSpace s) '|')
      = parsePatterns (fun p => parseSingle (strings.TrimSpace p) path n)
        (strings.Split s '|') := by
    rw [parsePatterns_map (fun t => parseSingle t path n) strings.TrimSpace,
      parsePatterns_map (fun t => parseSingle t path n) strings.TrimSpace, Split_TrimSpace]
  have e2 : parsePatterns (fun p => parseSingle (strings.TrimSpace p) path n)
        (strings.Split s '|')
      = parsePatterns (fun c => ParseDateSpec (strings.TrimSpace c) path n)
        (strings.Split s '|') := by
    apply parsePatterns_congr
    intro c hc
    unfold strings.Split at hc
    obtain ⟨q, hq, rfl⟩ := List.mem_map.mp hc
    rw [ParseDateSpec_TrimSpace,
      ParseDateSpec_of_no_bar _ _ _ (splitList_no_sep '|' _ q hq)]
  rw [e1, e2]

theorem clause_not_union (s path : String) (n : Nat) (c : String) (sp : DateSpec)
    (hc : c ∈ strings.Split s '|') (h : ParseDateSpec (strings.TrimSpace c) path n = .ok sp) :
    ∀ l, sp ≠ .Union l := by
  unfold strings.Split at hc
  obtain ⟨q, hq, rfl⟩ := List.mem_map.mp hc
  rw [ParseDateSpec_TrimSpace,
    ParseDateSpec_of_no_bar _ _ _ (splitList_no_sep '|' _ q hq)] at h
  exact parseSingle_not_union _ _ _ _ h

theorem Forall₂_right_of_left {α β : Type} (R : α → β → Prop) (P : β → Prop) (l : List α)
    (r : List β) (h : List.Forall₂ R l r) (hP : ∀ a ∈ l, ∀ b, R a b → P b) :
    ∀ b ∈ r, P b := by
  induction h with
  | nil => simp
  | cons h1 _ ih =>
    intro b hb
    rcases List.mem_cons.mp hb with rfl | hb
    · exact hP _ (List.mem_cons_self _ _) _ h1
    · exact ih (fun a ha b hab => hP a (List.mem_cons_of_mem _ ha) b hab) b hb

theorem Forall₂_of_forall_exists (f : String → Except Error DateSpec) (l : List String)
    (h : ∀ c ∈ l, ∃ sp, f c = .ok sp) : ∃ specs, List.Forall₂ (fun c sp => f c = .ok sp) l specs := by
  induction l with
  | nil => exact ⟨[], List.Forall₂.nil⟩
  | cons c cs ih =>
    obtain ⟨sp, hsp⟩ := h c (List.mem_cons_self _ _)
    obtain ⟨sps, hsps⟩ := ih (fun x hx => h x (List.mem_cons_of_mem _ hx))
    exact ⟨sp :: sps, List.Forall₂.cons hsp hsps⟩

theorem forall_exists_of_Forall₂ (f : String → Except Error DateSpec) (l : List String)
    (specs : List DateSpec) (h : List.Forall₂ (fun c sp => f c = .ok sp) l specs) :
    ∀ c ∈ l, ∃ sp, f c = .ok sp := by
  induction h with
  | nil => simp
  | cons h1 _ ih =>
    intro c hc
    rcases List.mem_cons.mp hc with rfl | hc
    · exact ⟨_, h1⟩
    · exact ih c hc

end parser

open parser datespec

/-- C16: for a text `s` with a `|`, `ParseDateSpec(s)` succeeds exactly when every clause of
`s` between the `|`, trimmed, parses; the result is the `Union` of the results of the clauses
in order, with at least two children none of which is a `Union`; otherwise the error is the
one of the first failing clause, and an empty clause, as in `Sunday |`, is such a failure. -/
theorem C16_union_of_clauses (s path : String) (n : Nat) (h : '|' ∈ s.data) :
    ((∃ spec, ParseDateSpec s path n = .ok spec) ↔
      ∀ c ∈ strings.Split s '|', ∃ sp, ParseDateSpec (strings.TrimSpace c) path n = .ok sp) ∧
    (∀ spec, ParseDateSpec s path n = .ok spec →
      ∃ specs, spec = .Union specs ∧
        List.Forall₂ (fun c sp => ParseDateSpec (strings.TrimSpace c) path n = .ok sp)
          (strings.Split s '|') specs ∧
        2 ≤ specs.length ∧ ∀ x ∈ specs, ∀ l, x ≠ .Union l) ∧
    (∀ good bad rest err, strings.Split s '|' = good ++ bad :: rest →
      (∀ c ∈ good, ∃ sp, ParseDateSpec (strings.TrimSpace c) path n = .ok sp) →
      ParseDateSpec (strings.TrimSpace bad) path n = .error err →
      ParseDateSpec s path n = .error err) ∧
    (ParseDateSpec (strings.TrimSpace "") path n = .error (.located path n (.unrecognized ""))) ∧
    ("" ∈ strings.Split s '|' → ∃ err, ParseDateSpec s path n = .error err) ∧
    ParseDateSpec "Sunday |" path n = .error (.located path n (.unrecognized "")) := by
  have hs := ParseDateSpec_of_bar s path n h
  have hok : ∀ spec, ParseDateSpec s path n = .ok spec →
      ∃ specs, spec = .Union specs ∧
        List.Forall₂ (fun c sp => ParseDateSpec (strings.TrimSpace c) path n = .ok sp)
          (strings.Split s '|') specs := by
    intro spec hspec
    rw [hs] at hspec
    cases hp : parsePatterns (fun c => ParseDateSpec (strings.TrimSpace c) path n)
        (strings.Split s '|') with
    | error e => simp [hp] at hspec
    | ok specs =>
      simp only [hp, Except.ok.injEq] at hspec
      exact ⟨specs, hspec.symm, (parsePatterns_ok_iff _ _ _).mp hp⟩
  have herr : ∀ good bad rest err, strings.Split s '|' = good ++ bad :: rest →
      (∀ c ∈ good, ∃ sp, ParseDateSpec (strings.TrimSpace c) path n = .ok sp) →
      ParseDateSpec (strings.TrimSpace bad) path n = .error err →
      ParseDateSpec s path n = .error err := by
    intro good bad rest err hsplit hgood hbad
    rw [hs, hsplit, parsePatterns_error _ good rest bad err hgood hbad]
  have hempty : ParseDateSpec (strings.TrimSpace "") path n
      = .error (.located path n (.unrecognized "")) := rfl
  refine ⟨⟨?_, ?_⟩, ?_, herr, hempty, ?_, rfl⟩
  · rintro ⟨spec, hspec⟩
    obtain ⟨specs, _, hall⟩ := hok spec hspec
    exact forall_exists_of_Forall₂ _ _ _ hall
  · intro hall
    obtain ⟨specs, hspecs⟩ := Forall₂_of_forall_exists _ _ hall
    rw [hs, (parsePatterns_ok_iff _ _ _).mpr hspecs]
    exact ⟨_, rfl⟩
  · intro spec hspec
    obtain ⟨specs, he, hall⟩ := hok spec hspec
    refine ⟨specs, he, hall, ?_, ?_⟩
    · have hlen := List.Forall₂.length_eq hall
      have := splitList_length '|' s.data h
      unfold strings.Split at hlen
      rw [List.length_map] at hlen
      omega
    · exact Forall₂_right_of_left _ (fun x => ∀ l, x ≠ .Union l) _ _ hall
        (fun c hc sp hsp => clause_not_union s path n c sp hc hsp)
  · intro hmem
    cases hp : ParseDateSpec s path n with
    | error e => exact ⟨e, rfl⟩
    | ok spec =>
      obtain ⟨specs, _, hall⟩ := hok spec hp
      obtain ⟨sp, hsp⟩ := forall_exists_of_Forall₂ _ _ _ hall "" hmem
      rw [hempty] at hsp
      cases hsp

/-- Witness of C16: the text ` Sunday |  Friday/2 `. -/
theorem C16_union_of_clauses_witness :
    ((∃ spec, ParseDateSpec " Sunday |  Friday/2 " "/cal" 1 = .ok spec) ↔
      ∀ c ∈ strings.Split " Sunday |  Friday/2 " '|',
        ∃ sp, ParseDateSpec (strings.TrimSpace c) "/cal" 1 = .ok sp) ∧
    (∀ spec, ParseDateSpec " Sunday |  Friday/2 " "/cal" 1 = .ok spec →
      ∃ specs, spec = .Union specs ∧
        List.Forall₂ (fun c sp => ParseDateSpec (strings.TrimSpace c) "/cal" 1 = .ok sp)
          (strings.Split " Sunday |  Friday/2 " '|') specs ∧
        2 ≤ specs.length ∧ ∀ x ∈ specs, ∀ l, x ≠ .Union l) ∧
    (∀ good bad rest err, strings.Split " Sunday |  Friday/2 " '|' = good ++ bad :: rest →
      (∀ c ∈ good, ∃ sp, ParseDateSpec (strings.TrimSpace c) "/cal" 1 = .ok sp) →
      ParseDateSpec (strings.TrimSpace bad) "/cal" 1 = .error err →
      ParseDateSpec " Sunday |  Friday/2 " "/cal" 1 = .error err) ∧
    (ParseDateSpec (strings.TrimSpace "") "/cal" 1
      = .error (.located "/cal" 1 (.unrecognized ""))) ∧
    ("" ∈ strings.Split " Sunday |  Friday/2 " '|' →
      ∃ err, ParseDateSpec " Sunday |  Friday/2 " "/cal" 1 = .error err) ∧
    ParseDateSpec "Sunday |" "/cal" 1 = .error (.located "/cal" 1 (.unrecognized "")) :=
  C16_union_of_clauses " Sunday |  Friday/2 " "/cal" 1 (by decide)

/-! ## The productions of `ParseDateSpec` -/

namespace parser
open datespec

theorem digit_mem (c : Char) (h : strconv.isDigit c = true) : c ∈ "0123456789".data := by
  unfold strconv.isDigit at h
  simp only [Bool.and_eq_true, decide_eq_true_eq] at h
  obtain ⟨h1, h2⟩ := h
  have h1n : 48 ≤ c.toNat := h1
  have h2n : c.toNat ≤ 57 := h2
  have hc := (Char.ofNat_toNat c).symm
  generalize c.toNat = k at hc h1n h2n
  subst hc
  interval_cases k <;> decide

/-- What the parser needs to know of a decimal digit: it is no white space and none of the
punctuation characters of the grammar. -/
theorem digit_plain (c : Char) (h : strconv.isDigit c = true) :
    strings.IsSpace c = false ∧ c ≠ ' ' ∧ c ≠ '|' ∧ c ≠ '/' ∧ c ≠ ',' ∧ c ≠ '*' ∧ c ≠ '-' := by
  have hm := digit_mem c h
  have hall : ∀ d ∈ "0123456789".data,
      strings.IsSpace d = false ∧ d ≠ ' ' ∧ d ≠ '|' ∧ d ≠ '/' ∧ d ≠ ',' ∧ d ≠ '*' ∧ d ≠ '-' := by
    decide
  exact hall c hm

theorem isDigits_iff (l : List Char) :
    isDigits l = true ↔ l ≠ [] ∧ ∀ c ∈ l, strconv.isDigit c = true := by
  unfold isDigits
  cases l with
  | nil => simp
  | cons c cs => simp

theorem cut_append (sep : Char) (a b : List Char) (h : sep ∉ a) :
    strings.cut sep (a ++ sep :: b) = some (a, b) := by
  induction a with
  | nil => simp [strings.cut]
  | cons c cs ih =>
    simp only [List.mem_cons, not_or] at h
    have hc : c ≠ sep := fun e => h.1 e.symm
    have hr := ih h.2
    rw [List.cons_append, strings.cut, if_neg hc]
    simp only [hr]

theorem TrimSpace_eq_self (s : String) (hne : s.data ≠ [])
    (hhead : ∀ c ∈ s.data.head?, strings.IsSpace c = false)
    (hlast : ∀ c ∈ s.data.getLast?, strings.IsSpace c = false) : strings.TrimSpace s = s := by
  apply String.ext
  rw [TrimSpace_data]
  have h1 : List.dropWhile strings.IsSpace s.data = s.data := by
    cases hd : s.data with
    | nil => exact absurd hd hne
    | cons c cs =>
      have := hhead c (by rw [hd]; rfl)
      rw [List.dropWhile_cons_of_neg (by simp [this])]
  rw [h1, List.rdropWhile_eq_self_iff]
  intro hl
  have := hlast (s.data.getLast hl) (by rw [List.getLast?_eq_getLast _ hl]; rfl)
  simp [this]

end parser

namespace parser
open datespec

theorem digit_not_sign (c : Char) (h : strconv.isDigit c = true) : c ≠ '-' ∧ c ≠ '+' := by
  have hm := digit_mem c h
  have hall : ∀ d ∈ "0123456789".data, d ≠ '-' ∧ d ≠ '+' := by decide
  exact hall c hm

/-- On one or more decimal digits whose value fits a 64-bit `int`, `strconv.Atoi` returns the
value. -/
theorem Atoi_digits (D : String) (hD : isDigits D.data = true)
    (hfit : (strconv.digitsValue 0 D.data : Int) ≤ 2 ^ 63 - 1) :
    strconv.Atoi D = some (strconv.digitsValue 0 D.data : Int) := by
  obtain ⟨hne, hall⟩ := (isDigits_iff _).mp hD
  cases hd : D.data with
  | nil => exact absurd hd hne
  | cons c cs =>
    rw [hd] at hall hfit
    have hc := digit_not_sign c (hall c (List.mem_cons_self _ _))
    have hall2 : (c :: cs).all strconv.isDigit = true := List.all_eq_true.mpr hall
    unfold strconv.Atoi
    rw [hd]
    split
    rename_i neg ds heq
    split at heq
    · rename_i h2; simp only [List.cons.injEq] at h2; exact absurd h2.1 hc.1
    · rename_i h2; simp only [List.cons.injEq] at h2; exact absurd h2.1 hc.2
    · simp only [Prod.mk.injEq] at heq
      obtain ⟨h1, h2⟩ := heq
      subst h1 h2
      simp only [List.isEmpty_cons, hall2, Bool.not_true, Bool.or_self, Bool.false_eq_true,
        if_false]
      have hnn : (0 : Int) ≤ (strconv.digitsValue 0 (c :: cs) : Int) := Int.ofNat_nonneg _
      rw [if_pos ⟨by omega, hfit⟩]

/-- A text with a space is no weekday name. -/
theorem getWeekday_of_space (s : String) (h : ' ' ∈ s.data) : getWeekday s = none := by
  have hf : List.findIdx? (fun name => strings.ToLower name == strings.ToLower s) weekdayNames
      = none := by
    rw [List.findIdx?_eq_none_iff]
    intro name hname
    have hnames : ∀ nm ∈ weekdayNames, ' ' ∉ (strings.ToLower nm).data := by decide
    have hs : ' ' ∈ (strings.ToLower s).data := by
      unfold strings.ToLower
      exact List.mem_map.mpr ⟨' ', h, by decide⟩
    rw [beq_eq_false_iff_ne]
    intro he
    rw [← he] at hs
    exact hnames name hname hs
  unfold getWeekday
  simp only [hf]
  rfl

theorem everyNthDayPattern_of_head (s : String) (c : Char) (cs : List Char)
    (h : s.data = c :: cs) (hc : c ≠ '*') : everyNthDayPattern s = none := by
  unfold everyNthDayPattern
  rw [h]
  split
  · rename_i heq; simp only [List.cons.injEq] at heq; exact absurd heq.1 hc
  · rfl

theorem everyNthWeekdayPattern_of_no_slash (s : String) (h : '/' ∉ s.data) :
    everyNthWeekdayPattern s = none := by
  unfold everyNthWeekdayPattern
  rw [(cut_eq_none _ _).mpr h]

theorem isDigits_of_head (c : Char) (cs : List Char) (h : strconv.isDigit c = false) :
    isDigits (c :: cs) = false := by
  simp [isDigits, h]

theorem dayOfMonthPattern_of_name (s : String) (c : Char) (cs rest : List Char)
    (h : strings.cut ' ' s.data = some (c :: cs, rest)) (h1 : c ≠ '-')
    (h2 : strconv.isDigit c = false) : dayOfMonthPattern s = none := by
  unfold dayOfMonthPattern
  rw [h]
  simp only
  split
  · rename_i hcond
    split at hcond
    · rename_i heq; simp only [List.cons.injEq] at heq; exact absurd heq.1 h1
    · rw [isDigits_of_head c cs h2] at hcond
      simp at hcond
  · rfl

/-- What the parser needs to know of the month names. -/
theorem monthNames_plain :
    ∀ M ∈ monthNames, M.data ≠ [] ∧ strings.IsSpace (M.data.headD ' ') = false ∧
      M.data.headD ' ' ≠ '*' ∧ M.data.headD ' ' ≠ '-' ∧
      strconv.isDigit (M.data.headD ' ') = false ∧ ' ' ∉ M.data ∧ '|' ∉ M.data ∧
      '/' ∉ M.data ∧ getMonth M = some (((monthNames.indexOf M : Nat) : Int) + 1) := by
  decide

end parser

namespace parser
open datespec

/-- A text that neither starts nor ends with white space is left alone by `TrimSpace`: here a
name starting with `m0`, a space, and a text `b` that ends with no white space. -/
theorem TrimSpace_name_rest (a b : List Char) (m0 : Char) (mrest : List Char)
    (ha : a = m0 :: mrest) (hm0 : strings.IsSpace m0 = false) (hb : b ≠ [])
    (hbl : strings.IsSpace (b.getLast hb) = false) :
    strings.TrimSpace ⟨a ++ ' ' :: b⟩ = ⟨a ++ ' ' :: b⟩ := by
  apply String.ext
  rw [TrimSpace_data]
  subst ha
  simp only [List.cons_append]
  rw [List.dropWhile_cons_of_neg (by simp [hm0]), List.rdropWhile_eq_self_iff]
  intro hl
  have e : m0 :: (mrest ++ ' ' :: b) = (m0 :: mrest ++ [' ']) ++ b := by simp
  have : (m0 :: (mrest ++ ' ' :: b)).getLast hl = b.getLast hb := by
    simp only [e]
    exact List.getLast_append_right hb
  rw [this]
  simp [hbl]

end parser

namespace parser
open datespec

/-- A month name, a space and a text `b` without `|` and `/` that ends with no white space: the
text falls through to the patterns that begin with a name. -/
theorem month_rest_falls_through (M : String) (b : List Char) (hM : M ∈ monthNames)
    (hb : b ≠ []) (hbl : strings.IsSpace (b.getLast hb) = false) (hbar : '|' ∉ b)
    (hslash : '/' ∉ b) :
    strings.TrimSpace ⟨M.data ++ ' ' :: b⟩ = ⟨M.data ++ ' ' :: b⟩ ∧
    '|' ∉ M.data ++ ' ' :: b ∧
    (⟨M.data ++ ' ' :: b⟩ : String) ≠ "*" ∧
    everyNthDayPattern ⟨M.data ++ ' ' :: b⟩ = none ∧
    getWeekday ⟨M.data ++ ' ' :: b⟩ = none ∧
    everyNthWeekdayPattern ⟨M.data ++ ' ' :: b⟩ = none ∧
    dayOfMonthPattern ⟨M.data ++ ' ' :: b⟩ = none ∧
    strings.cut ' ' (M.data ++ ' ' :: b) = some (M.data, b) ∧
    M.data.isEmpty = false ∧
    getMonth M = some (((monthNames.indexOf M : Nat) : Int) + 1) := by
  obtain ⟨hMne, hsp, hstar, hminus, hdig, hnosp, hnobar, hnoslash, hmonth⟩ :=
    monthNames_plain M hM
  obtain ⟨m0, mrest, hMd⟩ : ∃ m0 mrest, M.data = m0 :: mrest := by
    cases hd : M.data with
    | nil => exact absurd hd hMne
    | cons a b => exact ⟨a, b, rfl⟩
  rw [hMd] at hsp hstar hminus hdig
  simp only [List.headD_cons] at hsp hstar hminus hdig
  have hcut := cut_append ' ' M.data b hnosp
  refine ⟨TrimSpace_name_rest _ b m0 mrest hMd hsp hb hbl, ?_, ?_, ?_, ?_, ?_, ?_, hcut, ?_,
    hmonth⟩
  · simp only [List.mem_append, List.mem_cons, not_or]
    exact ⟨hnobar, by decide, hbar⟩
  · intro h
    have h2 := congrArg String.data h
    rw [hMd] at h2
    simp only [List.cons_append] at h2
    have h3 : (m0 :: (mrest ++ ' ' :: b)).length = 1 := by rw [h2]; rfl
    simp at h3
  · exact everyNthDayPattern_of_head _ m0 (mrest ++ ' ' :: b) (by rw [hMd]; rfl) hstar
  · exact getWeekday_of_space _ (by simp)
  · apply everyNthWeekdayPattern_of_no_slash
    simp only [List.mem_append, List.mem_cons, not_or]
    exact ⟨hnoslash, by decide, hslash⟩
  · exact dayOfMonthPattern_of_name _ m0 mrest b (by rw [← hMd]; exact hcut) hminus hdig
  · rw [hMd]; rfl

theorem digits_last_plain (D : List Char) (hne : D ≠ [])
    (hall : ∀ c ∈ D, strconv.isDigit c = true) :
    strings.IsSpace (D.getLast hne) = false ∧ '|' ∉ D ∧ '/' ∉ D ∧ ',' ∉ D := by
  refine ⟨(digit_plain _ (hall _ (List.getLast_mem hne))).1, ?_, ?_, ?_⟩
  · intro h; exact (digit_plain _ (hall _ h)).2.2.1 rfl
  · intro h; exact (digit_plain _ (hall _ h)).2.2.2.1 rfl
  · intro h; exact (digit_plain _ (hall _ h)).2.2.2.2.1 rfl

/-- The production `<MonthName> <digits>`: the day is not range-checked. -/
theorem ParseDateSpec_yearly (M D path : String) (n : Nat) (hM : M ∈ monthNames)
    (hD : isDigits D.data = true)
    (hfit : (strconv.digitsValue 0 D.data : Int) ≤ 2 ^ 63 - 1) :
    ParseDateSpec (M ++ " " ++ D) path n
      = .ok (.Yearly (((monthNames.indexOf M : Nat) : Int) + 1)
          (strconv.digitsValue 0 D.data)) := by
  obtain ⟨hDne, hDall⟩ := (isDigits_iff _).mp hD
  obtain ⟨hlast, hbar, hslash, _⟩ := digits_last_plain D.data hDne hDall
  have hs : M ++ " " ++ D = ⟨M.data ++ ' ' :: D.data⟩ := by
    apply String.ext
    simp only [String.data_append, List.append_assoc]
    rfl
  obtain ⟨f1, f2, f3, f4, f5, f6, f7, f8, f9, f10⟩ :=
    month_rest_falls_through M D.data hM hDne hlast hbar hslash
  rw [hs, ParseDateSpec_of_no_bar _ _ _ f2, f1]
  have hy : yearlyPattern ⟨M.data ++ ' ' :: D.data⟩ = some (M, D) := by
    unfold yearlyPattern
    simp only [f8, f9, hD, Bool.not_false, Bool.and_self, if_true]
  unfold parseSingle
  rw [if_neg f3]
  simp only [f4, f5, f6, f7, hy, f10, Atoi_digits D hD hfit]

/-- The production `<MonthName> <digits>, <digits>`: a day outside 1..31 is an error. -/
theorem ParseDateSpec_singleDay_range (M D Y path : String) (n : Nat) (hM : M ∈ monthNames)
    (hD : isDigits D.data = true)
    (hfit : (strconv.digitsValue 0 D.data : Int) ≤ 2 ^ 63 - 1)
    (hY : isDigits Y.data = true)
    (hout : (strconv.digitsValue 0 D.data : Int) < 1 ∨ 31 < (strconv.digitsValue 0 D.data : Int)) :
    ParseDateSpec (M ++ " " ++ D ++ ", " ++ Y) path n
      = .error (.located path n (.dayRange (strconv.digitsValue 0 D.data))) := by
  obtain ⟨hDne, hDall⟩ := (isDigits_iff _).mp hD
  obtain ⟨hYne, hYall⟩ := (isDigits_iff _).mp hY
  obtain ⟨_, hDbar, hDslash, hDcomma⟩ := digits_last_plain D.data hDne hDall
  obtain ⟨hYlast, hYbar, hYslash, _⟩ := digits_last_plain Y.data hYne hYall
  have hs : M ++ " " ++ D ++ ", " ++ Y = ⟨M.data ++ ' ' :: (D.data ++ ',' :: ' ' :: Y.data)⟩ := by
    apply String.ext
    simp only [String.data_append, List.append_assoc]
    rfl
  have hbne : D.data ++ ',' :: ' ' :: Y.data ≠ [] := by simp
  have hblast : (D.data ++ ',' :: ' ' :: Y.data).getLast hbne = Y.data.getLast hYne := by
    have e : D.data ++ ',' :: ' ' :: Y.data = (D.data ++ [',', ' ']) ++ Y.data := by simp
    simp only [e]
    exact List.getLast_append_right hYne
  obtain ⟨f1, f2, f3, f4, f5, f6, f7, f8, f9, f10⟩ :=
    month_rest_falls_through M (D.data ++ ',' :: ' ' :: Y.data) hM hbne
      (by rw [hblast]; exact hYlast)
      (by
        simp only [List.mem_append, List.mem_cons, not_or]
        exact ⟨hDbar, by decide, by decide, hYbar⟩)
      (by
        simp only [List.mem_append, List.mem_cons, not_or]
        exact ⟨hDslash, by decide, by decide, hYslash⟩)
  rw [hs, ParseDateSpec_of_no_bar _ _ _ f2, f1]
  have hnd : isDigits (D.data ++ ',' :: ' ' :: Y.data) = false := by
    unfold isDigits
    have : (D.data ++ ',' :: ' ' :: Y.data).all strconv.isDigit = false := by
      rw [Bool.eq_false_iff]
      intro h
      have := List.all_eq_true.mp h ',' (by simp)
      exact absurd this (by decide)
    simp [this]
  have hy : yearlyPattern ⟨M.data ++ ' ' :: (D.data ++ ',' :: ' ' :: Y.data)⟩ = none := by
    unfold yearlyPattern
    simp only [f8, hnd, Bool.and_false, Bool.false_eq_true, if_false]
  have hsd : singleDayPattern ⟨M.data ++ ' ' :: (D.data ++ ',' :: ' ' :: Y.data)⟩
      = some (M, D, Y) := by
    unfold singleDayPattern
    simp only [f8, cut_append ',' D.data (' ' :: Y.data) hDcomma, f9, hD, hY, Bool.not_false,
      Bool.and_self, if_true]
  have hrange : (strconv.digitsValue 0 D.data : Int) < 1 ∨
      (strconv.digitsValue 0 D.data : Int) > 31 := by omega
  unfold parseSingle
  rw [if_neg f3]
  simp only [f4, f5, f6, f7, hy, hsd, f10, Atoi_digits D hD hfit, if_pos hrange]

end parser

open parser datespec

/-- C17: the yearly production does not range-check its day: for a month name `M` and decimal
digits `D` that fit an `int`, `ParseDateSpec(M + " " + D)` is `Yearly(month of M, value of D)`,
also for 0 and for values above 31, whereas `ParseDateSpec(M + " " + D + ", " + Y)` fails
when the value of `D` is outside 1..31. -/
theorem C17_yearly_day_unchecked (M D Y path : String) (n : Nat) (hM : M ∈ monthNames)
    (hD : isDigits D.data = true)
    (hfit : (strconv.digitsValue 0 D.data : Int) ≤ 2 ^ 63 - 1)
    (hY : isDigits Y.data = true) :
    ParseDateSpec (M ++ " " ++ D) path n
      = .ok (.Yearly (((monthNames.indexOf M : Nat) : Int) + 1)
          (strconv.digitsValue 0 D.data)) ∧
    ((strconv.digitsValue 0 D.data : Int) < 1 ∨ 31 < (strconv.digitsValue 0 D.data : Int) →
      ParseDateSpec (M ++ " " ++ D ++ ", " ++ Y) path n
        = .error (.located path n (.dayRange (strconv.digitsValue 0 D.data)))) ∧
    ParseDateSpec "December 99" path n = .ok (.Yearly 12 99) ∧
    ParseDateSpec "December 0" path n = .ok (.Yearly 12 0) ∧
    ParseDateSpec "December 99, 2020" path n = .error (.located path n (.dayRange 99)) ∧
    ParseDateSpec "December 24, 1980" path n = .ok (.SingleDay 1980 12 24) :=
  ⟨ParseDateSpec_yearly M D path n hM hD hfit,
    fun hout => ParseDateSpec_singleDay_range M D Y path n hM hD hfit hY hout, rfl, rfl, rfl, rfl⟩

/-- Witness of C17: `December 99` and `December 99, 2020`. -/
theorem C17_yearly_day_unchecked_witness :
    ParseDateSpec ("December" ++ " " ++ "99") "/cal" 1
      = .ok (.Yearly (((monthNames.indexOf "December" : Nat) : Int) + 1)
          (strconv.digitsValue 0 "99".data)) ∧
    ((strconv.digitsValue 0 "99".data : Int) < 1 ∨ 31 < (strconv.digitsValue 0 "99".data : Int) →
      ParseDateSpec ("December" ++ " " ++ "99" ++ ", " ++ "2020") "/cal" 1
        = .error (.located "/cal" 1 (.dayRange (strconv.digitsValue 0 "99".data)))) ∧
    ParseDateSpec "December 99" "/cal" 1 = .ok (.Yearly 12 99) ∧
    ParseDateSpec "December 0" "/cal" 1 = .ok (.Yearly 12 0) ∧
    ParseDateSpec "December 99, 2020" "/cal" 1 = .error (.located "/cal" 1 (.dayRange 99)) ∧
    ParseDateSpec "December 24, 1980" "/cal" 1 = .ok (.SingleDay 1980 12 24) :=
  C17_yearly_day_unchecked "December" "99" "2020" "/cal" 1 (by decide) (by decide) (by decide)
    (by decide)

/-! ## The remaining claims on parsing, the JSON export and the day of the month -/

namespace datespec

theorem MarshalJSONAll_eq_map (l : List DateSpec) :
    MarshalJSONAll l = l.map DateSpec.MarshalJSON := by
  induction l with
  | nil => rfl
  | cons s r ih => simp only [MarshalJSONAll, List.map_cons, ih]

theorem prevMonth_nextMonth (y m : Int) (h1 : 1 ≤ m) (h2 : m ≤ 12) :
    time.prevMonth (time.nextMonth y m).1 (time.nextMonth y m).2 = (y, m) := by
  unfold time.nextMonth
  split_ifs with h
  · have : m = 12 := by omega
    subst this
    simp [time.prevMonth]
  · simp only [time.prevMonth]
    rw [if_neg (by omega)]
    simp

/-- The day before the day after a valid date is the date itself. -/
theorem prev_next (d : Date) (h : d.Valid) : d.next.prev = d := by
  obtain ⟨y, m, dd⟩ := d
  obtain ⟨h1, h2, h3, h4⟩ := h
  simp only at h1 h2 h3 h4
  unfold Date.next
  simp only
  by_cases hlt : dd < time.daysIn y m
  · rw [if_pos hlt]
    unfold Date.prev
    simp only
    rw [if_pos (by omega)]
    simp
  · rw [if_neg hlt]
    have hdd : dd = time.daysIn y m := by omega
    have hpn := prevMonth_nextMonth y m h1 h2
    unfold time.nextMonth at hpn
    by_cases hm : m < 12
    · rw [if_pos hm]
      rw [if_neg (by omega)] at hpn
      unfold Date.prev
      simp only at hpn ⊢
      rw [if_neg (by omega), hpn]
      simp [hdd]
    · rw [if_neg hm]
      rw [if_pos (by omega)] at hpn
      unfold Date.prev
      simp only at hpn ⊢
      rw [if_neg (by omega), hpn]
      simp [hdd]

/-- Stepping back `k` days, `1 ≤ k ≤ 31`, from the first day of the month after `(y, m)`: the
day lands in `(y, m)` when that month has at least `k` days, else in the month before. -/
theorem stepBack_firstOfNextMonth (y m dd : Int) (k : Nat) (h1 : 1 ≤ m) (h2 : m ≤ 12)
    (hk1 : 1 ≤ k) (hk2 : k ≤ 31) :
    stepBack k (firstOfNextMonth ⟨y, m, dd⟩) =
      if (k : Int) ≤ time.daysIn y m then ⟨y, m, time.daysIn y m - k + 1⟩
      else ⟨(time.prevMonth y m).1, (time.prevMonth y m).2,
        time.daysIn y m + time.daysIn (time.prevMonth y m).1 (time.prevMonth y m).2 - k + 1⟩ := by
  have hL := time.daysIn_bounds y m h1 h2
  have hp := time.prevMonth_month_bounds y m h1 h2
  have hP := time.daysIn_bounds (time.prevMonth y m).1 (time.prevMonth y m).2 hp.1 hp.2
  have hpn := prevMonth_nextMonth y m h1 h2
  induction k with
  | zero => omega
  | succ j ih =>
    by_cases hj : j = 0
    · subst hj
      simp only [stepBack, firstOfNextMonth, Date.prev]
      rw [if_neg (by omega), hpn, if_pos (by push_cast; omega)]
      simp
    · have ihj := ih (by omega) (by omega)
      simp only [stepBack]
      rw [ihj]
      by_cases hle : (j : Int) ≤ time.daysIn y m
      · rw [if_pos hle]
        by_cases hlt : (j : Int) < time.daysIn y m
        · rw [if_pos (by push_cast; omega)]
          unfold Date.prev
          simp only
          rw [if_pos (by omega)]
          congr 1
          push_cast; omega
        · rw [if_neg (by push_cast; omega)]
          unfold Date.prev
          simp only
          rw [if_neg (by omega)]
          congr 1
          push_cast; omega
      · rw [if_neg hle, if_neg (by push_cast; omega)]
        unfold Date.prev
        simp only
        rw [if_pos (by omega)]
        congr 1
        push_cast; omega

end datespec

open parser datespec

/-- C15, the defect: a weekday name alone is matched in any case, but before `/<count>` only
the capitalised English name is: `sunday` and `FRIDAY` parse to `Weekday`, `Sunday/2` and
`Friday/3` to `EveryNthWeekday`, while `sunday/2` and `FRIDAY/3` are rejected as unrecognized
date specifiers. -/
theorem C15_weekday_interval_case_sensitive (path : String) (n : Nat) :
    ParseDateSpec "sunday" path n = .ok (.Weekday 0) ∧
    ParseDateSpec "FRIDAY" path n = .ok (.Weekday 5) ∧
    ParseDateSpec "Sunday/2" path n = .ok (.EveryNthWeekday 0 2) ∧
    ParseDateSpec "Friday/3" path n = .ok (.EveryNthWeekday 5 3) ∧
    ParseDateSpec "sunday/2" path n = .error (.located path n (.unrecognized "sunday/2")) ∧
    ParseDateSpec "FRIDAY/3" path n = .error (.located path n (.unrecognized "FRIDAY/3")) ∧
    everyNthWeekdayPattern "sunday/2" = none ∧ getWeekday "sunday" = some 0 :=
  ⟨rfl, rfl, rfl, rfl, rfl, rfl, rfl, rfl⟩

/-- C18: `MarshalJSON` yields the schema object of each variant, the members in the order of
their keys: daily, union with the children in order, everyNth over daily or over dayOfWeek with
the base date 1970-01-01, dayOfWeek with the 0-based weekday plus one, dayOfMonth, dayOfYear
and singleDay; an entry yields its title as `text` and the object of its spec as `spec`. -/
theorem C18_marshalJSON_schema (Specs : List DateSpec) (Count Weekday Day Month Year : Int)
    (Title : String) (spec : DateSpec) :
    DateSpec.Daily.MarshalJSON = .object [("type", .string "daily")] ∧
    (DateSpec.Union Specs).MarshalJSON
      = .object [("specs", .array (Specs.map DateSpec.MarshalJSON)),
          ("type", .string "union")] ∧
    (DateSpec.EveryNthDay Count).MarshalJSON
      = .object [
          ("baseDate", .object [("day", .number 1), ("month", .number 1),
            ("year", .number 1970)]),
          ("n", .number Count),
          ("spec", .object [("type", .string "daily")]),
          ("type", .string "everyNth")] ∧
    (DateSpec.EveryNthWeekday Weekday Count).MarshalJSON
      = .object [
          ("baseDate", .object [("day", .number 1), ("month", .number 1),
            ("year", .number 1970)]),
          ("n", .number Count),
          ("spec", .object [("type", .string "dayOfWeek"),
            ("weekday", .number (Weekday + 1))]),
          ("type", .string "everyNth")] ∧
    (DateSpec.Weekday Weekday).MarshalJSON
      = .object [("type", .string "dayOfWeek"), ("weekday", .number (Weekday + 1))] ∧
    (DateSpec.DayOfMonth Day).MarshalJSON
      = .object [("day", .number Day), ("type", .string "dayOfMonth")] ∧
    (DateSpec.Yearly Month Day).MarshalJSON
      = .object [("day", .number Day), ("month", .number Month),
          ("type", .string "dayOfYear")] ∧
    (DateSpec.SingleDay Year Month Day).MarshalJSON
      = .object [
          ("date", .object [("day", .number Day), ("month", .number Month),
            ("year", .number Year)]),
          ("type", .string "singleDay")] ∧
    (Entry.mk Title spec).MarshalJSON
      = .object [("spec", spec.MarshalJSON), ("text", .string Title)] ∧
    (DateSpec.Weekday 0).MarshalJSON
      = .object [("type", .string "dayOfWeek"), ("weekday", .number 1)] ∧
    (DateSpec.Weekday 6).MarshalJSON
      = .object [("type", .string "dayOfWeek"), ("weekday", .number 7)] ∧
    (DateSpec.Union [.Daily]).MarshalJSON
      = .object [("specs", .array [.object [("type", .string "daily")]]),
          ("type", .string "union")] := by
  refine ⟨rfl, ?_, rfl, rfl, rfl, rfl, rfl, rfl, rfl, rfl, rfl, rfl⟩
  rw [← MarshalJSONAll_eq_map]
  rfl

/-- C19: the calendar of the three lines `*<TAB>Daily`, `*/3<TAB>Every third day` and
`Sunday<TAB>Only Sunday` parses.  In UTC the titles whose spec occurs on 1970-01-01 are
`Daily` and `Every third day`, those whose spec occurs on 1970-01-04 are all three.  In
`mazatlan`, where the clocks went forward at 00:00 of 1970-01-01, the code departs from the
claim: the instant taken for the epoch shows 1969-12-31, `daysSinceEpoch` is 4 on 1970-01-04,
and the agenda of that day holds `Daily` and `Only Sunday` without `Every third day`. -/
theorem C19_three_line_calendar (path : String) :
    Parse ["*\tDaily", "*/3\tEvery third day", "Sunday\tOnly Sunday"] none path
      = .ok [⟨"Daily", .Daily⟩, ⟨"Every third day", .EveryNthDay 3⟩,
          ⟨"Only Sunday", .Weekday 0⟩] ∧
    (([⟨"Daily", .Daily⟩, ⟨"Every third day", .EveryNthDay 3⟩,
        ⟨"Only Sunday", .Weekday 0⟩] : List Entry).filter
        (fun e => e.DateSpec.OccursOn time.UTC ⟨1970, 1, 1⟩ == some true)).map (·.Title)
      = ["Daily", "Every third day"] ∧
    (([⟨"Daily", .Daily⟩, ⟨"Every third day", .EveryNthDay 3⟩,
        ⟨"Only Sunday", .Weekday 0⟩] : List Entry).filter
        (fun e => e.DateSpec.OccursOn time.UTC ⟨1970, 1, 4⟩ == some true)).map (·.Title)
      = ["Daily", "Every third day", "Only Sunday"] ∧
    (DateSpec.Weekday 0).OccursOn time.UTC ⟨1970, 1, 1⟩ = some false ∧
    daysSinceEpoch ⟨1970, 1, 4⟩ time.UTC = 3 ∧
    (¬ time.mazatlan.Midnight 0 ∧
      (time.Date 1970 1 1 time.mazatlan).civil = ⟨1969, 12, 31⟩ ∧
      daysSinceEpoch ⟨1970, 1, 4⟩ time.mazatlan = 4 ∧
      (DateSpec.EveryNthDay 3).OccursOn time.mazatlan ⟨1970, 1, 4⟩ = some false ∧
      (([⟨"Daily", .Daily⟩, ⟨"Every third day", .EveryNthDay 3⟩,
          ⟨"Only Sunday", .Weekday 0⟩] : List Entry).filter
          (fun e => e.DateSpec.OccursOn time.mazatlan ⟨1970, 1, 4⟩ == some true)).map
          (·.Title)
        = ["Daily", "Only Sunday"]) :=
  ⟨rfl, by decide, by decide, by decide, by decide, by decide⟩

/-- C20, refuted as stated: stepping back `|day| - 1` days from the first day of the next month
gives, for `day = -1`, that first day itself, so the comparison described holds on the 1st of
a month and fails on its last day, while in UTC `DayOfMonthDateSpec{-1}.OccursOn` is true on
2020-12-31 and false on 2020-12-01. -/
theorem C20_stepBack_off_by_one :
    Date.Valid ⟨2020, 12, 31⟩ ∧ Date.Valid ⟨2020, 12, 1⟩ ∧
    (DateSpec.DayOfMonth (-1)).OccursOn time.UTC ⟨2020, 12, 31⟩ = some true ∧
    resolveNegativeDayOfMonth ⟨2020, 12, 31⟩ (-1) = false ∧
    (DateSpec.DayOfMonth (-1)).OccursOn time.UTC ⟨2020, 12, 1⟩ = some false ∧
    resolveNegativeDayOfMonth ⟨2020, 12, 1⟩ (-1) = true ∧
    stepBack ((-1 : Int).natAbs - 1) (firstOfNextMonth ⟨2020, 12, 31⟩) = ⟨2021, 1, 1⟩ := by
  decide

/-- C20, amended: in a location in which the day that `time.Date` is asked for, `|day|` days
before the first of the next month, starts at midnight, for `day` in [-31, -1] and a valid
date, `DayOfMonthDateSpec{day}.OccursOn` is the comparison of `date.Day` with the day of the
month of the date `|day|` days before the first day of the next month. -/
theorem C20_dayOfMonth_stepBack (Local : time.Location) (day : Int) (date : Date)
    (h1 : -31 ≤ day) (h2 : day ≤ -1) (hd : date.Valid)
    (hm : Local.Midnight (time.norm date.Year (date.Month + 1) (day + 1)).dayNumber) :
    (DateSpec.DayOfMonth day).OccursOn Local date
      = some ((stepBack day.natAbs (firstOfNextMonth date)).Day == date.Day) := by
  obtain ⟨hm1, hm2, _, _⟩ := hd
  obtain ⟨y, m, dd⟩ := date
  simp only at hm1 hm2 hm
  have hk : ((day.natAbs : Nat) : Int) = -day := by omega
  have e : day + 1 = -(-day) + 1 := by omega
  simp only [DateSpec.OccursOn, if_pos (show day < 0 by omega), time.Time.Day]
  rw [e] at hm ⊢
  rw [time.Date_civil _ _ _ Local
    (time.norm_rollback_valid y m (-day) hm1 hm2 (by omega) (by omega)) hm]
  rw [stepBack_firstOfNextMonth y m dd day.natAbs hm1 hm2 (by omega) (by omega)]
  have hroll := time.norm_rollback y m (-day) hm1 hm2 (by omega) (by omega)
  rw [hroll, hk]
  split_ifs <;> rfl

/-- Witness of the amended C20: the second-to-last day of November 2018, in `saoPaulo`. -/
theorem C20_dayOfMonth_stepBack_witness :
    (DateSpec.DayOfMonth (-2)).OccursOn time.saoPaulo ⟨2018, 11, 29⟩
      = some ((stepBack (-2 : Int).natAbs (firstOfNextMonth ⟨2018, 11, 29⟩)).Day
          == (⟨2018, 11, 29⟩ : Date).Day) :=
  C20_dayOfMonth_stepBack time.saoPaulo (-2) ⟨2018, 11, 29⟩ (by decide) (by decide)
    (by decide) (by decide)

/-! ## Stepping through the calendar day by day -/

namespace datespec
open time

theorem next_prev (d : Date) (h : d.Valid) : d.prev.Valid ∧ d.prev.next = d := by
  obtain ⟨y, m, dd⟩ := d
  obtain ⟨h1, h2, h3, h4⟩ := h
  simp only at h1 h2 h3 h4
  unfold Date.prev
  simp only
  by_cases hlt : 1 < dd
  · rw [if_pos hlt]
    refine ⟨⟨h1, h2, by simp only; omega, by simp only; omega⟩, ?_⟩
    unfold Date.next
    simp only
    rw [if_pos (by omega)]
    simp
  · rw [if_neg hlt]
    have hdd : dd = 1 := by omega
    subst hdd
    unfold prevMonth
    by_cases hm : m ≤ 1
    · rw [if_pos hm]
      have hm1 : m = 1 := by omega
      subst hm1
      refine ⟨by refine ⟨?_, ?_, ?_, ?_⟩ <;> simp [daysIn], ?_⟩
      unfold Date.next
      simp
    · rw [if_neg hm]
      have hb := daysIn_bounds y (m - 1) (by omega) (by omega)
      refine ⟨⟨by simp only; omega, by simp only; omega, by simp only; omega,
        by simp only; omega⟩, ?_⟩
      unfold Date.next
      simp only
      rw [if_neg (by omega), if_pos (by omega)]
      simp

theorem signedDays_prev (d : Date) (h : d.Valid) :
    d.prev.Valid ∧ signedDays d.prev = signedDays d - 1 := by
  obtain ⟨hv, hn⟩ := next_prev d h
  have := (signedDays_next d.prev hv).2
  rw [hn] at this
  exact ⟨hv, by omega⟩

theorem stepForward_spec (n : Nat) (d : Date) (h : d.Valid) :
    (stepForward n d).Valid ∧ signedDays (stepForward n d) = signedDays d + n := by
  induction n with
  | zero => exact ⟨h, by simp [stepForward]⟩
  | succ n ih =>
    obtain ⟨hv, hs⟩ := ih
    have := signedDays_next _ hv
    refine ⟨this.1, ?_⟩
    rw [stepForward, this.2, hs]
    push_cast
    omega

theorem stepBack_spec (n : Nat) (d : Date) (h : d.Valid) :
    (stepBack n d).Valid ∧ signedDays (stepBack n d) = signedDays d - n := by
  induction n with
  | zero => exact ⟨h, by simp [stepBack]⟩
  | succ n ih =>
    obtain ⟨hv, hs⟩ := ih
    have := signedDays_prev _ hv
    refine ⟨this.1, ?_⟩
    rw [stepBack, this.2, hs]
    push_cast
    omega

theorem Before_trichotomy (d e : Date) (h1 : ¬ d.Before e) (h2 : ¬ e.Before d) : d = e := by
  obtain ⟨y, m, dd⟩ := d
  obtain ⟨y2, m2, dd2⟩ := e
  simp only [Date.Before] at h1 h2
  have : y = y2 ∧ m = m2 ∧ dd = dd2 := by omega
  simp [this]

theorem eq_of_signedDays_eq (d e : Date) (hd : d.Valid) (he : e.Valid)
    (h : signedDays d = signedDays e) : d = e := by
  apply Before_trichotomy
  · intro hb
    have := signedDays_lt_of_Before d e hd he hb
    omega
  · intro hb
    have := signedDays_lt_of_Before e d he hd hb
    omega

theorem not_Before_epoch_iff (d : Date) (hd : d.Valid) :
    ¬ d.Before epoch ↔ 0 ≤ signedDays d := by
  have he : epoch.Valid := by decide
  have h0 := signedDays_epoch
  constructor
  · intro h
    by_cases h2 : epoch.Before d
    · have := signedDays_lt_of_Before epoch d he hd h2
      omega
    · rw [Before_trichotomy d epoch h h2]
      omega
  · intro h hb
    have := signedDays_lt_of_Before d epoch hd he hb
    omega

end datespec

/-- C23: in a location whose offsets differ by less than a day and in which the days
concerned start at midnight, for every valid calendar date `daysSinceEpoch` is non-negative
and is the absolute value of the signed number of days from 1970-01-01 to the date;
`daysBetween` gives the same count whichever way round its two arguments come, and the date
`k` days before the epoch and the date `k` days after it both get the count `k`.  Where a
day does not start at midnight the code departs from the claim: in `saoPaulo` the clocks went
forward at 00:00 of 2018-11-04, day 17839 after the epoch, and `daysSinceEpoch` is 17838 on
that date. -/
theorem C23_daysSinceEpoch_distance (Local : time.Location) (d : Date) (k : Nat)
    (hd : d.Valid) (hs : Local.Spread) (h0 : Local.Midnight 0)
    (hm : Local.Midnight (signedDays d)) (hk : Local.Midnight (k : Int))
    (hmk : Local.Midnight (-(k : Int))) :
    0 ≤ daysSinceEpoch d Local ∧ daysSinceEpoch d Local = |signedDays d| ∧
    daysBetween (d.LocalStartOfDay Local) (time.Date 1970 1 1 Local)
      = daysBetween (time.Date 1970 1 1 Local) (d.LocalStartOfDay Local) ∧
    (stepBack k epoch).Valid ∧ signedDays (stepBack k epoch) = -(k : Int) ∧
    (stepForward k epoch).Valid ∧ signedDays (stepForward k epoch) = (k : Int) ∧
    daysSinceEpoch (stepBack k epoch) Local = k ∧
    daysSinceEpoch (stepForward k epoch) Local = k ∧
    (Date.Valid ⟨2018, 11, 4⟩ ∧ signedDays ⟨2018, 11, 4⟩ = 17839 ∧
      ¬ time.saoPaulo.Midnight 17839 ∧
      (time.Date 2018 11 4 time.saoPaulo).civil = ⟨2018, 11, 3⟩ ∧
      daysSinceEpoch ⟨2018, 11, 4⟩ time.saoPaulo = 17838 ∧
      daysSinceEpoch ⟨2018, 11, 4⟩ time.saoPaulo ≠ |signedDays ⟨2018, 11, 4⟩|) := by
  have he : epoch.Valid := by decide
  have hz := signedDays_epoch
  obtain ⟨hbv, hbs⟩ := stepBack_spec k epoch he
  obtain ⟨hfv, hfs⟩ := stepForward_spec k epoch he
  have hbs2 : signedDays (stepBack k epoch) = -(k : Int) := by omega
  have hfs2 : signedDays (stepForward k epoch) = (k : Int) := by omega
  have habs := daysSinceEpoch_eq_abs d Local hd hs h0 hm
  have hsym : daysBetween (d.LocalStartOfDay Local) (time.Date 1970 1 1 Local)
      = daysBetween (time.Date 1970 1 1 Local) (d.LocalStartOfDay Local) := by
    rw [LocalStartOfDay_of_valid d Local hd, Date_epoch]
    rw [daysBetween_eq _ _ (by
        rw [time.midnight_days _ _ hm, time.midnight_days _ _ h0]
        exact time.midnight_After Local _ _ hs hm h0),
      daysBetween_eq _ _ (by
        rw [time.midnight_days _ _ hm, time.midnight_days _ _ h0]
        exact time.midnight_After Local _ _ hs h0 hm)]
    exact abs_sub_comm _ _
  refine ⟨?_, habs, hsym, hbv, hbs2, hfv, hfs2, ?_, ?_, by decide⟩
  · rw [habs]
    exact abs_nonneg _
  · rw [daysSinceEpoch_eq_abs _ Local hbv hs h0 (by rw [hbs2]; exact hmk), hbs2, abs_neg]
    exact abs_of_nonneg (by omega)
  · rw [daysSinceEpoch_eq_abs _ Local hfv hs h0 (by rw [hfs2]; exact hk), hfs2]
    exact abs_of_nonneg (by omega)

/-- Witness of C23: 2018-11-03 in `saoPaulo`, the day before the clocks went forward, and the
dates a week either side of the epoch. -/
theorem C23_daysSinceEpoch_distance_witness :
    0 ≤ daysSinceEpoch ⟨2018, 11, 3⟩ time.saoPaulo ∧
    daysSinceEpoch ⟨2018, 11, 3⟩ time.saoPaulo = |signedDays ⟨2018, 11, 3⟩| ∧
    daysBetween (Date.LocalStartOfDay ⟨2018, 11, 3⟩ time.saoPaulo)
        (time.Date 1970 1 1 time.saoPaulo)
      = daysBetween (time.Date 1970 1 1 time.saoPaulo)
          (Date.LocalStartOfDay ⟨2018, 11, 3⟩ time.saoPaulo) ∧
    (stepBack 7 epoch).Valid ∧ signedDays (stepBack 7 epoch) = -((7 : Nat) : Int) ∧
    (stepForward 7 epoch).Valid ∧ signedDays (stepForward 7 epoch) = ((7 : Nat) : Int) ∧
    daysSinceEpoch (stepBack 7 epoch) time.saoPaulo = (7 : Nat) ∧
    daysSinceEpoch (stepForward 7 epoch) time.saoPaulo = (7 : Nat) ∧
    (Date.Valid ⟨2018, 11, 4⟩ ∧ signedDays ⟨2018, 11, 4⟩ = 17839 ∧
      ¬ time.saoPaulo.Midnight 17839 ∧
      (time.Date 2018 11 4 time.saoPaulo).civil = ⟨2018, 11, 3⟩ ∧
      daysSinceEpoch ⟨2018, 11, 4⟩ time.saoPaulo = 17838 ∧
      daysSinceEpoch ⟨2018, 11, 4⟩ time.saoPaulo ≠ |signedDays ⟨2018, 11, 4⟩|) :=
  C23_daysSinceEpoch_distance time.saoPaulo ⟨2018, 11, 3⟩ 7 (by decide) (by decide)
    (by decide) (by decide) (by decide) (by decide)

/-! ## Every n-th weekday, counted from the epoch -/

theorem EveryNthWeekday_occursOn_eq (Local : time.Location) (w count : Int) (d : Date)
    (hc : 1 ≤ count) (hd : d.Valid) (h0 : 0 ≤ signedDays d) (hs : Local.Spread)
    (he : Local.Midnight 0) (hm : Local.Midnight (signedDays d)) :
    (DateSpec.EveryNthWeekday w count).OccursOn Local d
      = some (decide (d.weekday = w ∧ count ∣ signedDays d / 7)) ∧
    daysSinceEpoch d Local = signedDays d := by
  have habs : daysSinceEpoch d Local = signedDays d := by
    rw [daysSinceEpoch_eq_abs d Local hd hs he hm, abs_of_nonneg h0]
  refine ⟨?_, habs⟩
  rw [EveryNthWeekday_occursOn_abs Local w count d hc hd hs he hm, abs_of_nonneg h0]

theorem nthWeekdayFromEpoch_spec (w : Int) (i : Nat) (h1 : 0 ≤ w) (h2 : w ≤ 6) :
    (nthWeekdayFromEpoch w i).Valid ∧
    signedDays (nthWeekdayFromEpoch w i) = (w + 3) % 7 + 7 * (i : Int) ∧
    (nthWeekdayFromEpoch w i).weekday = w := by
  have he : epoch.Valid := by decide
  have h0 := signedDays_epoch
  obtain ⟨hv, hs⟩ := stepForward_spec (((w + 3) % 7).toNat + 7 * i) epoch he
  have hs2 : signedDays (nthWeekdayFromEpoch w i) = (w + 3) % 7 + 7 * (i : Int) := by
    unfold nthWeekdayFromEpoch
    rw [hs, h0]
    push_cast
    omega
  refine ⟨hv, hs2, ?_⟩
  unfold Date.weekday
  rw [hs2]
  omega

/-- C21: in a location whose offsets differ by less than a day and in which every day from
1970-01-01 on starts at midnight: for every weekday `w` and `count ≥ 1`, take the dates on or
after 1970-01-01 that fall on weekday `w` in chronological order, numbered from 0 (the first
lies in the block 1970-01-01..1970-01-07, each next one seven days later, and every such date
`D` is the one numbered floor(n / 7), `n` its number of days since the epoch).
`EveryNthWeekdayDateSpec{w, count}.OccursOn` is true on number `i` exactly when `count`
divides `i`; on `D` it is true exactly when `count` divides floor(daysSinceEpoch(D) / 7); and
if it is true on `D` it is true `7 * count` days later and false `7 * j` days later for
`0 < j < count`.  Where a day does not start at midnight the code departs from the claim: in
`saoPaulo` the clocks went forward at 00:00 of Sunday 2018-11-04, the Sunday numbered 2548;
the instant taken for its start shows Saturday, and `EveryNthWeekdayDateSpec{Sunday, 2}` does
not occur on it. -/
theorem C21_everyNthWeekday_every_nth (Local : time.Location) (w : Int) (count : Nat)
    (D : Date) (hc : 1 ≤ count) (hD : D.Valid) (hep : ¬ D.Before epoch) (hwd : D.weekday = w)
    (hs : Local.Spread) (hall : ∀ n : Int, 0 ≤ n → Local.Midnight n) :
    (∀ i : Nat, (nthWeekdayFromEpoch w i).Valid ∧ ¬ (nthWeekdayFromEpoch w i).Before epoch ∧
      (nthWeekdayFromEpoch w i).weekday = w ∧
      signedDays (nthWeekdayFromEpoch w i) = signedDays (nthWeekdayFromEpoch w 0) + 7 * i ∧
      (DateSpec.EveryNthWeekday w count).OccursOn Local (nthWeekdayFromEpoch w i)
        = some (decide (count ∣ i))) ∧
    ¬ (nthWeekdayFromEpoch w 0).Before ⟨1970, 1, 1⟩ ∧
    (nthWeekdayFromEpoch w 0).Before ⟨1970, 1, 8⟩ ∧
    D = nthWeekdayFromEpoch w (daysSinceEpoch D Local / 7).toNat ∧
    (DateSpec.EveryNthWeekday w count).OccursOn Local D
      = some (decide ((count : Int) ∣ daysSinceEpoch D Local / 7)) ∧
    ((DateSpec.EveryNthWeekday w count).OccursOn Local D = some true →
      (DateSpec.EveryNthWeekday w count).OccursOn Local (stepForward (7 * count) D)
        = some true ∧
      ∀ j : Nat, 0 < j → j < count →
        (DateSpec.EveryNthWeekday w count).OccursOn Local (stepForward (7 * j) D)
          = some false) ∧
    (Date.Valid ⟨2018, 11, 4⟩ ∧ ¬ Date.Before ⟨2018, 11, 4⟩ epoch ∧
      Date.weekday ⟨2018, 11, 4⟩ = 0 ∧ signedDays ⟨2018, 11, 4⟩ / 7 = 2548 ∧
      (2 : Int) ∣ signedDays ⟨2018, 11, 4⟩ / 7 ∧
      ¬ time.saoPaulo.Midnight (signedDays ⟨2018, 11, 4⟩) ∧
      (Date.LocalStartOfDay ⟨2018, 11, 4⟩ time.saoPaulo).Weekday = 6 ∧
      (DateSpec.EveryNthWeekday 0 2).OccursOn time.saoPaulo ⟨2018, 11, 4⟩ = some false) := by
  have hn0 : 0 ≤ signedDays D := (not_Before_epoch_iff D hD).mp hep
  have hw : 0 ≤ w ∧ w ≤ 6 := by
    unfold Date.weekday at hwd
    omega
  have hcI : (1 : Int) ≤ (count : Int) := by exact_mod_cast hc
  have h0 : Local.Midnight 0 := hall 0 (le_refl _)
  have hnth : ∀ i : Nat, (nthWeekdayFromEpoch w i).Valid ∧
      signedDays (nthWeekdayFromEpoch w i) = (w + 3) % 7 + 7 * (i : Int) ∧
      (nthWeekdayFromEpoch w i).weekday = w := fun i => nthWeekdayFromEpoch_spec w i hw.1 hw.2
  obtain ⟨hDocc, hDabs⟩ :=
    EveryNthWeekday_occursOn_eq Local w count D hcI hD hn0 hs h0 (hall _ hn0)
  have hDocc2 : (DateSpec.EveryNthWeekday w count).OccursOn Local D
      = some (decide ((count : Int) ∣ daysSinceEpoch D Local / 7)) := by
    rw [hDocc, hDabs]
    simp [hwd]
  have hfirst := hnth 0
  have hfirst0 : 0 ≤ signedDays (nthWeekdayFromEpoch w 0) ∧
      signedDays (nthWeekdayFromEpoch w 0) ≤ 6 := by
    rw [hfirst.2.1]
    omega
  have h8 : signedDays (⟨1970, 1, 8⟩ : Date) = 7 := by decide
  have hv8 : Date.Valid ⟨1970, 1, 8⟩ := by decide
  refine ⟨?_, ?_, ?_, ?_, hDocc2, ?_, by decide⟩
  · intro i
    obtain ⟨hv, hsd, hwk⟩ := hnth i
    have hnn : 0 ≤ signedDays (nthWeekdayFromEpoch w i) := by rw [hsd]; omega
    refine ⟨hv, (not_Before_epoch_iff _ hv).mpr hnn, hwk, by rw [hsd, hfirst.2.1]; omega, ?_⟩
    rw [(EveryNthWeekday_occursOn_eq Local w count _ hcI hv hnn hs h0 (hall _ hnn)).1]
    have hq : signedDays (nthWeekdayFromEpoch w i) / 7 = (i : Int) := by rw [hsd]; omega
    rw [hq]
    simp [hwk, Int.natCast_dvd_natCast]
  · exact (not_Before_epoch_iff _ hfirst.1).mpr hfirst0.1
  · by_contra hnb
    by_cases hb : Date.Before ⟨1970, 1, 8⟩ (nthWeekdayFromEpoch w 0)
    · have := signedDays_lt_of_Before _ _ hv8 hfirst.1 hb
      omega
    · have := Before_trichotomy _ _ hnb hb
      rw [this] at hfirst0
      omega
  · apply eq_of_signedDays_eq _ _ hD (hnth _).1
    rw [(hnth _).2.1, hDabs]
    have hq : (0 : Int) ≤ signedDays D / 7 := by omega
    rw [Int.toNat_of_nonneg hq]
    unfold Date.weekday at hwd
    omega
  · intro hocc
    rw [hDocc2, hDabs] at hocc
    have hdvd : (count : Int) ∣ signedDays D / 7 := by simpa using hocc
    have hstep : ∀ j : Nat,
        (DateSpec.EveryNthWeekday w count).OccursOn Local (stepForward (7 * j) D)
          = some (decide ((count : Int) ∣ signedDays D / 7 + j)) := by
      intro j
      obtain ⟨hv, hsd⟩ := stepForward_spec (7 * j) D hD
      have hnn : 0 ≤ signedDays (stepForward (7 * j) D) := by rw [hsd]; omega
      rw [(EveryNthWeekday_occursOn_eq Local w count _ hcI hv hnn hs h0 (hall _ hnn)).1]
      have hwk : (stepForward (7 * j) D).weekday = w := by
        unfold Date.weekday at hwd ⊢
        rw [hsd]
        push_cast
        omega
      have hq : signedDays (stepForward (7 * j) D) / 7 = signedDays D / 7 + j := by
        rw [hsd]
        push_cast
        omega
      rw [hq]
      simp [hwk]
    refine ⟨?_, ?_⟩
    · rw [hstep count]
      simp [dvd_add hdvd (dvd_refl _)]
    · intro j hj0 hjc
      rw [hstep j]
      have hnd : ¬ (count : Int) ∣ signedDays D / 7 + j := by
        rw [Int.dvd_add_right hdvd]
        intro hd2
        have := Int.le_of_dvd (by exact_mod_cast hj0) hd2
        omega
      simp [hnd]

/-- Witness of C21: every other Friday, from Friday 1970-01-16, the third Friday on or after
the epoch (numbered 2), in UTC. -/
theorem C21_everyNthWeekday_every_nth_witness :
    (∀ i : Nat, (nthWeekdayFromEpoch 5 i).Valid ∧ ¬ (nthWeekdayFromEpoch 5 i).Before epoch ∧
      (nthWeekdayFromEpoch 5 i).weekday = 5 ∧
      signedDays (nthWeekdayFromEpoch 5 i) = signedDays (nthWeekdayFromEpoch 5 0) + 7 * i ∧
      (DateSpec.EveryNthWeekday 5 (2 : Nat)).OccursOn time.UTC (nthWeekdayFromEpoch 5 i)
        = some (decide (2 ∣ i))) ∧
    ¬ (nthWeekdayFromEpoch 5 0).Before ⟨1970, 1, 1⟩ ∧
    (nthWeekdayFromEpoch 5 0).Before ⟨1970, 1, 8⟩ ∧
    (⟨1970, 1, 16⟩ : Date)
      = nthWeekdayFromEpoch 5 (daysSinceEpoch ⟨1970, 1, 16⟩ time.UTC / 7).toNat ∧
    (DateSpec.EveryNthWeekday 5 (2 : Nat)).OccursOn time.UTC ⟨1970, 1, 16⟩
      = some (decide (((2 : Nat) : Int) ∣ daysSinceEpoch ⟨1970, 1, 16⟩ time.UTC / 7)) ∧
    ((DateSpec.EveryNthWeekday 5 (2 : Nat)).OccursOn time.UTC ⟨1970, 1, 16⟩ = some true →
      (DateSpec.EveryNthWeekday 5 (2 : Nat)).OccursOn time.UTC
          (stepForward (7 * 2) ⟨1970, 1, 16⟩) = some true ∧
      ∀ j : Nat, 0 < j → j < 2 →
        (DateSpec.EveryNthWeekday 5 (2 : Nat)).OccursOn time.UTC
            (stepForward (7 * j) ⟨1970, 1, 16⟩) = some false) ∧
    (Date.Valid ⟨2018, 11, 4⟩ ∧ ¬ Date.Before ⟨2018, 11, 4⟩ epoch ∧
      Date.weekday ⟨2018, 11, 4⟩ = 0 ∧ signedDays ⟨2018, 11, 4⟩ / 7 = 2548 ∧
      (2 : Int) ∣ signedDays ⟨2018, 11, 4⟩ / 7 ∧
      ¬ time.saoPaulo.Midnight (signedDays ⟨2018, 11, 4⟩) ∧
      (Date.LocalStartOfDay ⟨2018, 11, 4⟩ time.saoPaulo).Weekday = 6 ∧
      (DateSpec.EveryNthWeekday 0 2).OccursOn time.saoPaulo ⟨2018, 11, 4⟩ = some false) :=
  C21_everyNthWeekday_every_nth time.UTC 5 2 ⟨1970, 1, 16⟩ (by decide) (by decide)
    (by decide) (by decide) (by decide) (fun n _ => time.Midnight_UTC n)

/-! ## The agenda query -/

namespace parser
open datespec

/-- Every spec in the state of the loop of `Parse` is well-formed. -/
theorem parseLoop_wellFormed (path : String) (xs : List String) (i : Nat) (st st1 : State)
    (h : parseLoop path i st xs = .ok st1)
    (he : ∀ e ∈ st.entries, e.DateSpec.WellFormed = true)
    (hl : ∀ spec, st.lastDateSpec = some spec → spec.WellFormed = true) :
    (∀ e ∈ st1.entries, e.DateSpec.WellFormed = true) ∧
    (∀ spec, st1.lastDateSpec = some spec → spec.WellFormed = true) := by
  induction xs generalizing i st with
  | nil =>
    simp only [parseLoop, Except.ok.injEq] at h
    subst h
    exact ⟨he, hl⟩
  | cons x rest ih =>
    simp only [parseLoop] at h
    cases hx : parseLine path i st x with
    | error err => simp [hx] at h
    | ok st2 =>
      simp only [hx] at h
      rcases parseLine_ok_cases path i st st2 x hx with ⟨_, rfl⟩ | ⟨_, spec, hs, rfl⟩ |
        ⟨_, spec, hp, rfl⟩
      · exact ih _ _ h he hl
      · refine ih _ _ h ?_ hl
        intro e hmem
        simp only [List.mem_append, List.mem_singleton] at hmem
        rcases hmem with hmem | rfl
        · exact he e hmem
        · exact hl spec hs
      · have hwf := ParseDateSpec_wellFormed _ _ _ _ hp
        refine ih _ _ h ?_ ?_
        · intro e hmem
          simp only at hmem
          split_ifs at hmem
          · simp only [List.mem_append, List.mem_singleton] at hmem
            rcases hmem with hmem | rfl
            · exact he e hmem
            · exact hwf
          · exact he e hmem
        · intro spec2 h2
          simp only [Option.some.injEq] at h2
          subst h2
          exact hwf

/-- Every entry `Parse` returns carries a well-formed spec. -/
theorem Parse_entries_wellFormed (lines : List String) (scanErr : Option String)
    (path : String) (entries : List Entry) (h : Parse lines scanErr path = .ok entries) :
    ∀ e ∈ entries, e.DateSpec.WellFormed = true := by
  obtain ⟨st, hst, rfl⟩ := Parse_ok lines scanErr path entries h
  exact (parseLoop_wellFormed path lines 1 _ st hst (by simp) (by simp)).1

end parser

namespace tomcalendar
open parser datespec

theorem matchesAny_eq (Local : time.Location) (spec : DateSpec) (dates : List Date)
    (h : spec.WellFormed = true) :
    matchesAny Local spec dates
      = some (dates.any (fun d => spec.OccursOn Local d == some true)) := by
  induction dates with
  | nil => rfl
  | cons d rest ih =>
    have hs := OccursOn_isSome_of_wellFormed spec Local d h
    rw [matchesAny]
    cases ho : spec.OccursOn Local d with
    | none => simp [ho] at hs
    | some b =>
      cases b
      · simp [ih, ho]
      · simp [ho]

theorem agenda_eq (Local : time.Location) (entries : List Entry) (dates : List Date)
    (h : ∀ e ∈ entries, e.DateSpec.WellFormed = true) :
    agenda Local entries dates
      = .ok ((entries.filter
          (fun e => dates.any (fun d => e.DateSpec.OccursOn Local d == some true))).map
          (fun e => e.Title)) := by
  induction entries with
  | nil => rfl
  | cons e rest ih =>
    have hr := ih (fun x hx => h x (List.mem_cons_of_mem _ hx))
    have hm := matchesAny_eq Local e.DateSpec dates (h e (List.mem_cons_self _ _))
    rw [agenda]
    simp only [hm, hr]
    cases hany : dates.any (fun d => e.DateSpec.OccursOn Local d == some true)
    · simp [List.filter_cons, hany]
    · simp [List.filter_cons, hany]

theorem agenda_no_dates (Local : time.Location) (entries : List Entry) :
    agenda Local entries [] = .ok [] := by
  induction entries with
  | nil => rfl
  | cons e rest ih =>
    rw [agenda]
    simp [matchesAny, ih]

end tomcalendar

open tomcalendar

/-- C22: in every zone, for every list of entries with well-formed specs (such as every list
`Parse` returns) and every list of target dates, the agenda loop of `main` runs to its end
and prints the titles of exactly the entries whose spec occurs on at least one target date,
in entry order and one line per such entry however many of the dates it matches: the output
is the entry list filtered by "occurs on some target date", mapped to titles.  With no
target date nothing is printed, whatever the entries. -/
theorem C22_agenda_output (Local : time.Location) (entries : List Entry)
    (dates : List Date) (hwf : ∀ e ∈ entries, e.DateSpec.WellFormed = true) :
    agenda Local entries dates
      = .ok ((entries.filter
          (fun e => dates.any (fun d => e.DateSpec.OccursOn Local d == some true))).map
          (fun e => e.Title)) ∧
    (∀ es : List Entry, agenda Local es [] = .ok []) :=
  ⟨agenda_eq Local entries dates hwf, agenda_no_dates Local⟩

/-- Witness of C22: three entries over the first four days of 1970, in UTC; "Daily" matches all
four dates and is printed once, "Only Sunday" matches the last, "Mondays" none. -/
theorem C22_agenda_output_witness :
    agenda time.UTC [⟨"Daily", .Daily⟩, ⟨"Mondays", .Weekday 1⟩, ⟨"Only Sunday", .Weekday 0⟩]
        [⟨1970, 1, 1⟩, ⟨1970, 1, 2⟩, ⟨1970, 1, 3⟩, ⟨1970, 1, 4⟩]
      = .ok ["Daily", "Only Sunday"] ∧
    (∀ es : List Entry, agenda time.UTC es [] = .ok []) :=
  have h := C22_agenda_output time.UTC
    [⟨"Daily", .Daily⟩, ⟨"Mondays", .Weekday 1⟩, ⟨"Only Sunday", .Weekday 0⟩]
    [⟨1970, 1, 1⟩, ⟨1970, 1, 2⟩, ⟨1970, 1, 3⟩, ⟨1970, 1, 4⟩]
    (by simp [DateSpec.WellFormed])
  ⟨h.1.trans (congrArg Except.ok (by decide)), h.2⟩

/-! ## The "has no entries" error and superseded lone specs -/

namespace parser
open datespec

theorem parseSingle_not_noEntries (s path p : String) (n k : Nat) (t : String)
    (h : parseSingle s path n = .error (.located p k (.noEntries t))) : False := by
  unfold parseSingle at h
  repeat' split at h
  all_goals cases h

theorem ParseDateSpec_not_noEntries (s path p : String) (n k : Nat) (t : String)
    (h : ParseDateSpec s path n = .error (.located p k (.noEntries t))) : False := by
  rw [ParseDateSpec_eq] at h
  split_ifs at h
  · cases hp : parsePatterns (fun p => parseSingle (strings.TrimSpace p) path n)
        (strings.Split (strings.TrimSpace s) '|') with
    | ok specs => simp [hp] at h
    | error e =>
      simp only [hp, Except.error.injEq] at h
      subst h
      obtain ⟨_, bad, _, _, _, hb⟩ := parsePatterns_error_mem _ _ _ hp
      exact parseSingle_not_noEntries _ _ _ _ _ _ hb
  · exact parseSingle_not_noEntries _ _ _ _ _ _ h

/-- The loop of `Parse` never fails with the "has no entries" error. -/
theorem parseLoop_not_noEntries (path : String) (xs : List String) (i : Nat) (st : State)
    (p : String) (k : Nat) (t : String)
    (h : parseLoop path i st xs = .error (.located p k (.noEntries t))) : False := by
  induction xs generalizing i st with
  | nil => simp [parseLoop] at h
  | cons x rest ih =>
    simp only [parseLoop] at h
    cases hx : parseLine path i st x with
    | ok st2 =>
      simp only [hx] at h
      exact ih _ _ h
    | error e =>
      simp only [hx, Except.error.injEq] at h
      subst h
      rw [parseLine_eq] at hx
      cases hb : isBlank x
      · simp only [hb, Bool.false_eq_true, if_false] at hx
        cases hs : startsWithTab x
        · simp only [hs, Bool.false_eq_true, if_false] at hx
          cases hp : ParseDateSpec (firstField x) path i with
          | ok spec => simp [hp] at hx
          | error e2 =>
            simp only [hp, Except.error.injEq] at hx
            subst hx
            exact ParseDateSpec_not_noEntries _ _ _ _ _ _ hp
        · simp only [hs, if_true] at hx
          cases hl : st.lastDateSpec with
          | none => simp [hl] at hx
          | some spec => simp [hl] at hx
      · simp [hb] at hx

/-- A "has no entries" error of `Parse` names the last declaration of the input, a lone line
with only blank lines after it. -/
theorem Parse_noEntries (lines : List String) (scanErr : Option String) (path p : String)
    (n : Nat) (t : String)
    (h : Parse lines scanErr path = .error (.located p n (.noEntries t))) :
    ∃ a b, lines = a ++ t :: b ∧ n = a.length + 1 ∧ p = path ∧ isDecl t = true ∧
      hasTab t = false ∧ ∀ x ∈ b, isBlank x = true := by
  unfold Parse at h
  cases hrun : parseLoop path 1 ⟨[], none, "", 0, false⟩ lines with
  | error err =>
    simp only [hrun, Except.error.injEq] at h
    subst h
    exact absurd hrun (fun hc => parseLoop_not_noEntries _ _ _ _ _ _ _ hc)
  | ok st =>
    simp only [hrun] at h
    cases scanErr with
    | some err => simp at h
    | none =>
      simp only at h
      split_ifs at h with hcond
      simp only [Except.error.injEq, Error.located.injEq, Message.noEntries.injEq] at h
      obtain ⟨hp, hn, ht⟩ := h
      simp only [Bool.and_eq_true, Bool.not_eq_true', Option.isSome_iff_exists] at hcond
      obtain ⟨⟨spec0, hsome⟩, hfound⟩ := hcond
      rcases parseLoop_lastDateSpec path lines 1 _ st hrun with ⟨_, hnone⟩ |
        ⟨p1, dl, p2, spec, hxs, hdl, hp2, _, _⟩
      · rw [hsome] at hnone
        cases hnone
      · subst hxs
        obtain ⟨_, h2, h3, h4⟩ := parseLoop_last_decl path p1 p2 dl st hdl hp2 hrun
        rw [hfound] at h4
        have h4b : hasTab dl = false ∧ p2.any isTitleLine = false := by
          cases hh : hasTab dl <;> cases ha : p2.any isTitleLine <;> simp [hh, ha] at h4 ⊢
        have hff := firstField_of_no_tab dl h4b.1
        rw [hff] at h2
        rw [h2] at ht
        subst ht
        refine ⟨p1, p2, rfl, by omega, hp.symm, hdl, h4b.1, ?_⟩
        intro x hx
        have hnd := hp2 x hx
        have hnt : isTitleLine x = false := by
          have := h4b.2
          rw [List.any_eq_false] at this
          simpa using this x hx
        unfold isDecl at hnd
        unfold isTitleLine at hnt
        cases hb : isBlank x
        · cases hs : startsWithTab x <;> simp [hb, hs] at hnd hnt
        · rfl

/-- A declaration after blank lines resets everything but the entries: two runs of the loop
of `Parse` that start with the same entries agree from there on. -/
theorem parseLoop_superseded (path : String) (mid post : List String) (next : String)
    (i j : Nat) (st st2 : State) (h1 : st.entries = st2.entries)
    (hmid : ∀ x ∈ mid, isBlank x = true) (hnext : isDecl next = true) :
    (∃ e e2, parseLoop path i st (mid ++ next :: post) = .error e ∧
      parseLoop path j st2 (mid ++ next :: post) = .error e2) ∨
    (∃ a b, parseLoop path i st (mid ++ next :: post) = .ok a ∧
      parseLoop path j st2 (mid ++ next :: post) = .ok b ∧
      a.entries = b.entries ∧ a.lastDateSpec = b.lastDateSpec ∧
      a.foundEntries = b.foundEntries) := by
  have hk := (kinds_exclusive next).2.2 hnext
  have hnb : isBlank next = false := by
    unfold isDecl at hnext
    cases hb : isBlank next
    · rfl
    · simp [hb] at hnext
  rw [parseLoop_append, parseLoop_append, parseLoop_blank path mid i st hmid,
    parseLoop_blank path mid j st2 hmid]
  simp only [parseLoop]
  rw [parseLine_eq, parseLine_eq]
  simp only [hnb, hk.2.2, Bool.false_eq_true, if_false]
  have hto := ParseDateSpec_toOption (firstField next) path path (i + mid.length)
    (j + mid.length)
  cases hp : ParseDateSpec (firstField next) path (i + mid.length) with
  | error e =>
    cases hp2 : ParseDateSpec (firstField next) path (j + mid.length) with
    | error e2 => exact Or.inl ⟨e, e2, rfl, rfl⟩
    | ok sp => simp [hp, hp2, Except.toOption] at hto
  | ok spec =>
    have hp2 := ParseDateSpec_ok_of_ok _ path path _ (j + mid.length) spec hp
    simp only [hp2]
    exact parseLoop_shift path post _ _ _ _ (by simp only [h1]) rfl rfl

/-- A lone spec that the next non-blank line supersedes leaves no trace in what `Parse`
returns. -/
theorem Parse_superseded (pre mid post : List String) (lone next : String) (spec : DateSpec)
    (k : Nat) (scanErr : Option String) (path : String) (hlone : isDecl lone = true)
    (hnotab : hasTab lone = false) (hparse : ParseDateSpec lone path k = .ok spec)
    (hmid : ∀ x ∈ mid, isBlank x = true) (hnext : isDecl next = true) :
    (Parse (pre ++ lone :: (mid ++ next :: post)) scanErr path).toOption
      = (Parse (pre ++ (mid ++ next :: post)) scanErr path).toOption := by
  have hk := (kinds_exclusive lone).2.2 hlone
  have hnb : isBlank lone = false := by
    unfold isDecl at hlone
    cases hb : isBlank lone
    · rfl
    · simp [hb] at hlone
  unfold Parse
  rw [parseLoop_append, parseLoop_append]
  cases hpre : parseLoop path 1 ⟨[], none, "", 0, false⟩ pre with
  | error err => rfl
  | ok s1 =>
    simp only [parseLoop]
    rw [parseLine_eq]
    simp only [hnb, hk.2.2, Bool.false_eq_true, if_false, firstField_of_no_tab lone hnotab,
      ParseDateSpec_ok_of_ok lone path path k (1 + pre.length) spec hparse, hnotab]
    rcases parseLoop_superseded path mid post next (1 + pre.length + 1) (1 + pre.length)
        { entries := s1.entries, lastDateSpec := some spec, lastDateSpecText := lone,
          lastDateSpecLine := 1 + pre.length, foundEntries := false } s1 rfl hmid hnext with
      ⟨e, e2, he, he2⟩ | ⟨a, b, ha, hb, g1, g2, g3⟩
    · rw [he, he2]
      rfl
    · rw [ha, hb]
      cases scanErr with
      | some err => rfl
      | none =>
        simp only [g1, g2, g3]
        split_ifs <;> rfl

end parser

open parser datespec

/-- C24: a lone date-spec line superseded by a later declaration before any title line
attaches to it is dropped without a report.  For the two lines `Sunday` and `Monday<TAB>foo`,
`Parse` returns the single entry (foo, Weekday Monday).  In general, when a lone line that
parses is followed, after blank lines only, by another declaration, `Parse` returns what it
returns without the lone line, and no "has no entries" error for the lone line.  Whenever
`Parse` does fail with "has no entries", the error names the last declaration of the input, a
lone line after which only blank lines follow. -/
theorem C24_superseded_lone_spec (pre mid post lines : List String) (lone next : String)
    (spec : DateSpec) (k n : Nat) (scanErr : Option String) (path p t : String)
    (hlone : isDecl lone = true) (hnotab : hasTab lone = false)
    (hparse : ParseDateSpec lone path k = .ok spec) (hmid : ∀ x ∈ mid, isBlank x = true)
    (hnext : isDecl next = true) :
    Parse ["Sunday", "Monday\tfoo"] none path = .ok [⟨"foo", .Weekday 1⟩] ∧
    (Parse (pre ++ lone :: (mid ++ next :: post)) scanErr path).toOption
      = (Parse (pre ++ (mid ++ next :: post)) scanErr path).toOption ∧
    (∀ q u, Parse (pre ++ lone :: (mid ++ next :: post)) scanErr path
      ≠ .error (.located q (pre.length + 1) (.noEntries u))) ∧
    (Parse lines scanErr path = .error (.located p n (.noEntries t)) →
      ∃ a b, lines = a ++ t :: b ∧ n = a.length + 1 ∧ p = path ∧ isDecl t = true ∧
        hasTab t = false ∧ ∀ x ∈ b, isBlank x = true) := by
  refine ⟨rfl, Parse_superseded pre mid post lone next spec k scanErr path hlone hnotab hparse
    hmid hnext, ?_, Parse_noEntries lines scanErr path p n t⟩
  intro q u hc
  obtain ⟨a, b, hxs, hn, _, _, _, hb⟩ := Parse_noEntries _ scanErr path q _ u hc
  have hlen : pre.length = a.length := by omega
  obtain ⟨_, h2⟩ := List.append_inj hxs hlen
  simp only [List.cons.injEq] at h2
  have hmem : next ∈ b := by
    rw [← h2.2]
    simp
  have hbl := hb next hmem
  unfold isDecl at hnext
  simp [hbl] at hnext

/-- Witness of C24: the lone `Sunday` on line 2 is superseded on line 4; and the lone `Monday`
that ends a two-line calendar is reported. -/
theorem C24_superseded_lone_spec_witness :
    Parse ["Sunday", "Monday\tfoo"] none "/cal" = .ok [⟨"foo", .Weekday 1⟩] ∧
    (Parse (["# c"] ++ "Sunday" :: ([""] ++ "Monday\tfoo" :: ["\tbar"])) none "/cal").toOption
      = (Parse (["# c"] ++ ([""] ++ "Monday\tfoo" :: ["\tbar"])) none "/cal").toOption ∧
    (∀ q u, Parse (["# c"] ++ "Sunday" :: ([""] ++ "Monday\tfoo" :: ["\tbar"])) none "/cal"
      ≠ .error (.located q ((["# c"] : List String).length + 1) (.noEntries u))) ∧
    (∃ a b, ["Sunday\tx", "Monday"] = a ++ "Monday" :: b ∧ 2 = a.length + 1 ∧
      "/cal" = "/cal" ∧ isDecl "Monday" = true ∧ hasTab "Monday" = false ∧
      ∀ x ∈ b, isBlank x = true) :=
  have h := C24_superseded_lone_spec ["# c"] [""] ["\tbar"] ["Sunday\tx", "Monday"] "Sunday"
    "Monday\tfoo" (.Weekday 0) 1 2 none "/cal" "/cal" "Monday" (by decide) (by decide) rfl
    (by decide) (by decide)
  ⟨h.1, h.2.1, h.2.2.1, h.2.2.2 rfl⟩

/-! ## Lines of spaces -/

namespace parser
open datespec

theorem TrimSpace_spaces (k : Nat) : strings.TrimSpace ⟨List.replicate k ' '⟩ = "" := by
  have h : List.dropWhile strings.IsSpace (List.replicate k ' ') = [] := by
    rw [List.dropWhile_eq_nil_iff]
    intro c hc
    rw [List.eq_of_mem_replicate hc]
    decide
  unfold strings.TrimSpace
  simp only [h]
  rfl

theorem ParseDateSpec_spaces (k : Nat) (path : String) (n : Nat) :
    ParseDateSpec ⟨List.replicate k ' '⟩ path n = .error (.located path n (.unrecognized "")) := by
  rw [ParseDateSpec_eq, TrimSpace_spaces]
  rfl

theorem firstField_spaces_tab (k : Nat) (rest : List Char) :
    firstField ⟨List.replicate k ' ' ++ '\t' :: rest⟩ = ⟨List.replicate k ' '⟩ := by
  unfold firstField
  congr 1
  induction k with
  | zero => simp
  | succ k ih =>
    rw [List.replicate_succ, List.cons_append, List.takeWhile_cons_of_pos (by decide), ih]

theorem isBlank_spaces (k : Nat) : isBlank ⟨List.replicate (k + 1) ' '⟩ = false := by
  have h : List.dropWhile isRegexpSpace (List.replicate (k + 1) ' ') = [] := by
    rw [List.dropWhile_eq_nil_iff]
    intro c hc
    rw [List.eq_of_mem_replicate hc]
    decide
  have hc : commentPattern ⟨List.replicate (k + 1) ' '⟩ = false := by
    unfold commentPattern
    simp only [h]
    rfl
  unfold isBlank stripComment
  rw [hc]
  simp only [Bool.false_eq_true, if_false, decide_eq_false_iff_not]
  intro he
  have := congrArg String.data he
  simp [List.replicate_succ] at this

/-- The loop of `Parse` stops with "unrecognized date specifier" at a line that is not blank
and whose first field is one or more spaces. -/
theorem Parse_spaces_field (pre post : List String) (line : String) (k : Nat)
    (scanErr : Option String) (path : String) (hwf : WellFormedLines path pre)
    (hfirst : firstLineDeclares pre = true) (hb : isBlank line = false)
    (hs : startsWithTab line = false) (hf : firstField line = ⟨List.replicate k ' '⟩) :
    Parse (pre ++ line :: post) scanErr path
      = .error (.located path (pre.length + 1) (.unrecognized "")) := by
  obtain ⟨st1, hrun⟩ := parseLoop_ok_of_wellFormed path pre 1 ⟨[], none, "", 0, false⟩ hwf
    (Or.inr hfirst)
  unfold Parse
  rw [parseLoop_append, hrun]
  simp only [parseLoop]
  rw [parseLine_eq]
  simp only [hb, hs, Bool.false_eq_true, if_false, hf, ParseDateSpec_spaces, Nat.add_comm 1]

end parser

open parser datespec

/-- C25: a line is skipped only when nothing is left of it after comment stripping.  In an
input whose earlier lines are well-formed (every declaration among them parses, and the first
of them that is not blank does not start with a tab), a line of one or more spaces makes
`Parse` fail at that line with the error "unrecognized date specifier" for the empty text,
and so does a line of one or more spaces followed by a tab and a title, unless the title
makes the whole line a comment. -/
theorem C25_space_line_rejected (pre post : List String) (k : Nat) (title : String)
    (scanErr : Option String) (path : String) (hk : 1 ≤ k) (hwf : WellFormedLines path pre)
    (hfirst : firstLineDeclares pre = true) :
    isBlank ⟨List.replicate k ' '⟩ = false ∧
    Parse (pre ++ ⟨List.replicate k ' '⟩ :: post) scanErr path
      = .error (.located path (pre.length + 1) (.unrecognized "")) ∧
    (isBlank ⟨List.replicate k ' ' ++ '\t' :: title.data⟩ = false →
      Parse (pre ++ ⟨List.replicate k ' ' ++ '\t' :: title.data⟩ :: post) scanErr path
        = .error (.located path (pre.length + 1) (.unrecognized ""))) := by
  obtain ⟨m, rfl⟩ : ∃ m, k = m + 1 := ⟨k - 1, by omega⟩
  refine ⟨isBlank_spaces m, ?_, ?_⟩
  · refine Parse_spaces_field pre post _ (m + 1) scanErr path hwf hfirst (isBlank_spaces m)
      ?_ ?_
    · simp [startsWithTab, List.replicate_succ]
    · exact firstField_of_no_tab _ (by
        unfold hasTab
        simp [List.replicate_succ])
  · intro hb
    refine Parse_spaces_field pre post _ (m + 1) scanErr path hwf hfirst hb ?_
      (firstField_spaces_tab _ _)
    simp [startsWithTab, List.replicate_succ]

/-- Witness of C25: after a comment and an entry, a line of three spaces, and a line of three
spaces, a tab and a title. -/
theorem C25_space_line_rejected_witness :
    isBlank ⟨List.replicate 3 ' '⟩ = false ∧
    Parse (["# c", "Sunday\tx"] ++ ⟨List.replicate 3 ' '⟩ :: ["Monday\ty"]) none "/cal"
      = .error (.located "/cal" ((["# c", "Sunday\tx"] : List String).length + 1)
          (.unrecognized "")) ∧
    Parse (["# c", "Sunday\tx"] ++ ⟨List.replicate 3 ' ' ++ '\t' :: "foo".data⟩
        :: ["Monday\ty"]) none "/cal"
      = .error (.located "/cal" ((["# c", "Sunday\tx"] : List String).length + 1)
          (.unrecognized "")) :=
  have h := C25_space_line_rejected ["# c", "Sunday\tx"] ["Monday\ty"] 3 "foo" none "/cal"
    (by decide)
    (by
      intro l hl hd n
      simp only [List.mem_cons, List.mem_singleton, List.not_mem_nil, or_false] at hl
      rcases hl with rfl | rfl
      · exact absurd hd (by decide)
      · exact ⟨.Weekday 0, rfl⟩)
    (by decide)
  ⟨h.1, h.2.1, h.2.2 (by decide)⟩

/-! ## The JSON export determines the date spec -/

namespace datespec

theorem MarshalJSON_Daily :
    DateSpec.Daily.MarshalJSON = .object [("type", .string "daily")] := rfl

theorem MarshalJSON_Union (Specs : List DateSpec) :
    (DateSpec.Union Specs).MarshalJSON
      = .object [("specs", .array (MarshalJSONAll Specs)), ("type", .string "union")] := rfl

theorem MarshalJSON_EveryNthDay (Count : Int) :
    (DateSpec.EveryNthDay Count).MarshalJSON
      = .object [
          ("baseDate", .object [("day", .number 1), ("month", .number 1),
            ("year", .number 1970)]),
          ("n", .number Count),
          ("spec", .object [("type", .string "daily")]),
          ("type", .string "everyNth")] := rfl

theorem MarshalJSON_EveryNthWeekday (Weekday Count : Int) :
    (DateSpec.EveryNthWeekday Weekday Count).MarshalJSON
      = .object [
          ("baseDate", .object [("day", .number 1), ("month", .number 1),
            ("year", .number 1970)]),
          ("n", .number Count),
          ("spec", .object [("type", .string "dayOfWeek"),
            ("weekday", .number (Weekday + 1))]),
          ("type", .string "everyNth")] := rfl

theorem MarshalJSON_Weekday (Weekday : Int) :
    (DateSpec.Weekday Weekday).MarshalJSON
      = .object [("type", .string "dayOfWeek"), ("weekday", .number (Weekday + 1))] := rfl

theorem MarshalJSON_DayOfMonth (Day : Int) :
    (DateSpec.DayOfMonth Day).MarshalJSON
      = .object [("day", .number Day), ("type", .string "dayOfMonth")] := rfl

theorem MarshalJSON_Yearly (Month Day : Int) :
    (DateSpec.Yearly Month Day).MarshalJSON
      = .object [("day", .number Day), ("month", .number Month),
          ("type", .string "dayOfYear")] := rfl

theorem MarshalJSON_SingleDay (Year Month Day : Int) :
    (DateSpec.SingleDay Year Month Day).MarshalJSON
      = .object [
          ("date", .object [("day", .number Day), ("month", .number Month),
            ("year", .number Year)]),
          ("type", .string "singleDay")] := rfl

mutual
/-- Two date specs with the same `MarshalJSON` are the same spec. -/
theorem MarshalJSON_injective (a b : DateSpec) (h : a.MarshalJSON = b.MarshalJSON) :
    a = b := by
  match a with
  | .Union l =>
    cases b with
    | Union l2 =>
      simp only [MarshalJSON_Union, json.Value.object.injEq, List.cons.injEq, Prod.mk.injEq,
        json.Value.array.injEq, true_and, and_true] at h
      rw [MarshalJSONAll_injective l l2 h]
    | _ =>
      simp [MarshalJSON_Daily, MarshalJSON_Union, MarshalJSON_EveryNthDay,
        MarshalJSON_EveryNthWeekday, MarshalJSON_Weekday, MarshalJSON_DayOfMonth,
        MarshalJSON_Yearly, MarshalJSON_SingleDay] at h
  | .Daily =>
    cases b <;>
      simp [MarshalJSON_Daily, MarshalJSON_Union, MarshalJSON_EveryNthDay,
        MarshalJSON_EveryNthWeekday, MarshalJSON_Weekday, MarshalJSON_DayOfMonth,
        MarshalJSON_Yearly, MarshalJSON_SingleDay] at h ⊢
  | .EveryNthDay c =>
    cases b <;>
      simp [MarshalJSON_Daily, MarshalJSON_Union, MarshalJSON_EveryNthDay,
        MarshalJSON_EveryNthWeekday, MarshalJSON_Weekday, MarshalJSON_DayOfMonth,
        MarshalJSON_Yearly, MarshalJSON_SingleDay] at h ⊢
    exact h
  | .Weekday w =>
    cases b <;>
      simp [MarshalJSON_Daily, MarshalJSON_Union, MarshalJSON_EveryNthDay,
        MarshalJSON_EveryNthWeekday, MarshalJSON_Weekday, MarshalJSON_DayOfMonth,
        MarshalJSON_Yearly, MarshalJSON_SingleDay] at h ⊢
    exact h
  | .EveryNthWeekday w c =>
    cases b <;>
      simp [MarshalJSON_Daily, MarshalJSON_Union, MarshalJSON_EveryNthDay,
        MarshalJSON_EveryNthWeekday, MarshalJSON_Weekday, MarshalJSON_DayOfMonth,
        MarshalJSON_Yearly, MarshalJSON_SingleDay] at h ⊢
    exact ⟨h.2, h.1⟩
  | .DayOfMonth d =>
    cases b <;>
      simp [MarshalJSON_Daily, MarshalJSON_Union, MarshalJSON_EveryNthDay,
        MarshalJSON_EveryNthWeekday, MarshalJSON_Weekday, MarshalJSON_DayOfMonth,
        MarshalJSON_Yearly, MarshalJSON_SingleDay] at h ⊢
    exact h
  | .Yearly m d =>
    cases b <;>
      simp [MarshalJSON_Daily, MarshalJSON_Union, MarshalJSON_EveryNthDay,
        MarshalJSON_EveryNthWeekday, MarshalJSON_Weekday, MarshalJSON_DayOfMonth,
        MarshalJSON_Yearly, MarshalJSON_SingleDay] at h ⊢
    exact ⟨h.2, h.1⟩
  | .SingleDay y m d =>
    cases b <;>
      simp [MarshalJSON_Daily, MarshalJSON_Union, MarshalJSON_EveryNthDay,
        MarshalJSON_EveryNthWeekday, MarshalJSON_Weekday, MarshalJSON_DayOfMonth,
        MarshalJSON_Yearly, MarshalJSON_SingleDay] at h ⊢
    exact ⟨h.2.2, h.2.1, h.1⟩
/-- Two lists of date specs with the same JSON arrays are the same list. -/
theorem MarshalJSONAll_injective (l l2 : List DateSpec)
    (h : MarshalJSONAll l = MarshalJSONAll l2) : l = l2 := by
  match l, l2 with
  | [], [] => rfl
  | [], _ :: _ => simp [MarshalJSONAll] at h
  | _ :: _, [] => simp [MarshalJSONAll] at h
  | a :: r, b :: r2 =>
    simp only [MarshalJSONAll, List.cons.injEq] at h
    rw [MarshalJSON_injective a b h.1, MarshalJSONAll_injective r r2 h.2]
end

end datespec

open parser datespec

/-- C26: the JSON export is lossless on date specs: two `DateSpec` values have the same
`MarshalJSON` exactly when they are the same value, variant, fields and children in order;
in particular `EveryNthDay` and `EveryNthWeekday`, which share the type tag `everyNth`, never
have the same `MarshalJSON`, whatever their fields. -/
theorem C26_marshalJSON_lossless (a b : DateSpec) (n w m : Int) :
    (a.MarshalJSON = b.MarshalJSON ↔ a = b) ∧
    (DateSpec.EveryNthDay n).MarshalJSON ≠ (DateSpec.EveryNthWeekday w m).MarshalJSON :=
  ⟨⟨MarshalJSON_injective a b, fun h => by rw [h]⟩,
    fun h => by cases MarshalJSON_injective _ _ h⟩
